import Mathlib

/-!
# GeneralizedOctree: a shallow embedding of `octree.cpp`

The C++ octree stores opaque objects (`void *`) in the leaves of a tree of
`Cell`s and keeps, per object, the list of cells that hold it (`cellMap`).

Modelling decisions, all taken from `octree.h` / `octree.cpp`:

* `void *` objects are natural numbers (the pointer value); only identity is used.
* The owned tree `rootCell` is an inductive tree.  A `Cell *` is a `CellRef`: the
  list of octant indices leading from `rootCell` to the cell, root first.  The
  member `parent` is the reference without its last index (`parentRef`), and it
  is `NULL` (here `none`) for the root.  Dereferencing a reference that no
  longer resolves (the cell was deleted) is undefined behaviour and makes the
  operation return `none`; so does `subcells[i]` past the end of the vector.
  No operation creates cells while it holds a pointer to a deleted one (only
  `remove` can meet such a pointer, and it creates none), so a stale pointer
  never resolves to a cell created later at the same position.
* `cellMap` (`std::unordered_map<void *, CellList>`) is an association list;
  a new key is placed at the end.  The container iterates in an unspecified
  order, so the loop of `resetWithBounds` takes the order in which it meets the
  keys as an argument (`order`), and a reachable state arises from any
  permutation of the keys.
* `Eigen::Vector3f` coordinates are exact rationals.
* The callback `ObjectCellIntersectionTest` receives the cell and is taken to
  read its geometric members `lowBound`, `highBound`, `center` only.
* `insertHelper` recurses into cells it has just created, so it is defined with
  a recursion budget (`fuel`); `none` from an exhausted budget is told apart
  from a result by the theorems, which exhibit a budget that suffices.
* `int lvl` / `unsigned maxDepth` are unbounded naturals.
* The intersection tests of `geometry.cpp` are embedded as their formulas over exact
  rationals, which is what the code computes where no `float` operation rounds; a result of
  three `NAN` is `none`, and `sqrt` is a parameter.
-/

namespace GeneralizedOctree

/-! ## Data model (`octree.h`) -/

/-- An object handle, `void *` in the source. -/
abbrev Obj := Nat

/-- A `Cell *`: octant indices from `rootCell` down to the cell. -/
abbrev CellRef := List Nat

abbrev ObjectList := List Obj
abbrev CellList := List CellRef

/-- The index `std::unordered_map<void *, CellList>` as the list of its entries. The order of
the list (the order in which the keys came in) is not an order of the container, which
iterates in an unspecified order. -/
abbrev CellMap := List (Obj × CellList)

/-- Three coordinates, `Eigen::Vector3f` in the source, indices `(0)`, `(1)`, `(2)`. -/
structure Vector3f where
  x : ℚ
  y : ℚ
  z : ℚ
deriving DecidableEq

/-- The geometric members of a `Cell`, which is what a region callback reads. -/
structure Region where
  lowBound : Vector3f
  highBound : Vector3f
  center : Vector3f
deriving DecidableEq

/-- The class `Cell`; the member `parent` is implicit in the position in the tree. -/
structure Cell where
  lowBound : Vector3f
  highBound : Vector3f
  center : Vector3f
  subcells : List Cell
  objects : ObjectList

abbrev ObjectCellIntersectionTest := Obj → Region → Bool
abbrev ObjectObjectIntersectionTest := Obj → Obj → Bool

/-- The class `Octree`. -/
structure Octree where
  rootCell : Cell
  cellMap : CellMap
  maxDepth : Nat
  objectInCellTest : ObjectCellIntersectionTest

/-! ## `Cell` -/

def Cell.region (c : Cell) : Region :=
  ⟨c.lowBound, c.highBound, c.center⟩

/-- The constructor `Cell::Cell(parent, lowBound, highBound)`. -/
def Cell.new (lowBound highBound : Vector3f) : Cell :=
  { lowBound := lowBound
    highBound := highBound
    center := ⟨(lowBound.x + highBound.x) / 2, (lowBound.y + highBound.y) / 2,
               (lowBound.z + highBound.z) / 2⟩
    subcells := []
    objects := [] }

/-- Source: `Cell::isLeaf`. -/
def Cell.isLeaf (c : Cell) : Bool :=
  c.subcells.length == 0

/-- Source: `Cell::split`: eight `push_back`s of new cells, in the subcell order 0..7. -/
def Cell.split (c : Cell) : Cell :=
  { c with
    subcells := c.subcells ++
      [ Cell.new c.lowBound c.center,
        Cell.new ⟨c.lowBound.x, c.lowBound.y, c.center.z⟩ ⟨c.center.x, c.center.y, c.highBound.z⟩,
        Cell.new ⟨c.lowBound.x, c.center.y, c.lowBound.z⟩ ⟨c.center.x, c.highBound.y, c.center.z⟩,
        Cell.new ⟨c.lowBound.x, c.center.y, c.center.z⟩ ⟨c.center.x, c.highBound.y, c.highBound.z⟩,
        Cell.new ⟨c.center.x, c.lowBound.y, c.lowBound.z⟩ ⟨c.highBound.x, c.center.y, c.center.z⟩,
        Cell.new ⟨c.center.x, c.lowBound.y, c.center.z⟩ ⟨c.highBound.x, c.center.y, c.highBound.z⟩,
        Cell.new ⟨c.center.x, c.center.y, c.lowBound.z⟩ ⟨c.highBound.x, c.highBound.y, c.center.z⟩,
        Cell.new c.center c.highBound ] }

/-- Dereference of a `Cell *` starting from the root; `none` when the cell does not exist. -/
def cellAt : Cell → CellRef → Option Cell
  | c, [] => some c
  | c, i :: p =>
    match c.subcells[i]? with
    | none => none
    | some sub => cellAt sub p

/-- In-place update through a `Cell *`; `none` when the cell does not exist. -/
def modifyAt (f : Cell → Cell) : Cell → CellRef → Option Cell
  | c, [] => some (f c)
  | c, i :: p =>
    match c.subcells[i]? with
    | none => none
    | some sub =>
      match modifyAt f sub p with
      | none => none
      | some sub' => some { c with subcells := c.subcells.set i sub' }

/-- The member `parent` of the cell behind a reference (`NULL` for the root). -/
def parentRef : CellRef → Option CellRef
  | [] => none
  | i :: p => some ((i :: p).dropLast)

/-! ## `cellMap` -/

/-- Source: `cellMap.find(object)`: the cell list of the entry, if there is one. -/
def CellMap.find : CellMap → Obj → Option CellList
  | [], _ => none
  | (k, v) :: rest, o => if k = o then some v else CellMap.find rest o

/-- Source: `it->second.push_back(cell)` on the entry found for `object`. -/
def CellMap.pushBack : CellMap → Obj → CellRef → CellMap
  | [], _, _ => []
  | (k, v) :: rest, o, cell =>
    if k = o then (k, v ++ [cell]) :: rest else (k, v) :: CellMap.pushBack rest o cell

/-- Source: `cellMap.erase(object)`. -/
def CellMap.erase (m : CellMap) (o : Obj) : CellMap :=
  m.filter (fun e => e.1 ≠ o)

/-- Source: `it->second.clear()` on the entry of `object`. -/
def CellMap.clearEntry : CellMap → Obj → CellMap
  | [], _ => []
  | (k, v) :: rest, o =>
    if k = o then (k, []) :: rest else (k, v) :: CellMap.clearEntry rest o

/-- Source: `Octree::addCellToMap`. -/
def addCellToMap (cellMap : CellMap) (object : Obj) (cell : CellRef) : CellMap :=
  match cellMap.find object with
  | none => cellMap ++ [(object, [cell])]
  | some _ => cellMap.pushBack object cell

/-! ## Construction and insertion -/

/-- The constructor `Octree::Octree`. -/
def Octree.new (lowBound highBound : Vector3f) (maxDepth : Nat)
    (objectInCellTest : ObjectCellIntersectionTest) : Octree :=
  { rootCell := Cell.new lowBound highBound
    cellMap := []
    maxDepth := maxDepth
    objectInCellTest := objectInCellTest }

/-- The loop `for (int i = 0; i < 8; i++) insertHelper(object, cell->subcells[i], lvl+1)`,
with `n` iterations left and `i` the loop counter; `body i sub cellMap` is the call. -/
def insertSubcells (body : Nat → Cell → CellMap → Option (Cell × CellMap)) :
    Nat → Nat → Cell → CellMap → Option (Cell × CellMap)
  | 0, _, cell, cellMap => some (cell, cellMap)
  | n + 1, i, cell, cellMap =>
    match cell.subcells[i]? with
    | none => none
    | some sub =>
      match body i sub cellMap with
      | none => none
      | some (sub', cellMap') =>
        insertSubcells body n (i + 1) { cell with subcells := cell.subcells.set i sub' } cellMap'

/-- Source: `Octree::insertHelper(object, cell, lvl)`; `path` is the pointer `cell`, and the
result is the cell after the call together with the updated `cellMap`. -/
def insertHelper (objectInCellTest : ObjectCellIntersectionTest) (maxDepth : Nat) (object : Obj) :
    Nat → CellRef → Cell → Nat → CellMap → Option (Cell × CellMap)
  | 0, _, _, _, _ => none
  | fuel + 1, path, cell, lvl, cellMap =>
    if objectInCellTest object cell.region then
      if cell.isLeaf then
        if lvl = maxDepth then
          some ({ cell with objects := cell.objects ++ [object] }, addCellToMap cellMap object path)
        else
          insertSubcells
            (fun i sub m => insertHelper objectInCellTest maxDepth object fuel (path ++ [i]) sub (lvl + 1) m)
            8 0 cell.split cellMap
      else
        insertSubcells
          (fun i sub m => insertHelper objectInCellTest maxDepth object fuel (path ++ [i]) sub (lvl + 1) m)
          8 0 cell cellMap
    else
      some (cell, cellMap)

/-- Source: `Octree::insert`, with the recursion budget given to `insertHelper`. -/
def Octree.insert (fuel : Nat) (object : Obj) (s : Octree) : Option Octree :=
  match insertHelper s.objectInCellTest s.maxDepth object fuel [] s.rootCell 0 s.cellMap with
  | none => none
  | some (root, cellMap) => some { s with rootCell := root, cellMap := cellMap }

/-! ## Removal -/

/-- The first loop of `removeSubcellsAndClimbIfEmpty`: `some false` is the early
`return`, `some true` means all eight subcells are leaves without objects. -/
def subcellsAllEmpty (cell : Cell) : Nat → Nat → Option Bool
  | 0, _ => some true
  | n + 1, i =>
    match cell.subcells[i]? with
    | none => none
    | some sub =>
      if !sub.isLeaf || sub.objects.length > 0 then some false
      else subcellsAllEmpty cell n (i + 1)

/-- The body of `Octree::removeSubcellsAndClimbIfEmpty(cell)` up to the recursive call,
acting on the tree under `root`: the result tells whether the subcells were deleted. -/
def removeSubcellsIfEmpty (root : Cell) (ref : CellRef) : Option (Cell × Bool) :=
  match cellAt root ref with
  | none => none
  | some cell =>
    match subcellsAllEmpty cell 8 0 with
    | none => none
    | some false => some (root, false)
    | some true =>
      match modifyAt (fun c => { c with subcells := [] }) root ref with
      | none => none
      | some root' => some (root', true)

/-- Source: `Octree::removeSubcellsAndClimbIfEmpty(cell)`; the pointer `cell` is given with its
indices reversed, so that the tail of the list is the parent and `[]` has parent `NULL`. -/
def climbIfEmpty : List Nat → Cell → Option Cell
  | [], root =>
    match removeSubcellsIfEmpty root [] with
    | none => none
    | some (root', _) => some root'
  | i :: parentRev, root =>
    match removeSubcellsIfEmpty root (i :: parentRev).reverse with
    | none => none
    | some (root', false) => some root'
    | some (root', true) => climbIfEmpty parentRev root'

/-- Source: `Octree::removeSubcellsAndClimbIfEmpty(cell)` for a reference in root-first order. -/
def removeSubcellsAndClimbIfEmpty (root : Cell) (cell : CellRef) : Option Cell :=
  climbIfEmpty cell.reverse root

/-- The step `objs.erase(std::remove(objs.begin(), objs.end(), specObj), objs.end())`. -/
def eraseObject (specObj : Obj) (c : Cell) : Cell :=
  { c with objects := c.objects.filter (fun x => x ≠ specObj) }

/-- The loop of `Octree::remove` over the cells recorded for `specObj`. -/
def removeFromCells (specObj : Obj) : CellList → Cell → Option Cell
  | [], root => some root
  | cell :: rest, root =>
    match modifyAt (eraseObject specObj) root cell with
    | none => none
    | some root1 =>
      match parentRef cell with
      | none => removeFromCells specObj rest root1
      | some parent =>
        match removeSubcellsAndClimbIfEmpty root1 parent with
        | none => none
        | some root2 => removeFromCells specObj rest root2

/-- Source: `Octree::remove`. -/
def Octree.remove (specObj : Obj) (s : Octree) : Option Octree :=
  match s.cellMap.find specObj with
  | none => some s
  | some cells =>
    match removeFromCells specObj cells s.rootCell with
    | none => none
    | some root => some { s with rootCell := root, cellMap := s.cellMap.erase specObj }

/-- Source: `Octree::update`: `remove(specObj); insert(specObj);`. -/
def Octree.update (fuel : Nat) (specObj : Obj) (s : Octree) : Option Octree :=
  match s.remove specObj with
  | none => none
  | some s1 => s1.insert fuel specObj

/-! ## Clearing and rebuilding -/

mutual
/-- Source: `Octree::clearCellRecursive`: the walk that deletes the cells below the root. It changes
nothing that `clear` does not overwrite, so only whether the walk is defined is kept. -/
def clearCellRecursive : Cell → Option Unit
  | Cell.mk _ _ _ subcells _ =>
    if subcells.length == 0 then some () else clearSubcells 8 subcells
/-- The loop `for (int i = 0; i < 8; i++) clearCellRecursive(cell->subcells[i])`. -/
def clearSubcells : Nat → List Cell → Option Unit
  | 0, _ => some ()
  | _ + 1, [] => none
  | n + 1, sub :: rest =>
    match clearCellRecursive sub with
    | none => none
    | some _ => clearSubcells n rest
end

/-- Source: `Octree::clear`. -/
def Octree.clear (s : Octree) : Option Octree :=
  match clearCellRecursive s.rootCell with
  | none => none
  | some _ => some { s with rootCell := { s.rootCell with subcells := [], objects := [] }, cellMap := [] }

/-- The loop of `resetWithBounds` over the entries of `cellMap`:
`it->second.clear(); insert(it->first);`. -/
def reinsertAll (fuel : Nat) : List Obj → Octree → Option Octree
  | [], s => some s
  | object :: rest, s =>
    match Octree.insert fuel object { s with cellMap := s.cellMap.clearEntry object } with
    | none => none
    | some s1 => reinsertAll fuel rest s1

/-- Source: `Octree::resetWithBounds`. The loop `for (it = cellMap.begin(); it != cellMap.end();
it++)` meets the keys in the order `order`, which the container chooses: a permutation of
the keys of `cellMap`. -/
def Octree.resetWithBounds (fuel : Nat) (order : List Obj) (lowBound highBound : Vector3f)
    (s : Octree) : Option Octree :=
  match clearCellRecursive s.rootCell with
  | none => none
  | some _ =>
    reinsertAll fuel order
      { s with
        rootCell :=
          { lowBound := lowBound
            highBound := highBound
            center := ⟨(lowBound.x + highBound.x) / 2, (lowBound.y + highBound.y) / 2,
                       (lowBound.z + highBound.z) / 2⟩
            subcells := []
            objects := [] } }

/-! ## Queries -/

/-- The loop over the objects of one cell, the same in both query modes:
`if (obj != specObj && objObjTest(specObj, obj))` push `obj` (unless `collisions` is
`NULL`, here `none`) and set `hasCollision`. -/
def scanObjects (specObj : Obj) (objObjTest : ObjectObjectIntersectionTest) :
    ObjectList → Option ObjectList → Bool → Bool × Option ObjectList
  | [], collisions, hasCollision => (hasCollision, collisions)
  | obj :: rest, collisions, hasCollision =>
    if obj ≠ specObj && objObjTest specObj obj then
      scanObjects specObj objObjTest rest (collisions.map (fun l => l ++ [obj])) true
    else
      scanObjects specObj objObjTest rest collisions hasCollision

mutual
/-- Source: `Octree::testIntersectionOutsideHelper`; note the region test on `rootCell`. -/
def testIntersectionOutsideHelper (rootCell : Cell) (specObj : Obj)
    (objCellTest : ObjectCellIntersectionTest) (objObjTest : ObjectObjectIntersectionTest) :
    Cell → Option ObjectList → Option (Bool × Option ObjectList)
  | Cell.mk _ _ _ subcells objects, collisions =>
    if objCellTest specObj rootCell.region then
      if subcells.length == 0 then
        some (scanObjects specObj objObjTest objects collisions false)
      else
        outsideSubcells rootCell specObj objCellTest objObjTest 8 subcells collisions false
    else
      some (false, collisions)
/-- The loop `for (int i = 0; i < 8; i++) hasCollision |= testIntersectionOutsideHelper(...)`. -/
def outsideSubcells (rootCell : Cell) (specObj : Obj)
    (objCellTest : ObjectCellIntersectionTest) (objObjTest : ObjectObjectIntersectionTest) :
    Nat → List Cell → Option ObjectList → Bool → Option (Bool × Option ObjectList)
  | 0, _, collisions, hasCollision => some (hasCollision, collisions)
  | _ + 1, [], _, _ => none
  | n + 1, sub :: rest, collisions, hasCollision =>
    match testIntersectionOutsideHelper rootCell specObj objCellTest objObjTest sub collisions with
    | none => none
    | some (b, collisions') =>
      outsideSubcells rootCell specObj objCellTest objObjTest n rest collisions' (hasCollision || b)
end

/-- Source: `Octree::testIntersectionOutside`. -/
def Octree.testIntersectionOutside (s : Octree) (obj : Obj)
    (objCellTest : ObjectCellIntersectionTest) (objObjTest : ObjectObjectIntersectionTest)
    (collisions : Option ObjectList) : Option (Bool × Option ObjectList) :=
  testIntersectionOutsideHelper s.rootCell obj objCellTest objObjTest s.rootCell collisions

/-- The loop of `testIntersectionInside` over the cells recorded for `specObj`. -/
def insideCells (root : Cell) (specObj : Obj) (objObjTest : ObjectObjectIntersectionTest) :
    CellList → Option ObjectList → Bool → Option (Bool × Option ObjectList)
  | [], collisions, hasCollision => some (hasCollision, collisions)
  | cell :: rest, collisions, hasCollision =>
    match cellAt root cell with
    | none => none
    | some c =>
      insideCells root specObj objObjTest rest
        (scanObjects specObj objObjTest c.objects collisions hasCollision).2
        (scanObjects specObj objObjTest c.objects collisions hasCollision).1

/-- Source: `Octree::testIntersectionInside`. -/
def Octree.testIntersectionInside (s : Octree) (specObj : Obj)
    (objObjTest : ObjectObjectIntersectionTest) (collisions : Option ObjectList) :
    Option (Bool × Option ObjectList) :=
  match s.cellMap.find specObj with
  | none => some (false, collisions)
  | some cells => insideCells s.rootCell specObj objObjTest cells collisions false

/-- Source: `Octree::testIntersection`; a `NULL` region callback is `none`. -/
def Octree.testIntersection (s : Octree) (object : Obj)
    (objCellTest : Option ObjectCellIntersectionTest) (objObjTest : ObjectObjectIntersectionTest)
    (collisions : Option ObjectList) : Option (Bool × Option ObjectList) :=
  match objCellTest with
  | none => s.testIntersectionInside object objObjTest collisions
  | some test =>
    if (s.cellMap.find object).isSome then s.testIntersectionInside object objObjTest collisions
    else s.testIntersectionOutside object test objObjTest collisions

/-! ## Reachable states -/

/-- States reachable from a freshly constructed octree by the public mutators. Objects are
owned by the caller and may move between calls, which changes what the region callback
answers for them: `moved` replaces the extension of the callback. -/
inductive Reachable : Octree → Prop
  | fresh (lowBound highBound : Vector3f) (maxDepth : Nat) (test : ObjectCellIntersectionTest) :
      Reachable (Octree.new lowBound highBound maxDepth test)
  | insert {s s' : Octree} (fuel : Nat) (object : Obj) :
      Reachable s → s.insert fuel object = some s' → Reachable s'
  | remove {s s' : Octree} (object : Obj) :
      Reachable s → s.remove object = some s' → Reachable s'
  | update {s s' : Octree} (fuel : Nat) (object : Obj) :
      Reachable s → s.update fuel object = some s' → Reachable s'
  | clear {s s' : Octree} :
      Reachable s → s.clear = some s' → Reachable s'
  | resetWithBounds {s s' : Octree} (fuel : Nat) (order : List Obj)
      (lowBound highBound : Vector3f) :
      Reachable s → order.Perm (s.cellMap.map Prod.fst) →
      s.resetWithBounds fuel order lowBound highBound = some s' → Reachable s'
  | moved {s : Octree} (test : ObjectCellIntersectionTest) :
      Reachable s → Reachable { s with objectInCellTest := test }

/-! ## Notions used to state the properties -/

/-- Every cell has no subcells or exactly eight. -/
def ShapeOk (root : Cell) : Prop :=
  ∀ p c, cellAt root p = some c → c.subcells = [] ∨ c.subcells.length = 8

/-- No cell lies more than `k` levels below `root`. -/
def DepthOk (k : Nat) (root : Cell) : Prop :=
  ∀ p c, cellAt root p = some c → p.length ≤ k

/-- Repeated `addCellToMap` for one object. -/
def addCells (cellMap : CellMap) (object : Obj) (cells : CellList) : CellMap :=
  cells.foldl (fun m c => addCellToMap m object c) cellMap

/-- The cells recorded for an object, none when it has no entry. -/
def cellsOf (cellMap : CellMap) (object : Obj) : CellList :=
  (cellMap.find object).getD []

/-- The references, relative to `c` and in depth-first octant order, of the cells `k` levels
below `c` that are reached through accepted cells only and are accepted themselves. -/
def acceptedLeaves (test : ObjectCellIntersectionTest) (o : Obj) : Nat → Cell → CellList
  | 0, c => if test o c.region then [[]] else []
  | k + 1, c =>
    if test o c.region then
      (List.range 8).flatMap (fun i =>
        match c.subcells[i]? with
        | none => []
        | some sub => (acceptedLeaves test o k sub).map (fun q => i :: q))
    else []

/-- What one call of `insertHelper` on `cell` (reference `path`, `k` levels above the
maximum depth) does: `cell'` and `m'` are the cell and the index after the call. -/
def InsertSpec (test : ObjectCellIntersectionTest) (o : Obj) (path : CellRef) (cell : Cell)
    (m : CellMap) (k : Nat) (cell' : Cell) (m' : CellMap) : Prop :=
  m' = addCells m o ((acceptedLeaves test o k cell').map (fun q => path ++ q)) ∧
  ShapeOk cell' ∧ DepthOk k cell' ∧
  (∀ q c, cellAt cell q = some c → ∃ c', cellAt cell' q = some c' ∧ c'.region = c.region ∧
    c'.objects = c.objects ++ (if q ∈ acceptedLeaves test o k cell' then [o] else [])) ∧
  (∀ q c', cellAt cell' q = some c' → cellAt cell q = none →
    c'.objects = (if q ∈ acceptedLeaves test o k cell' then [o] else []))

/-- All references of length `k`, in depth-first octant order. -/
def allRefs : Nat → CellList
  | 0 => [[]]
  | k + 1 => (List.range 8).flatMap (fun i => (allRefs k).map (fun q => i :: q))

/-- The cell behind `p` and all its ancestors up to `root` exist and are accepted for `o`. -/
def acceptedChain (test : ObjectCellIntersectionTest) (o : Obj) (root : Cell) (p : CellRef) : Bool :=
  p.inits.all (fun r =>
    match cellAt root r with
    | some c => test o c.region
    | none => false)

/-- The cells at depth `maxDepth` that are accepted for `o` together with all their
ancestors, in depth-first octant order. -/
def acceptedCells (s : Octree) (o : Obj) : CellList :=
  (allRefs s.maxDepth).filter (fun p => acceptedChain s.objectInCellTest o s.rootCell p)

/-- Two cells with the same members apart from what lies below them. -/
def SameNode (c c' : Cell) : Prop :=
  c'.region = c.region ∧ c'.objects = c.objects ∧ c'.subcells.length = c.subcells.length

/-! ### Concrete states -/

/-- A fresh octree of maximum depth 0 that accepts every object everywhere. -/
def exampleFlat : Octree :=
  Octree.new ⟨0, 0, 0⟩ ⟨8, 8, 8⟩ 0 (fun _ _ => true)

/-- The state `exampleFlat` after `insert(7)`. -/
def exampleFlatOne : Octree :=
  { exampleFlat with
    rootCell := { exampleFlat.rootCell with objects := [7] }
    cellMap := [(7, [[]])] }

/-- A fresh octree of maximum depth 1 that accepts every object everywhere. -/
def exampleWide : Octree :=
  Octree.new ⟨0, 0, 0⟩ ⟨8, 8, 8⟩ 1 (fun _ _ => true)

/-- The split root of `exampleWide` with the given objects in each of the eight leaves. -/
def exampleWideRoot (objects : ObjectList) : Cell :=
  { exampleWide.rootCell with
    subcells := exampleWide.rootCell.split.subcells.map (fun c => { c with objects := objects }) }

/-- The state `exampleWide` after `insert(1)`. -/
def exampleWideOne : Octree :=
  { exampleWide with rootCell := exampleWideRoot [1], cellMap := [(1, allRefs 1)] }

/-- The state `exampleWide` after `insert(1); insert(1)`. -/
def exampleWideTwice : Octree :=
  { exampleWide with rootCell := exampleWideRoot [1, 1], cellMap := [(1, allRefs 1 ++ allRefs 1)] }

/-- The state `exampleWide` after `insert(1); insert(2)`. -/
def exampleWidePair : Octree :=
  { exampleWide with
    rootCell := exampleWideRoot [1, 2]
    cellMap := [(1, allRefs 1), (2, allRefs 1)] }

/-- A region callback for two small objects in opposite corners of the box (0,0,0)-(8,8,8):
object 1 overlaps the cells whose low corner is below 4 on every axis, every other object
the cells whose high corner is above 4 on every axis. -/
def cornerTest : ObjectCellIntersectionTest := fun o r =>
  if o = 1 then decide (r.lowBound.x < 4 ∧ r.lowBound.y < 4 ∧ r.lowBound.z < 4)
  else decide (4 < r.highBound.x ∧ 4 < r.highBound.y ∧ 4 < r.highBound.z)

/-- A fresh octree of maximum depth 1 with the callback `cornerTest`. -/
def exampleCorner : Octree :=
  Octree.new ⟨0, 0, 0⟩ ⟨8, 8, 8⟩ 1 cornerTest

/-- The cell `c` with the object list of its subcell `i` replaced. -/
def setSubcellObjects (c : Cell) (i : Nat) (objects : ObjectList) : Cell :=
  { c with subcells := c.subcells.modify (fun sub => { sub with objects := objects }) i }

/-- The state `exampleCorner` after `insert(1)`: object 1 is in octant 0. -/
def exampleCornerOne : Octree :=
  { exampleCorner with
    rootCell := setSubcellObjects exampleCorner.rootCell.split 0 [1]
    cellMap := [(1, [[0]])] }

/-- The state `exampleCorner` after `insert(1); insert(2)`: object 2 is in octant 7. -/
def exampleCornerTwo : Octree :=
  { exampleCorner with
    rootCell := setSubcellObjects (setSubcellObjects exampleCorner.rootCell.split 0 [1]) 7 [2]
    cellMap := [(1, [[0]]), (2, [[7]])] }

/-- The tree `root'` is `root` with some groups of empty leaves deleted: every cell of `root'`
is a cell of `root` with the same bounds and objects, and no cell holding an object is lost. -/
def Pruned (root root' : Cell) : Prop :=
  (∀ p c', cellAt root' p = some c' → ∃ c, cellAt root p = some c ∧ c'.region = c.region ∧
    c'.objects = c.objects ∧ (c'.subcells = [] ∨ c'.subcells.length = c.subcells.length)) ∧
  (∀ p c, cellAt root p = some c → c.objects ≠ [] → ∃ c', cellAt root' p = some c')

/-- The state of the loop of `remove` for `o`: `cur` is the tree after the cells `done` have
been visited, `root0` the tree at the start, `k` the maximum depth. -/
def RemoveInv (o : Obj) (k : Nat) (root0 : Cell) (done : CellList) (cur : Cell) : Prop :=
  ShapeOk cur ∧ DepthOk k cur ∧
  (∀ p c2, cellAt cur p = some c2 → ∃ c1, cellAt root0 p = some c1 ∧ c2.region = c1.region ∧
    c2.objects = (if p ∈ done then c1.objects.filter (fun x => x ≠ o) else c1.objects)) ∧
  (∀ p c1, cellAt root0 p = some c1 →
    (if p ∈ done then c1.objects.filter (fun x => x ≠ o) else c1.objects) ≠ [] →
    ∃ c2, cellAt cur p = some c2)

/-- The invariant of the octree: shape and depth of the cells, objects only in cells of
maximum depth, agreement of index and tree, and one index entry per object. -/
structure Inv (s : Octree) : Prop where
  shape : ShapeOk s.rootCell
  depth : DepthOk s.maxDepth s.rootCell
  occupied : ∀ p c, cellAt s.rootCell p = some c → c.objects ≠ [] → p.length = s.maxDepth
  agree : ∀ o p, p ∈ cellsOf s.cellMap o ↔ ∃ c, cellAt s.rootCell p = some c ∧ o ∈ c.objects
  keys : (s.cellMap.map Prod.fst).Nodup

/-- The cell behind `p` exists and its object list contains `o`. -/
def Holds (root : Cell) (p : CellRef) (o : Obj) : Prop :=
  ∃ c, cellAt root p = some c ∧ o ∈ c.objects

/-- The keys of the index. -/
def keysOf (m : CellMap) : List Obj :=
  m.map Prod.fst

/-- The state of the loop of `resetWithBounds`: the objects `pending` are still to be
inserted again and are held by no cell; index and tree agree on all other objects. -/
structure ResetInv (pending : List Obj) (s : Octree) : Prop where
  shape : ShapeOk s.rootCell
  depth : DepthOk s.maxDepth s.rootCell
  occupied : ∀ p c, cellAt s.rootCell p = some c → c.objects ≠ [] → p.length = s.maxDepth
  keys : (keysOf s.cellMap).Nodup
  nodup : pending.Nodup
  absent : ∀ z, z ∈ pending → ∀ p, ¬ Holds s.rootCell p z
  agree : ∀ z, z ∉ pending → ∀ p, p ∈ cellsOf s.cellMap z ↔ Holds s.rootCell p z

/-- The object list of the cell behind `p`, empty when there is no such cell. -/
def objectsAt (root : Cell) (p : CellRef) : ObjectList :=
  match cellAt root p with
  | some c => c.objects
  | none => []

/-- The objects, other than `o`, that the object test relates to `o`, among `objects`. -/
def collidingIn (o : Obj) (objObjTest : ObjectObjectIntersectionTest) (objects : ObjectList) :
    ObjectList :=
  objects.filter (fun x => decide (x ≠ o) && objObjTest o x)

/-- The colliding objects of the cells `cells`, cell after cell. -/
def collisionsFrom (root : Cell) (o : Obj) (objObjTest : ObjectObjectIntersectionTest)
    (cells : CellList) : ObjectList :=
  cells.flatMap (fun p => collidingIn o objObjTest (objectsAt root p))

/-- States reachable from a freshly constructed octree when `insert` is only called for
objects that have no index entry at the time of the call. -/
inductive ReachableUnique : Octree → Prop
  | fresh (lowBound highBound : Vector3f) (maxDepth : Nat) (test : ObjectCellIntersectionTest) :
      ReachableUnique (Octree.new lowBound highBound maxDepth test)
  | insert {s s' : Octree} (fuel : Nat) (object : Obj) :
      ReachableUnique s → s.cellMap.find object = none → s.insert fuel object = some s' →
      ReachableUnique s'
  | remove {s s' : Octree} (object : Obj) :
      ReachableUnique s → s.remove object = some s' → ReachableUnique s'
  | update {s s' : Octree} (fuel : Nat) (object : Obj) :
      ReachableUnique s → s.update fuel object = some s' → ReachableUnique s'
  | clear {s s' : Octree} :
      ReachableUnique s → s.clear = some s' → ReachableUnique s'
  | resetWithBounds {s s' : Octree} (fuel : Nat) (order : List Obj)
      (lowBound highBound : Vector3f) :
      ReachableUnique s → order.Perm (s.cellMap.map Prod.fst) →
      s.resetWithBounds fuel order lowBound highBound = some s' → ReachableUnique s'
  | moved {s : Octree} (test : ObjectCellIntersectionTest) :
      ReachableUnique s → ReachableUnique { s with objectInCellTest := test }

/-- No index entry lists a cell twice. -/
def EntriesNodup (m : CellMap) : Prop :=
  ∀ o cells, m.find o = some cells → cells.Nodup

/-! ### Geometry of the cells -/

/-- The midpoint of two corners, as computed by the constructor of `Cell` and by
`resetWithBounds`. -/
def midpoint (lowBound highBound : Vector3f) : Vector3f :=
  ⟨(lowBound.x + highBound.x) / 2, (lowBound.y + highBound.y) / 2,
   (lowBound.z + highBound.z) / 2⟩

/-- The region of the subcell number `i` that `split` creates in a cell with region `r`. -/
def Region.octant (r : Region) (i : Nat) : Option Region :=
  ((Cell.mk r.lowBound r.highBound r.center [] []).split.subcells[i]?).map Cell.region

/-- The region has its low corner below its high corner on every axis and its center in
the middle. -/
def Region.Proper (r : Region) : Prop :=
  r.lowBound.x ≤ r.highBound.x ∧ r.lowBound.y ≤ r.highBound.y ∧ r.lowBound.z ≤ r.highBound.z ∧
  r.center = midpoint r.lowBound r.highBound

/-- The point lies in the closed box of the region. -/
def Region.contains (r : Region) (pt : Vector3f) : Prop :=
  r.lowBound.x ≤ pt.x ∧ pt.x ≤ r.highBound.x ∧ r.lowBound.y ≤ pt.y ∧ pt.y ≤ r.highBound.y ∧
  r.lowBound.z ≤ pt.z ∧ pt.z ≤ r.highBound.z

/-- Every subcell has the region that `split` gives to the subcell of its number. -/
def GeomOk (root : Cell) : Prop :=
  ∀ q i c sub, cellAt root q = some c → c.subcells[i]? = some sub →
    c.region.octant i = some sub.region

/-- What `insertHelper` does to the structure of `cell`: regions of subcells stay those of
octants, and a cell of `cell'` has subcells exactly when it had some before or lies above
the maximum depth (`k` levels below `cell`) on a chain of accepted cells. -/
def InsertShape (test : ObjectCellIntersectionTest) (o : Obj) (cell : Cell) (k : Nat)
    (cell' : Cell) : Prop :=
  (GeomOk cell → GeomOk cell') ∧
  (∀ q c', cellAt cell' q = some c' →
    (c'.subcells ≠ [] ↔
      (∃ c, cellAt cell q = some c ∧ c.subcells ≠ []) ∨
      (q.length < k ∧ acceptedChain test o cell' q = true)))

/-- The geometric invariant of a state: subcells are octants of their cell and the root has
its center in the middle of its bounds. -/
def GeomInv (s : Octree) : Prop :=
  GeomOk s.rootCell ∧ s.rootCell.center = midpoint s.rootCell.lowBound s.rootCell.highBound

/-- The calls `insert(o)` for the objects of a list, one after another. -/
def insertAll (fuel : Nat) : List Obj → Octree → Option Octree
  | [], s => some s
  | object :: rest, s =>
    match s.insert fuel object with
    | none => none
    | some s1 => insertAll fuel rest s1

/-- The calls `remove(o)` for the objects of a list, one after another. -/
def removeAll : List Obj → Octree → Option Octree
  | [], s => some s
  | object :: rest, s =>
    match s.remove object with
    | none => none
    | some s1 => removeAll rest s1

/-! ### Compactness and history independence -/

/-- The region that the cell behind `p` has when every cell on the way from a root with
region `r` got its region from `split`; `none` when an index on the way is not below 8. -/
def regionAt : Region → CellRef → Option Region
  | r, [] => some r
  | r, i :: p =>
    match r.octant i with
    | none => none
    | some r' => regionAt r' p

/-- The region callback accepts, for `o`, the region that `split` gives to the cell behind `p`
and those of all its ancestors, the root region `r` included. -/
def chainOk (test : ObjectCellIntersectionTest) (o : Obj) : Region → CellRef → Bool
  | r, [] => test o r
  | r, i :: p =>
    test o r &&
      match r.octant i with
      | none => false
      | some r' => chainOk test o r' p

/-- Accepting a cell implies accepting at least one of its eight octants, for the cells above
the maximum depth of a tree with root region `root`. -/
def Hereditary (test : ObjectCellIntersectionTest) (root : Region) (maxDepth : Nat) : Prop :=
  ∀ (o : Obj) (p : CellRef) (r : Region), p.length < maxDepth → regionAt root p = some r →
    test o r = true → ∃ (i : Nat) (r' : Region), r.octant i = some r' ∧ test o r' = true

/-- The cell behind `p`, if it has subcells, has one with subcells or objects of its own. -/
def CompactAt (root : Cell) (p : CellRef) : Prop :=
  ∀ c, cellAt root p = some c → c.subcells ≠ [] →
    ∃ (i : Nat) (sub : Cell), c.subcells[i]? = some sub ∧ (sub.subcells ≠ [] ∨ sub.objects ≠ [])

/-- No cell is split into eight leaves without objects. -/
def Compact (root : Cell) : Prop :=
  ∀ p, CompactAt root p

/-- States reached from a fresh octree with the given bounds, maximum depth and region
callback by `insert` and `remove`, where `insert` is only called for objects that have no
index entry at the time of the call. -/
inductive Built (lowBound highBound : Vector3f) (maxDepth : Nat)
    (test : ObjectCellIntersectionTest) : Octree → Prop
  | fresh : Built lowBound highBound maxDepth test (Octree.new lowBound highBound maxDepth test)
  | insert {s s' : Octree} (fuel : Nat) (object : Obj) :
      Built lowBound highBound maxDepth test s → s.cellMap.find object = none →
      s.insert fuel object = some s' → Built lowBound highBound maxDepth test s'
  | remove {s s' : Octree} (object : Obj) :
      Built lowBound highBound maxDepth test s → s.remove object = some s' →
      Built lowBound highBound maxDepth test s'

/-- The tree is determined by the set of indexed objects: a cell has subcells exactly when it
lies above the maximum depth and some indexed object is accepted all the way down to it, a
cell holds exactly the indexed objects accepted all the way down to it when it lies at the
maximum depth, and every indexed object is accepted by the root. -/
structure Canonical (test : ObjectCellIntersectionTest) (root : Region) (maxDepth : Nat)
    (s : Octree) : Prop where
  split : ∀ p c, cellAt s.rootCell p = some c →
    (c.subcells ≠ [] ↔
      p.length < maxDepth ∧ ∃ o, o ∈ keysOf s.cellMap ∧ chainOk test o root p = true)
  held : ∀ p c o, cellAt s.rootCell p = some c →
    (o ∈ c.objects ↔ o ∈ keysOf s.cellMap ∧ p.length = maxDepth ∧ chainOk test o root p = true)
  rooted : ∀ o, o ∈ keysOf s.cellMap → chainOk test o root [] = true

/-- What the structure of the tree records of one cell: its region and its number of
subcells. -/
def nodeShape (c : Cell) : Region × Nat :=
  (c.region, c.subcells.length)

/-- A region callback for point objects: object `o` sits at the point (o, o, o) and a cell is
accepted when its closed box contains the point. -/
def diagonalTest : ObjectCellIntersectionTest := fun o r =>
  decide (r.lowBound.x ≤ (o : ℚ) ∧ (o : ℚ) ≤ r.highBound.x ∧ r.lowBound.y ≤ (o : ℚ) ∧
    (o : ℚ) ≤ r.highBound.y ∧ r.lowBound.z ≤ (o : ℚ) ∧ (o : ℚ) ≤ r.highBound.z)

/-! ## Geometry (`geometry.h`, `geometry.cpp`, `matrix_math.h`)

The definitions below are the formulas of the source read over exact rationals. The code
evaluates them in `float` and rounds after every operation, so a definition and the code agree
on an input when every intermediate result there is representable in `float` (small integers
and dyadic fractions), and need not agree elsewhere. What is stated about the code is stated
at such inputs; the general facts are facts about the formulas and say so. A vector of three
`NAN` is `none`. The overloads of `Geom::DoesIntersect` and `Geom::Intersect` carry their
argument types in the name. -/

/-- Source: `a + b` on `Eigen::Vector3f`. -/
def Vector3f.add (a b : Vector3f) : Vector3f :=
  ⟨a.x + b.x, a.y + b.y, a.z + b.z⟩

/-- Source: `a - b` on `Eigen::Vector3f`. -/
def Vector3f.sub (a b : Vector3f) : Vector3f :=
  ⟨a.x - b.x, a.y - b.y, a.z - b.z⟩

/-- Source: `k * a` for a scalar `k` on `Eigen::Vector3f`. -/
def Vector3f.smul (k : ℚ) (a : Vector3f) : Vector3f :=
  ⟨k * a.x, k * a.y, k * a.z⟩

/-- Source: `a.dot(b)`. -/
def Vector3f.dot (a b : Vector3f) : ℚ :=
  a.x * b.x + a.y * b.y + a.z * b.z

/-- Source: `a.squaredNorm()`. -/
def Vector3f.squaredNorm (a : Vector3f) : ℚ :=
  a.x * a.x + a.y * a.y + a.z * a.z

/-- Source: `Mmath::min`. -/
def Mmath.min (a b : ℚ) : ℚ :=
  if a < b then a else b

/-- Source: `Mmath::max`. -/
def Mmath.max (a b : ℚ) : ℚ :=
  if a > b then a else b

/-- Source: `Mmath::ProjectVectorOntoVector`. -/
def Mmath.ProjectVectorOntoVector (projectee onto : Vector3f) : Vector3f :=
  Vector3f.smul (projectee.dot onto) onto

/-- The class `Geom::Rayf`. -/
structure Geom.Rayf where
  start : Vector3f
  direction : Vector3f

/-- The class `Geom::Planef`. -/
structure Geom.Planef where
  point : Vector3f
  normal : Vector3f

/-- The class `Geom::Spheref`. -/
structure Geom.Spheref where
  center : Vector3f
  radius : ℚ

/-- The class `Geom::AABBf`. -/
structure Geom.AABBf where
  lowBound : Vector3f
  highBound : Vector3f

/-- Source: `Rayf::getPointByDist`. -/
def Geom.Rayf.getPointByDist (ray : Geom.Rayf) (dist : ℚ) : Vector3f :=
  ray.start.add (Vector3f.smul dist ray.direction)

/-- Source: `Geom::DoesIntersect(Rayf&, Planef&)`. -/
def Geom.DoesIntersectRayPlane (ray : Geom.Rayf) (plane : Geom.Planef) : Bool :=
  decide (plane.normal.dot ray.direction ≠ 0)

/-- Source: `Geom::DoesIntersect(Rayf&, Spheref&)`. -/
def Geom.DoesIntersectRaySphere (ray : Geom.Rayf) (sphere : Geom.Spheref) : Bool :=
  let vpc := sphere.center.sub ray.start
  let pc := Mmath.ProjectVectorOntoVector vpc ray.direction
  let radSq := sphere.radius * sphere.radius
  if vpc.dot ray.direction < 0 then
    let vpcMagSq := vpc.squaredNorm
    if vpcMagSq > radSq then false else true
  else
    let distVec := vpc.sub pc
    let distSq := distVec.squaredNorm
    if distSq > radSq then false else true

/-- One block `if (ray.direction(i) != 0.0) { ... }` of `DoesIntersect(Rayf&, AABBf&)`, acting
on the pair `(tmin, tmax)`. -/
def Geom.slab (low high start direction : ℚ) (t : ℚ × ℚ) : ℚ × ℚ :=
  if direction ≠ 0 then
    let t1 := (low - start) / direction
    let t2 := (high - start) / direction
    (Mmath.max t.1 (Mmath.min t1 t2), Mmath.min t.2 (Mmath.max t1 t2))
  else t

/-- Source: `Geom::DoesIntersect(Rayf&, AABBf&)`. -/
def Geom.DoesIntersectRayAABB (ray : Geom.Rayf) (box : Geom.AABBf) : Bool :=
  let t0 : ℚ × ℚ := (-100000, 100000)
  let t1 := Geom.slab box.lowBound.x box.highBound.x ray.start.x ray.direction.x t0
  let t2 := Geom.slab box.lowBound.y box.highBound.y ray.start.y ray.direction.y t1
  let t3 := Geom.slab box.lowBound.z box.highBound.z ray.start.z ray.direction.z t2
  decide (t3.2 ≥ t3.1)

/-- Source: `Geom::DoesIntersect(Spheref&, AABBf&)`. -/
def Geom.DoesIntersectSphereAABB (sphere : Geom.Spheref) (box : Geom.AABBf) : Bool :=
  decide (sphere.center.x + sphere.radius ≥ box.lowBound.x) &&
  decide (sphere.center.x - sphere.radius ≤ box.highBound.x) &&
  decide (sphere.center.y + sphere.radius ≥ box.lowBound.y) &&
  decide (sphere.center.y - sphere.radius ≤ box.highBound.y) &&
  decide (sphere.center.z + sphere.radius ≥ box.lowBound.z) &&
  decide (sphere.center.z - sphere.radius ≤ box.highBound.z)

/-- Source: `Geom::Intersect(Rayf&, Planef&)`. -/
def Geom.IntersectRayPlane (ray : Geom.Rayf) (plane : Geom.Planef) : Vector3f :=
  let t := - plane.normal.dot (ray.start.sub plane.point) / plane.normal.dot ray.direction
  ray.getPointByDist t

/-- Source: `Geom::Intersect(Rayf&, Spheref&)`; `sqrt` is the library function of that name. -/
def Geom.IntersectRaySphere (sqrt : ℚ → ℚ) (ray : Geom.Rayf) (sphere : Geom.Spheref) :
    Option Vector3f :=
  let t := ray.direction.dot (sphere.center.sub ray.start)
  let pClose := ray.getPointByDist t
  let radiusSq := sphere.radius * sphere.radius
  let pDistSq := pClose.squaredNorm
  if pDistSq > radiusSq then none
  else if pDistSq = radiusSq then some pClose
  else some (ray.getPointByDist (t - sqrt (radiusSq - pDistSq)))

/-- The point lies in the closed box. -/
def Geom.AABBf.contains (box : Geom.AABBf) (pt : Vector3f) : Prop :=
  box.lowBound.x ≤ pt.x ∧ pt.x ≤ box.highBound.x ∧ box.lowBound.y ≤ pt.y ∧
  pt.y ≤ box.highBound.y ∧ box.lowBound.z ≤ pt.z ∧ pt.z ≤ box.highBound.z

/-- The point lies in the closed ball of the sphere. -/
def Geom.Spheref.contains (sphere : Geom.Spheref) (pt : Vector3f) : Prop :=
  (pt.sub sphere.center).squaredNorm ≤ sphere.radius * sphere.radius

/-! ### Notions for the order of insertions and the walk of `remove` -/

/-- The cell behind `p` exists and has subcells. -/
def SplitAt (root : Cell) (p : CellRef) : Prop :=
  ∃ c, cellAt root p = some c ∧ c.subcells ≠ []

/-- The references of length `maxDepth`, in depth-first octant order, along which the region
callback accepts `o` in a tree whose root has region `root`. -/
def chainLeaves (test : ObjectCellIntersectionTest) (o : Obj) (root : Region) (maxDepth : Nat) :
    CellList :=
  (allRefs maxDepth).filter (fun q => chainOk test o root q)

/-- What an insertion of `o` adds to the object list of the cell behind `p`. -/
def placed (test : ObjectCellIntersectionTest) (o : Obj) (root : Region) (maxDepth : Nat)
    (p : CellRef) : ObjectList :=
  if p.length = maxDepth ∧ chainOk test o root p = true then [o] else []

/-- The invocations of `removeSubcellsAndClimbIfEmpty` that one call entails: the call itself,
on the cell with reversed reference `rev` in the tree `root`, and, when it deletes the subcells
of a cell that has a parent, the invocations entailed by the recursive call on the parent.
An invocation is given by the reference of its argument and the tree at that moment. -/
inductive ClimbVisits : List Nat → Cell → CellRef → Cell → Prop
  | here (rev : List Nat) (root : Cell) : ClimbVisits rev root rev.reverse root
  | up {i : Nat} {parentRev : List Nat} {root root1 : Cell} {X : CellRef} {t : Cell} :
      removeSubcellsIfEmpty root (i :: parentRev).reverse = some (root1, true) →
      ClimbVisits parentRev root1 X t → ClimbVisits (i :: parentRev) root X t

/-- Every cell of `cell'` that is not a cell of `cell` has the region that `split` gives to the
subcell of its number in its parent. -/
def NewGeom (cell cell' : Cell) : Prop :=
  ∀ (q : CellRef) (i : Nat) (c' sub' : Cell), cellAt cell' q = some c' →
    c'.subcells[i]? = some sub' → cellAt cell (q ++ [i]) = none →
    c'.region.octant i = some sub'.region

/-! ## Theorems -/

theorem cellAt_nil (c : Cell) : cellAt c [] = some c := rfl

theorem cellAt_cons (c : Cell) (i : Nat) (p : CellRef) :
    cellAt c (i :: p) = (c.subcells[i]?).bind (fun sub => cellAt sub p) := by
  simp only [cellAt]
  cases c.subcells[i]? <;> rfl

theorem insertSubcells_inv (body : Nat → Cell → CellMap → Option (Cell × CellMap)) :
    ∀ (n i : Nat) (cell : Cell) (m : CellMap) (cell' : Cell) (m' : CellMap),
      insertSubcells body n i cell m = some (cell', m') →
      cell'.lowBound = cell.lowBound ∧ cell'.highBound = cell.highBound ∧
      cell'.center = cell.center ∧ cell'.objects = cell.objects ∧
      cell'.subcells.length = cell.subcells.length ∧
      (∀ j, j < i ∨ i + n ≤ j → cell'.subcells[j]? = cell.subcells[j]?) ∧
      ∃ ms : Nat → CellMap, ms i = m ∧ ms (i + n) = m' ∧
        ∀ j, i ≤ j → j < i + n → ∃ sub sub', cell.subcells[j]? = some sub ∧
          cell'.subcells[j]? = some sub' ∧ body j sub (ms j) = some (sub', ms (j + 1)) := by
  intro n
  induction n with
  | zero =>
    intro i cell m cell' m' h
    simp only [insertSubcells, Option.some.injEq, Prod.mk.injEq] at h
    obtain ⟨rfl, rfl⟩ := h
    refine ⟨rfl, rfl, rfl, rfl, rfl, fun _ _ => rfl, fun _ => m, rfl, rfl, ?_⟩
    intro j h1 h2
    omega
  | succ n ih =>
    intro i cell m cell' m' h
    simp only [insertSubcells] at h
    cases hsub : cell.subcells[i]? with
    | none => simp [hsub] at h
    | some sub =>
      simp only [hsub] at h
      cases hb : body i sub m with
      | none => simp [hb] at h
      | some r =>
        obtain ⟨sub', m1⟩ := r
        simp only [hb] at h
        obtain ⟨h1, h2, h3, h4, h5, h6, ms, hms0, hms1, hms⟩ := ih _ _ _ _ _ h
        simp only [List.length_set] at h5
        have hi : i < cell.subcells.length := by
          rcases List.getElem?_eq_some.mp hsub with ⟨hlt, _⟩
          exact hlt
        refine ⟨h1, h2, h3, h4, h5, ?_, fun j => if j ≤ i then m else ms j, by simp, ?_, ?_⟩
        · intro j hj
          rw [h6 j (by omega)]
          simp only
          rw [List.getElem?_set_ne (by omega)]
        · have : ¬ (i + (n + 1) ≤ i) := by omega
          simp only [this, if_false]
          rw [← hms1]
          congr 1
          omega
        · intro j hj1 hj2
          by_cases hji : j = i
          · subst hji
            refine ⟨sub, sub', hsub, ?_, ?_⟩
            · rw [h6 j (by omega)]
              simp only
              rw [List.getElem?_set_self hi]
            · have : ¬ (j + 1 ≤ j) := by omega
              simp only [le_refl, if_true, this, if_false, hms0]
              exact hb
          · obtain ⟨s1, s2, e1, e2, e3⟩ := hms j (by omega) (by omega)
            simp only at e1
            rw [List.getElem?_set_ne (by omega)] at e1
            refine ⟨s1, s2, e1, e2, ?_⟩
            have a1 : ¬ (j ≤ i) := by omega
            have a2 : ¬ (j + 1 ≤ i) := by omega
            simp only [a1, a2, if_false]
            exact e3

theorem insertSubcells_mono (body1 body2 : Nat → Cell → CellMap → Option (Cell × CellMap))
    (hb : ∀ i sub m r, body1 i sub m = some r → body2 i sub m = some r) :
    ∀ (n i : Nat) (cell : Cell) (m : CellMap) (r : Cell × CellMap),
      insertSubcells body1 n i cell m = some r → insertSubcells body2 n i cell m = some r := by
  intro n
  induction n with
  | zero => intro i cell m r h; simpa [insertSubcells] using h
  | succ n ih =>
    intro i cell m r h
    simp only [insertSubcells] at h ⊢
    cases hsub : cell.subcells[i]? with
    | none => simp [hsub] at h
    | some sub =>
      simp only [hsub] at h ⊢
      cases hb1 : body1 i sub m with
      | none => simp [hb1] at h
      | some r1 =>
        obtain ⟨sub', m1⟩ := r1
        simp only [hb1] at h
        rw [hb _ _ _ _ hb1]
        exact ih _ _ _ _ h

theorem insertHelper_fuel_succ (test : ObjectCellIntersectionTest) (maxDepth : Nat) (o : Obj) :
    ∀ (fuel : Nat) (path : CellRef) (cell : Cell) (lvl : Nat) (m : CellMap) (r : Cell × CellMap),
      insertHelper test maxDepth o fuel path cell lvl m = some r →
      insertHelper test maxDepth o (fuel + 1) path cell lvl m = some r := by
  intro fuel
  induction fuel with
  | zero => intro path cell lvl m r h; simp [insertHelper] at h
  | succ fuel ih =>
    intro path cell lvl m r h
    rw [insertHelper] at h
    rw [insertHelper]
    split_ifs at h ⊢ with h1 h2 h3
    · exact h
    · exact insertSubcells_mono _ _ (fun i sub m r hr => ih _ _ _ _ _ hr) _ _ _ _ _ h
    · exact insertSubcells_mono _ _ (fun i sub m r hr => ih _ _ _ _ _ hr) _ _ _ _ _ h
    · exact h

theorem insertHelper_fuel_le (test : ObjectCellIntersectionTest) (maxDepth : Nat) (o : Obj)
    (fuel fuel' : Nat) (hle : fuel ≤ fuel') (path : CellRef) (cell : Cell) (lvl : Nat) (m : CellMap)
    (r : Cell × CellMap) (h : insertHelper test maxDepth o fuel path cell lvl m = some r) :
    insertHelper test maxDepth o fuel' path cell lvl m = some r := by
  induction hle with
  | refl => exact h
  | step _ ih => exact insertHelper_fuel_succ _ _ _ _ _ _ _ _ _ ih

theorem insertHelper_fuel_unique (test : ObjectCellIntersectionTest) (maxDepth : Nat) (o : Obj)
    (f1 f2 : Nat) (path : CellRef) (cell : Cell) (lvl : Nat) (m : CellMap)
    (r1 r2 : Cell × CellMap)
    (h1 : insertHelper test maxDepth o f1 path cell lvl m = some r1)
    (h2 : insertHelper test maxDepth o f2 path cell lvl m = some r2) : r1 = r2 := by
  have a := insertHelper_fuel_le test maxDepth o f1 (max f1 f2) (le_max_left _ _) _ _ _ _ _ h1
  have b := insertHelper_fuel_le test maxDepth o f2 (max f1 f2) (le_max_right _ _) _ _ _ _ _ h2
  rw [a] at b
  exact Option.some.inj b

/-! ### The index as a finite map -/

theorem find_append_single (m : CellMap) (o : Obj) (v : CellList) (o' : Obj) :
    CellMap.find (m ++ [(o, v)]) o' =
      match CellMap.find m o' with
      | some w => some w
      | none => if o = o' then some v else none := by
  induction m with
  | nil => simp [CellMap.find]
  | cons e rest ih =>
    obtain ⟨k, w⟩ := e
    simp only [List.cons_append, CellMap.find]
    by_cases hk : k = o'
    · simp [hk]
    · simp [hk, ih]

theorem find_pushBack (m : CellMap) (o : Obj) (c : CellRef) (o' : Obj) :
    CellMap.find (m.pushBack o c) o' =
      if o' = o then (CellMap.find m o).map (fun v => v ++ [c]) else CellMap.find m o' := by
  induction m with
  | nil => simp [CellMap.pushBack, CellMap.find]
  | cons e rest ih =>
    obtain ⟨k, w⟩ := e
    simp only [CellMap.pushBack]
    by_cases hk : k = o
    · subst hk
      by_cases ho : o' = k
      · subst ho; simp [CellMap.find]
      · have : ¬ k = o' := fun h => ho h.symm
        simp [CellMap.find, ho, this]
    · simp only [hk, if_false, CellMap.find]
      by_cases hk' : k = o'
      · subst hk'; simp [hk]
      · simp [hk', ih]

theorem find_addCellToMap (m : CellMap) (o : Obj) (c : CellRef) (o' : Obj) :
    CellMap.find (addCellToMap m o c) o' =
      if o' = o then some (cellsOf m o ++ [c]) else CellMap.find m o' := by
  unfold addCellToMap cellsOf
  cases h : CellMap.find m o with
  | none =>
    simp only [find_append_single]
    by_cases ho : o' = o
    · subst ho; simp [h]
    · have : ¬ o = o' := fun e => ho e.symm
      simp only [ho, this, if_false]
      cases CellMap.find m o' <;> rfl
  | some v =>
    simp only [find_pushBack, h]
    by_cases ho : o' = o <;> simp [ho]

theorem addCells_nil (m : CellMap) (o : Obj) : addCells m o [] = m := rfl

theorem addCells_append (m : CellMap) (o : Obj) (l1 l2 : CellList) :
    addCells m o (l1 ++ l2) = addCells (addCells m o l1) o l2 := by
  simp [addCells, List.foldl_append]

theorem addCells_cons (m : CellMap) (o : Obj) (c : CellRef) (l : CellList) :
    addCells m o (c :: l) = addCells (addCellToMap m o c) o l := rfl

theorem find_addCells_ne (o o' : Obj) (ho : o' ≠ o) (l : CellList) :
    ∀ m : CellMap, CellMap.find (addCells m o l) o' = CellMap.find m o' := by
  induction l with
  | nil => intro m; rfl
  | cons c l ih =>
    intro m
    rw [addCells_cons, ih, find_addCellToMap, if_neg ho]

theorem find_addCells_self (o : Obj) (l : CellList) :
    ∀ m : CellMap, CellMap.find (addCells m o l) o =
      if l = [] then CellMap.find m o else some (cellsOf m o ++ l) := by
  induction l with
  | nil => intro m; rfl
  | cons c l ih =>
    intro m
    rw [addCells_cons, ih]
    simp only [find_addCellToMap, if_true, reduceCtorEq, if_false]
    by_cases hl : l = []
    · subst hl; simp
    · simp [hl, cellsOf, find_addCellToMap]

theorem cellsOf_addCells_self (m : CellMap) (o : Obj) (l : CellList) :
    cellsOf (addCells m o l) o = cellsOf m o ++ l := by
  unfold cellsOf
  rw [find_addCells_self]
  by_cases hl : l = []
  · subst hl; simp
  · simp [hl, cellsOf]

theorem cellsOf_addCells_ne (m : CellMap) (o o' : Obj) (ho : o' ≠ o) (l : CellList) :
    cellsOf (addCells m o l) o' = cellsOf m o' := by
  unfold cellsOf
  rw [find_addCells_ne o o' ho]

/-! ### Shape and depth, one level at a time -/

theorem ShapeOk.node {c : Cell} (h : ShapeOk c) : c.subcells = [] ∨ c.subcells.length = 8 :=
  h [] c rfl

theorem ShapeOk.subcell {c sub : Cell} {i : Nat} (h : ShapeOk c) (hs : c.subcells[i]? = some sub) :
    ShapeOk sub := by
  intro p d hp
  apply h (i :: p) d
  rw [cellAt_cons, hs]
  exact hp

theorem ShapeOk.intro {c : Cell} (h0 : c.subcells = [] ∨ c.subcells.length = 8)
    (hs : ∀ (i : Nat) (sub : Cell), c.subcells[i]? = some sub → ShapeOk sub) : ShapeOk c := by
  intro p d hp
  cases p with
  | nil =>
    rw [cellAt_nil] at hp
    cases hp
    exact h0
  | cons i p =>
    rw [cellAt_cons] at hp
    cases hsub : c.subcells[i]? with
    | none => simp [hsub] at hp
    | some sub =>
      rw [hsub] at hp
      exact hs i sub hsub p d hp

theorem DepthOk.below {k : Nat} {c sub : Cell} {i : Nat} (h : DepthOk (k + 1) c)
    (hs : c.subcells[i]? = some sub) : DepthOk k sub := by
  intro p d hp
  have := h (i :: p) d (by rw [cellAt_cons, hs]; exact hp)
  simpa using this

theorem DepthOk.leaf_of_zero {c : Cell} (h : DepthOk 0 c) : c.subcells = [] := by
  cases hsub : c.subcells with
  | nil => rfl
  | cons a l =>
    have := h [0] a (by rw [cellAt_cons, hsub]; simp [cellAt_nil])
    simp at this

theorem DepthOk.succ {k : Nat} {c : Cell}
    (hs : ∀ (i : Nat) (sub : Cell), c.subcells[i]? = some sub → DepthOk k sub) : DepthOk (k + 1) c := by
  intro p d hp
  cases p with
  | nil => simp
  | cons i p =>
    rw [cellAt_cons] at hp
    cases hsub : c.subcells[i]? with
    | none => simp [hsub] at hp
    | some sub =>
      rw [hsub] at hp
      have := hs i sub hsub p d hp
      simp only [List.length_cons]
      omega

theorem DepthOk.of_leaf {k : Nat} {c : Cell} (h : c.subcells = []) : DepthOk k c := by
  intro p d hp
  cases p with
  | nil => simp
  | cons i p =>
    rw [cellAt_cons, h] at hp
    simp at hp

theorem ShapeOk.leaf {c : Cell} (h : c.subcells = []) : ShapeOk c := by
  apply ShapeOk.intro (Or.inl h)
  intro i sub hs
  rw [h] at hs
  simp at hs

theorem cellAt_leaf {c : Cell} (h : c.subcells = []) (i : Nat) (p : CellRef) :
    cellAt c (i :: p) = none := by
  rw [cellAt_cons, h]
  rfl

/-! ### Accepted leaves -/

theorem acceptedLeaves_of_reject (test : ObjectCellIntersectionTest) (o : Obj) (k : Nat) (c : Cell)
    (h : test o c.region = false) : acceptedLeaves test o k c = [] := by
  cases k <;> simp [acceptedLeaves, h]

theorem acceptedLeaves_length (test : ObjectCellIntersectionTest) (o : Obj) :
    ∀ (k : Nat) (c : Cell) (q : CellRef), q ∈ acceptedLeaves test o k c → q.length = k := by
  intro k
  induction k with
  | zero =>
    intro c q hq
    simp only [acceptedLeaves] at hq
    split_ifs at hq
    · simp at hq; simp [hq]
    · simp at hq
  | succ k ih =>
    intro c q hq
    simp only [acceptedLeaves] at hq
    split_ifs at hq
    · rw [List.mem_flatMap] at hq
      obtain ⟨i, _, hi⟩ := hq
      cases hsub : c.subcells[i]? with
      | none => simp [hsub] at hi
      | some sub =>
        simp only [hsub, List.mem_map] at hi
        obtain ⟨r, hr, rfl⟩ := hi
        simp [ih sub r hr]
    · simp at hq

theorem mem_acceptedLeaves_cons (test : ObjectCellIntersectionTest) (o : Obj) (k : Nat) (c sub : Cell)
    (i : Nat) (r : CellRef) (hi : i < 8) (hs : c.subcells[i]? = some sub)
    (ht : test o c.region = true) :
    (i :: r) ∈ acceptedLeaves test o (k + 1) c ↔ r ∈ acceptedLeaves test o k sub := by
  simp only [acceptedLeaves, ht, if_true, List.mem_flatMap, List.mem_range]
  constructor
  · rintro ⟨j, _, hj⟩
    cases hsub : c.subcells[j]? with
    | none => simp [hsub] at hj
    | some sub2 =>
      simp only [hsub, List.mem_map] at hj
      obtain ⟨r2, hr2, he⟩ := hj
      simp only [List.cons.injEq] at he
      obtain ⟨rfl, rfl⟩ := he
      rw [hs] at hsub
      cases hsub
      exact hr2
  · intro hr
    exact ⟨i, hi, by simp only [hs, List.mem_map]; exact ⟨r, hr, rfl⟩⟩

theorem nil_not_mem_acceptedLeaves_succ (test : ObjectCellIntersectionTest) (o : Obj) (k : Nat)
    (c : Cell) : [] ∉ acceptedLeaves test o (k + 1) c := by
  intro h
  have := acceptedLeaves_length test o _ _ _ h
  simp at this

theorem addCells_chain (o : Obj) (L : Nat → CellList) (ms : Nat → CellMap) :
    ∀ n, (∀ j, j < n → ms (j + 1) = addCells (ms j) o (L j)) →
      ms n = addCells (ms 0) o ((List.range n).flatMap L) := by
  intro n
  induction n with
  | zero => intro _; rfl
  | succ n ih =>
    intro h
    rw [List.range_succ, List.flatMap_append, addCells_append, ← ih (fun j hj => h j (by omega)),
      h n (by omega)]
    simp

theorem getElem?_lt_of_some {l : List Cell} {i : Nat} {c : Cell} (h : l[i]? = some c) :
    i < l.length := by
  rcases List.getElem?_eq_some.mp h with ⟨hlt, _⟩
  exact hlt

theorem insertHelper_loop_case (test : ObjectCellIntersectionTest) (maxDepth : Nat) (o : Obj)
    (fuel : Nat)
    (ih : ∀ (path : CellRef) (cell : Cell) (lvl : Nat) (m : CellMap) (k : Nat) (cell' : Cell)
      (m' : CellMap), lvl + k = maxDepth → ShapeOk cell → DepthOk k cell →
      insertHelper test maxDepth o fuel path cell lvl m = some (cell', m') →
      InsertSpec test o path cell m k cell' m')
    (path : CellRef) (cell0 : Cell) (lvl : Nat) (m : CellMap) (k : Nat) (cell' : Cell) (m' : CellMap)
    (hk : lvl + (k + 1) = maxDepth) (hshape : ShapeOk cell0) (hdepth : DepthOk (k + 1) cell0)
    (hlen : cell0.subcells.length = 8) (ht : test o cell0.region = true)
    (h : insertSubcells
      (fun i sub m => insertHelper test maxDepth o fuel (path ++ [i]) sub (lvl + 1) m)
      8 0 cell0 m = some (cell', m')) :
    InsertSpec test o path cell0 m (k + 1) cell' m' := by
  obtain ⟨h1, h2, h3, h4, h5, _, ms, hms0, hms8, hms⟩ := insertSubcells_inv _ _ _ _ _ _ _ h
  have hreg : cell'.region = cell0.region := by simp [Cell.region, h1, h2, h3]
  have ht' : test o cell'.region = true := by rw [hreg]; exact ht
  have hlen' : cell'.subcells.length = 8 := by rw [h5, hlen]
  have hJ : ∀ j, j < 8 → ∃ sub sub', cell0.subcells[j]? = some sub ∧
      cell'.subcells[j]? = some sub' ∧
      InsertSpec test o (path ++ [j]) sub (ms j) k sub' (ms (j + 1)) := by
    intro j hj
    obtain ⟨sub, sub', e1, e2, e3⟩ := hms j (by omega) (by omega)
    exact ⟨sub, sub', e1, e2,
      ih _ _ _ _ _ _ _ (by omega) (hshape.subcell e1) (hdepth.below e1) e3⟩
  refine ⟨?_, ?_, ?_, ?_, ?_⟩
  · -- the index
    have hchain := addCells_chain o
      (fun j => List.map (fun q => path ++ q)
        (match cell'.subcells[j]? with
         | none => []
         | some sub => (acceptedLeaves test o k sub).map (fun q => j :: q))) ms 8 (by
        intro j hj
        obtain ⟨sub, sub', _, e2, e3⟩ := hJ j hj
        rw [e3.1]
        simp only [e2, List.map_map]
        congr 1
        apply List.map_congr_left
        intro q _
        simp)
    simp only [zero_add] at hms8
    rw [← hms8, hchain, hms0]
    simp only [acceptedLeaves, ht', if_true, List.map_flatMap]
  · apply ShapeOk.intro (Or.inr hlen')
    intro i sub hs
    have hi : i < 8 := by rw [← hlen']; exact getElem?_lt_of_some hs
    obtain ⟨_, sub', _, e2, e3⟩ := hJ i hi
    rw [e2] at hs
    cases hs
    exact e3.2.1
  · apply DepthOk.succ
    intro i sub hs
    have hi : i < 8 := by rw [← hlen']; exact getElem?_lt_of_some hs
    obtain ⟨_, sub', _, e2, e3⟩ := hJ i hi
    rw [e2] at hs
    cases hs
    exact e3.2.2.1
  · intro q c hq
    cases q with
    | nil =>
      rw [cellAt_nil] at hq
      cases hq
      refine ⟨cell', rfl, hreg, ?_⟩
      rw [if_neg (nil_not_mem_acceptedLeaves_succ test o k cell'), h4]
      simp
    | cons j r =>
      rw [cellAt_cons] at hq
      cases hsub : cell0.subcells[j]? with
      | none => simp [hsub] at hq
      | some sub =>
        rw [hsub] at hq
        simp only [Option.some_bind] at hq
        have hj : j < 8 := by rw [← hlen]; exact getElem?_lt_of_some hsub
        obtain ⟨sub0, sub', e1, e2, e3⟩ := hJ j hj
        rw [hsub] at e1
        cases e1
        obtain ⟨c', hc', hr', ho'⟩ := e3.2.2.2.1 r c hq
        refine ⟨c', ?_, hr', ?_⟩
        · rw [cellAt_cons, e2]; exact hc'
        · rw [ho']
          simp only [mem_acceptedLeaves_cons test o k cell' sub' j r hj e2 ht']
  · intro q c' hq hnone
    cases q with
    | nil => simp [cellAt_nil] at hnone
    | cons j r =>
      rw [cellAt_cons] at hq hnone
      cases hsub' : cell'.subcells[j]? with
      | none => simp [hsub'] at hq
      | some sub'' =>
        rw [hsub'] at hq
        simp only [Option.some_bind] at hq
        have hj : j < 8 := by rw [← hlen']; exact getElem?_lt_of_some hsub'
        obtain ⟨sub, sub', e1, e2, e3⟩ := hJ j hj
        rw [hsub'] at e2
        cases e2
        rw [e1] at hnone
        simp only [Option.some_bind] at hnone
        rw [e3.2.2.2.2 r c' hq hnone]
        simp only [mem_acceptedLeaves_cons test o k cell' sub'' j r hj hsub' ht']

theorem isLeaf_iff (c : Cell) : c.isLeaf = true ↔ c.subcells = [] := by
  simp [Cell.isLeaf, List.length_eq_zero]

theorem split_length {c : Cell} (h : c.subcells = []) : c.split.subcells.length = 8 := by
  simp [Cell.split, h]

theorem split_region (c : Cell) : c.split.region = c.region := rfl

theorem split_objects (c : Cell) : c.split.objects = c.objects := rfl

theorem split_sub {c sub : Cell} {i : Nat} (h : c.subcells = [])
    (hs : c.split.subcells[i]? = some sub) : sub.subcells = [] ∧ sub.objects = [] := by
  have hmem : sub ∈ c.split.subcells := List.getElem?_mem hs
  simp only [Cell.split, h, List.nil_append, List.mem_cons, List.mem_singleton, List.not_mem_nil,
    or_false] at hmem
  rcases hmem with rfl | rfl | rfl | rfl | rfl | rfl | rfl | rfl
  all_goals exact ⟨rfl, rfl⟩

theorem insertHelper_spec (test : ObjectCellIntersectionTest) (maxDepth : Nat) (o : Obj) :
    ∀ (fuel : Nat) (path : CellRef) (cell : Cell) (lvl : Nat) (m : CellMap) (k : Nat) (cell' : Cell)
      (m' : CellMap), lvl + k = maxDepth → ShapeOk cell → DepthOk k cell →
      insertHelper test maxDepth o fuel path cell lvl m = some (cell', m') →
      InsertSpec test o path cell m k cell' m' := by
  intro fuel
  induction fuel with
  | zero => intro path cell lvl m k cell' m' _ _ _ h; simp [insertHelper] at h
  | succ fuel ih =>
    intro path cell lvl m k cell' m' hk hshape hdepth h
    rw [insertHelper] at h
    split_ifs at h with ht hleaf hlvl
    · -- a leaf at the maximum depth
      simp only [Option.some.injEq, Prod.mk.injEq] at h
      obtain ⟨rfl, rfl⟩ := h
      have hk0 : k = 0 := by omega
      subst hk0
      have hsub : cell.subcells = [] := (isLeaf_iff cell).mp hleaf
      have hacc : acceptedLeaves test o 0
          { cell with objects := cell.objects ++ [o] } = [[]] := by
        simp only [acceptedLeaves]
        rw [if_pos]
        exact ht
      rw [InsertSpec, hacc]
      refine ⟨by simp [addCells], ShapeOk.leaf hsub, DepthOk.of_leaf hsub, ?_, ?_⟩
      · intro q c hq
        cases q with
        | nil =>
          rw [cellAt_nil] at hq
          cases hq
          exact ⟨_, rfl, rfl, by simp⟩
        | cons j r => rw [cellAt_leaf hsub] at hq; cases hq
      · intro q c' hq hnone
        cases q with
        | nil => simp [cellAt_nil] at hnone
        | cons j r => rw [cellAt_leaf (by exact hsub)] at hq; cases hq
    · -- a leaf above the maximum depth: split
      have hsub : cell.subcells = [] := (isLeaf_iff cell).mp hleaf
      obtain ⟨k', rfl⟩ : ∃ k', k = k' + 1 := ⟨k - 1, by omega⟩
      have hshape0 : ShapeOk cell.split :=
        ShapeOk.intro (Or.inr (split_length hsub)) (fun i sub hs => ShapeOk.leaf (split_sub hsub hs).1)
      have hdepth0 : DepthOk (k' + 1) cell.split :=
        DepthOk.succ (fun i sub hs => DepthOk.of_leaf (split_sub hsub hs).1)
      obtain ⟨a1, a2, a3, a4, a5⟩ := insertHelper_loop_case test maxDepth o fuel ih path cell.split
        lvl m k' cell' m' hk hshape0 hdepth0 (split_length hsub) ht h
      refine ⟨a1, a2, a3, ?_, ?_⟩
      · intro q c hq
        cases q with
        | nil =>
          rw [cellAt_nil] at hq
          cases hq
          exact a4 [] cell.split rfl
        | cons j r => rw [cellAt_leaf hsub] at hq; cases hq
      · intro q c' hq hnone
        cases hq0 : cellAt cell.split q with
        | none => exact a5 q c' hq hq0
        | some c0 =>
          cases q with
          | nil => simp [cellAt_nil] at hnone
          | cons j r =>
            obtain ⟨c'', hc'', _, ho''⟩ := a4 _ _ hq0
            rw [hq] at hc''
            cases hc''
            rw [ho'']
            rw [cellAt_cons] at hq0
            cases hs : cell.split.subcells[j]? with
            | none => simp [hs] at hq0
            | some sub =>
              rw [hs] at hq0
              simp only [Option.some_bind] at hq0
              cases r with
              | nil =>
                rw [cellAt_nil] at hq0
                cases hq0
                rw [(split_sub hsub hs).2]
                simp
              | cons j2 r2 => rw [cellAt_leaf (split_sub hsub hs).1] at hq0; cases hq0
    · -- an inner cell
      have hsub : cell.subcells ≠ [] := fun e => hleaf ((isLeaf_iff cell).mpr e)
      have hlen : cell.subcells.length = 8 := by
        rcases hshape.node with e | e
        · exact absurd e hsub
        · exact e
      obtain ⟨k', rfl⟩ : ∃ k', k = k' + 1 := by
        cases k with
        | zero => exact absurd hdepth.leaf_of_zero hsub
        | succ k' => exact ⟨k', rfl⟩
      exact insertHelper_loop_case test maxDepth o fuel ih path cell lvl m k' cell' m' hk hshape
        hdepth hlen ht h
    · -- rejected
      simp only [Option.some.injEq, Prod.mk.injEq] at h
      obtain ⟨rfl, rfl⟩ := h
      have hacc : acceptedLeaves test o k cell = [] :=
        acceptedLeaves_of_reject test o k cell (by simpa using ht)
      rw [InsertSpec, hacc]
      refine ⟨rfl, hshape, hdepth, ?_, ?_⟩
      · intro q c hq
        exact ⟨c, hq, rfl, by simp⟩
      · intro q c' hq hnone
        rw [hq] at hnone
        cases hnone

theorem insertSubcells_total (body : Nat → Cell → CellMap → Option (Cell × CellMap)) :
    ∀ (n i : Nat) (cell : Cell) (m : CellMap),
      (∀ j, i ≤ j → j < i + n → ∃ sub, cell.subcells[j]? = some sub ∧
        ∀ m1, ∃ r, body j sub m1 = some r) →
      ∃ r, insertSubcells body n i cell m = some r := by
  intro n
  induction n with
  | zero => intro i cell m _; exact ⟨_, rfl⟩
  | succ n ih =>
    intro i cell m h
    obtain ⟨sub, hs, hb⟩ := h i (le_refl _) (by omega)
    obtain ⟨⟨sub', m1⟩, hr⟩ := hb m
    simp only [insertSubcells, hs, hr]
    apply ih
    intro j hj1 hj2
    obtain ⟨sub2, hs2, hb2⟩ := h j (by omega) (by omega)
    refine ⟨sub2, ?_, hb2⟩
    simp only
    rw [List.getElem?_set_ne (by omega)]
    exact hs2

theorem getElem?_some_of_lt {l : List Cell} {i : Nat} (h : i < l.length) :
    ∃ c, l[i]? = some c :=
  ⟨l[i], List.getElem?_eq_getElem h⟩

theorem insertHelper_total (test : ObjectCellIntersectionTest) (maxDepth : Nat) (o : Obj) :
    ∀ (fuel : Nat) (path : CellRef) (cell : Cell) (lvl : Nat) (m : CellMap) (k : Nat),
      lvl + k = maxDepth → k < fuel → ShapeOk cell → DepthOk k cell →
      ∃ r, insertHelper test maxDepth o fuel path cell lvl m = some r := by
  intro fuel
  induction fuel with
  | zero => intro path cell lvl m k _ hk; omega
  | succ fuel ih =>
    intro path cell lvl m k hk hfuel hshape hdepth
    rw [insertHelper]
    split_ifs with ht hleaf hlvl
    · exact ⟨_, rfl⟩
    · have hsub : cell.subcells = [] := (isLeaf_iff cell).mp hleaf
      apply insertSubcells_total
      intro j _ hj
      obtain ⟨sub, hs⟩ := getElem?_some_of_lt (l := cell.split.subcells) (i := j)
        (by rw [split_length hsub]; omega)
      refine ⟨sub, hs, fun m1 => ?_⟩
      exact ih _ _ _ _ (k - 1) (by omega) (by omega) (ShapeOk.leaf (split_sub hsub hs).1)
        (DepthOk.of_leaf (split_sub hsub hs).1)
    · have hsub : cell.subcells ≠ [] := fun e => hleaf ((isLeaf_iff cell).mpr e)
      have hlen : cell.subcells.length = 8 := by
        rcases hshape.node with e | e
        · exact absurd e hsub
        · exact e
      obtain ⟨k', rfl⟩ : ∃ k', k = k' + 1 := by
        cases k with
        | zero => exact absurd hdepth.leaf_of_zero hsub
        | succ k' => exact ⟨k', rfl⟩
      apply insertSubcells_total
      intro j _ hj
      obtain ⟨sub, hs⟩ := getElem?_some_of_lt (l := cell.subcells) (i := j) (by rw [hlen]; omega)
      refine ⟨sub, hs, fun m1 => ?_⟩
      exact ih _ _ _ _ k' (by omega) (by omega) (hshape.subcell hs) (hdepth.below hs)
    · exact ⟨_, rfl⟩

theorem acceptedChain_nil (test : ObjectCellIntersectionTest) (o : Obj) (c : Cell) :
    acceptedChain test o c [] = test o c.region := by
  simp [acceptedChain, cellAt_nil]

theorem acceptedChain_cons (test : ObjectCellIntersectionTest) (o : Obj) (c : Cell) (i : Nat)
    (q : CellRef) :
    acceptedChain test o c (i :: q) =
      (test o c.region &&
        match c.subcells[i]? with
        | none => false
        | some sub => acceptedChain test o sub q) := by
  simp only [acceptedChain, List.inits_cons, List.all_cons, cellAt_nil, List.all_map]
  congr 1
  cases hs : c.subcells[i]? with
  | none =>
    cases q with
    | nil => simp [Function.comp, cellAt_cons, hs]
    | cons a l => simp [Function.comp, cellAt_cons, hs, List.inits_cons]
  | some sub =>
    simp only
    congr 1
    funext r
    simp only [Function.comp, cellAt_cons, hs, Option.some_bind]

theorem acceptedChain_cons_of_none (test : ObjectCellIntersectionTest) (o : Obj) (c : Cell)
    (i : Nat) (q : CellRef) (hs : c.subcells[i]? = none) :
    acceptedChain test o c (i :: q) = false := by
  rw [acceptedChain_cons, hs]
  simp

theorem acceptedChain_cons_of_some (test : ObjectCellIntersectionTest) (o : Obj) (c sub : Cell)
    (i : Nat) (q : CellRef) (hs : c.subcells[i]? = some sub) :
    acceptedChain test o c (i :: q) = (test o c.region && acceptedChain test o sub q) := by
  rw [acceptedChain_cons, hs]

theorem acceptedLeaves_eq_filter (test : ObjectCellIntersectionTest) (o : Obj) :
    ∀ (k : Nat) (c : Cell),
      acceptedLeaves test o k c = (allRefs k).filter (fun q => acceptedChain test o c q) := by
  intro k
  induction k with
  | zero =>
    intro c
    simp only [acceptedLeaves, allRefs, List.filter_cons, acceptedChain_nil, List.filter_nil]
  | succ k ih =>
    intro c
    simp only [acceptedLeaves, allRefs, List.filter_flatMap, List.filter_map]
    by_cases ht : test o c.region = true
    · simp only [ht, if_true]
      apply List.flatMap_congr
      intro i _
      cases hs : c.subcells[i]? with
      | none =>
        simp only
        have : List.filter ((fun q => acceptedChain test o c q) ∘ fun q => i :: q) (allRefs k)
            = [] := by
          rw [List.filter_eq_nil_iff]
          intro a _
          simp [Function.comp, acceptedChain_cons_of_none test o c i a hs]
        rw [this]
        rfl
      | some sub =>
        simp only
        rw [ih]
        congr 1
        apply List.filter_congr
        intro a _
        simp [Function.comp, acceptedChain_cons_of_some test o c sub i a hs, ht]
    · rw [if_neg ht]
      symm
      rw [List.flatMap_eq_nil_iff]
      intro i _
      rw [List.map_eq_nil_iff, List.filter_eq_nil_iff]
      intro a _
      have hf : test o c.region = false := by simpa using ht
      simp [Function.comp, acceptedChain_cons, hf]

theorem cellAt_of_mem_acceptedLeaves (test : ObjectCellIntersectionTest) (o : Obj) :
    ∀ (k : Nat) (c : Cell) (q : CellRef), q ∈ acceptedLeaves test o k c →
      ∃ d, cellAt c q = some d := by
  intro k
  induction k with
  | zero =>
    intro c q hq
    have := acceptedLeaves_length test o _ _ _ hq
    rw [List.length_eq_zero] at this
    subst this
    exact ⟨c, rfl⟩
  | succ k ih =>
    intro c q hq
    simp only [acceptedLeaves] at hq
    split_ifs at hq
    · rw [List.mem_flatMap] at hq
      obtain ⟨i, _, hi⟩ := hq
      cases hsub : c.subcells[i]? with
      | none => simp [hsub] at hi
      | some sub =>
        simp only [hsub, List.mem_map] at hi
        obtain ⟨r, hr, rfl⟩ := hi
        obtain ⟨d, hd⟩ := ih sub r hr
        exact ⟨d, by rw [cellAt_cons, hsub]; exact hd⟩
    · simp at hq

theorem acceptedCells_eq (s : Octree) (o : Obj) :
    acceptedCells s o = acceptedLeaves s.objectInCellTest o s.maxDepth s.rootCell := by
  rw [acceptedLeaves_eq_filter]
  rfl

theorem insert_spec (s s' : Octree) (fuel : Nat) (o : Obj) (hshape : ShapeOk s.rootCell)
    (hdepth : DepthOk s.maxDepth s.rootCell) (h : s.insert fuel o = some s') :
    s'.maxDepth = s.maxDepth ∧ s'.objectInCellTest = s.objectInCellTest ∧
    InsertSpec s.objectInCellTest o [] s.rootCell s.cellMap s.maxDepth s'.rootCell s'.cellMap := by
  unfold Octree.insert at h
  cases hr : insertHelper s.objectInCellTest s.maxDepth o fuel [] s.rootCell 0 s.cellMap with
  | none => simp [hr] at h
  | some r =>
    obtain ⟨root, cm⟩ := r
    simp only [hr, Option.some.injEq] at h
    subst h
    exact ⟨rfl, rfl, insertHelper_spec _ _ _ _ _ _ _ _ _ _ _ (by simp) hshape hdepth hr⟩

theorem insert_total (s : Octree) (o : Obj) (hshape : ShapeOk s.rootCell)
    (hdepth : DepthOk s.maxDepth s.rootCell) :
    ∃ s', s.insert (s.maxDepth + 1) o = some s' := by
  obtain ⟨⟨root, cm⟩, hr⟩ := insertHelper_total s.objectInCellTest s.maxDepth o (s.maxDepth + 1) []
    s.rootCell 0 s.cellMap s.maxDepth (by simp) (by omega) hshape hdepth
  exact ⟨{ s with rootCell := root, cellMap := cm }, by simp only [Octree.insert, hr]⟩

theorem insert_fuel_unique (s s1 s2 : Octree) (f1 f2 : Nat) (o : Obj)
    (h1 : s.insert f1 o = some s1) (h2 : s.insert f2 o = some s2) : s1 = s2 := by
  unfold Octree.insert at h1 h2
  cases hr1 : insertHelper s.objectInCellTest s.maxDepth o f1 [] s.rootCell 0 s.cellMap with
  | none => simp [hr1] at h1
  | some r1 =>
    cases hr2 : insertHelper s.objectInCellTest s.maxDepth o f2 [] s.rootCell 0 s.cellMap with
    | none => simp [hr2] at h2
    | some r2 =>
      have := insertHelper_fuel_unique _ _ _ _ _ _ _ _ _ _ _ hr1 hr2
      subst this
      obtain ⟨root, cm⟩ := r1
      simp only [hr1, Option.some.injEq] at h1
      simp only [hr2, Option.some.injEq] at h2
      rw [← h1, ← h2]

theorem SameNode.same (c : Cell) : SameNode c c := ⟨rfl, rfl, rfl⟩

theorem modifyAt_isSome (f : Cell → Cell) :
    ∀ (X : CellRef) (root c : Cell), cellAt root X = some c → ∃ root', modifyAt f root X = some root' := by
  intro X
  induction X with
  | nil => intro root c _; exact ⟨f root, rfl⟩
  | cons i X ih =>
    intro root c h
    rw [cellAt_cons] at h
    cases hs : root.subcells[i]? with
    | none => simp [hs] at h
    | some sub =>
      rw [hs] at h
      obtain ⟨sub', hsub'⟩ := ih sub c h
      exact ⟨{ root with subcells := root.subcells.set i sub' }, by simp only [modifyAt, hs, hsub']⟩

theorem cellAt_of_modifyAt (f : Cell → Cell) :
    ∀ (X : CellRef) (root root' : Cell), modifyAt f root X = some root' → ∃ c, cellAt root X = some c := by
  intro X
  induction X with
  | nil => intro root root' _; exact ⟨root, rfl⟩
  | cons i X ih =>
    intro root root' h
    simp only [modifyAt] at h
    cases hs : root.subcells[i]? with
    | none => simp [hs] at h
    | some sub =>
      simp only [hs] at h
      cases hm : modifyAt f sub X with
      | none => simp [hm] at h
      | some sub' =>
        obtain ⟨c, hc⟩ := ih sub sub' hm
        exact ⟨c, by rw [cellAt_cons, hs]; exact hc⟩

theorem cellAt_modifyAt_below (f : Cell → Cell) :
    ∀ (X : CellRef) (root root' c : Cell) (r : CellRef), modifyAt f root X = some root' →
      cellAt root X = some c → cellAt root' (X ++ r) = cellAt (f c) r := by
  intro X
  induction X with
  | nil =>
    intro root root' c r h hc
    simp only [modifyAt, Option.some.injEq] at h
    rw [cellAt_nil] at hc
    cases hc
    subst h
    rfl
  | cons i X ih =>
    intro root root' c r h hc
    simp only [modifyAt] at h
    rw [cellAt_cons] at hc
    cases hs : root.subcells[i]? with
    | none => simp [hs] at h
    | some sub =>
      simp only [hs] at h
      rw [hs] at hc
      cases hm : modifyAt f sub X with
      | none => simp [hm] at h
      | some sub' =>
        simp only [hm, Option.some.injEq] at h
        subst h
        rw [List.cons_append, cellAt_cons]
        simp only
        rw [List.getElem?_set_self (getElem?_lt_of_some hs)]
        exact ih sub sub' c r hm hc

theorem cellAt_modifyAt_other (f : Cell → Cell) :
    ∀ (X : CellRef) (root root' : Cell) (p : CellRef), modifyAt f root X = some root' →
      ¬ X <+: p →
      (∀ c, cellAt root p = some c → ∃ c', cellAt root' p = some c' ∧ SameNode c c') ∧
      (∀ c', cellAt root' p = some c' → ∃ c, cellAt root p = some c ∧ SameNode c c') := by
  intro X
  induction X with
  | nil =>
    intro root root' p _ hp
    exact absurd List.nil_prefix hp
  | cons i X ih =>
    intro root root' p h hp
    simp only [modifyAt] at h
    cases hs : root.subcells[i]? with
    | none => simp [hs] at h
    | some sub =>
      simp only [hs] at h
      cases hm : modifyAt f sub X with
      | none => simp [hm] at h
      | some sub' =>
        simp only [hm, Option.some.injEq] at h
        subst h
        cases p with
        | nil =>
          simp only [cellAt_nil, Option.some.injEq]
          constructor
          · rintro c rfl
            exact ⟨_, rfl, rfl, rfl, by simp⟩
          · rintro c' rfl
            exact ⟨_, rfl, rfl, rfl, by simp⟩
        | cons j p =>
          by_cases hji : j = i
          · subst hji
            have hp' : ¬ X <+: p := fun e => hp ((List.prefix_cons_inj j).mpr e)
            have := ih sub sub' p hm hp'
            simp only [cellAt_cons, hs, Option.some_bind]
            rw [List.getElem?_set_self (getElem?_lt_of_some hs)]
            exact this
          · simp only [cellAt_cons]
            rw [List.getElem?_set_ne (fun e => hji e.symm)]
            constructor
            · intro c hc; exact ⟨c, hc, SameNode.same c⟩
            · intro c hc; exact ⟨c, hc, SameNode.same c⟩

theorem cellAt_append : ∀ (X : CellRef) (root : Cell) (r : CellRef),
    cellAt root (X ++ r) = (cellAt root X).bind (fun c => cellAt c r) := by
  intro X
  induction X with
  | nil => intro root r; rfl
  | cons i X ih =>
    intro root r
    rw [List.cons_append, cellAt_cons, cellAt_cons]
    cases root.subcells[i]? with
    | none => rfl
    | some sub => simp only [Option.some_bind]; exact ih sub r

theorem removeFromCells_eq (specObj : Obj) (cell : CellRef) (rest : CellList) (root : Cell) :
    removeFromCells specObj (cell :: rest) root =
      match modifyAt (eraseObject specObj) root cell with
      | none => none
      | some root1 =>
        match parentRef cell with
        | none => removeFromCells specObj rest root1
        | some parent =>
          match removeSubcellsAndClimbIfEmpty root1 parent with
          | none => none
          | some root2 => removeFromCells specObj rest root2 := rfl

/-- Erasing an object from the cell behind `q` changes the object list of that cell only. -/
theorem erase_step (o : Obj) (q : CellRef) (cur cur1 : Cell)
    (h : modifyAt (eraseObject o) cur q = some cur1) :
    (∀ p c', cellAt cur1 p = some c' → ∃ c, cellAt cur p = some c ∧ c'.region = c.region ∧
      c'.subcells.length = c.subcells.length ∧
      c'.objects = (if p = q then c.objects.filter (fun x => x ≠ o) else c.objects)) ∧
    (∀ p c, cellAt cur p = some c → ∃ c', cellAt cur1 p = some c') := by
  obtain ⟨cq, hcq⟩ := cellAt_of_modifyAt _ _ _ _ h
  have hbelow : ∀ r, cellAt cur1 (q ++ r) = cellAt (eraseObject o cq) r :=
    fun r => cellAt_modifyAt_below _ _ _ _ _ r h hcq
  have hsame : ∀ r, r ≠ [] → cellAt (eraseObject o cq) r = cellAt cq r := by
    intro r hr
    cases r with
    | nil => exact absurd rfl hr
    | cons i r => rw [cellAt_cons, cellAt_cons]; rfl
  constructor
  · intro p c' hp
    by_cases hpre : q <+: p
    · obtain ⟨r, rfl⟩ := hpre
      rw [hbelow] at hp
      cases r with
      | nil =>
        rw [cellAt_nil] at hp
        cases hp
        refine ⟨cq, by simpa using hcq, rfl, rfl, ?_⟩
        simp [eraseObject]
      | cons i r =>
        rw [hsame _ (by simp)] at hp
        refine ⟨c', ?_, rfl, rfl, ?_⟩
        · rw [cellAt_append, hcq]; exact hp
        · have : ¬ (q ++ i :: r = q) := by
            intro e
            have := congrArg List.length e
            simp at this
          rw [if_neg this]
    · obtain ⟨c, hc, h1, h2, h3⟩ := (cellAt_modifyAt_other _ _ _ _ p h hpre).2 c' hp
      refine ⟨c, hc, h1, h3, ?_⟩
      have : ¬ p = q := by
        rintro rfl
        exact hpre (List.prefix_refl _)
      rw [if_neg this, h2]
  · intro p c hp
    by_cases hpre : q <+: p
    · obtain ⟨r, rfl⟩ := hpre
      rw [hbelow]
      cases r with
      | nil => exact ⟨_, rfl⟩
      | cons i r =>
        rw [hsame _ (by simp)]
        rw [cellAt_append, hcq] at hp
        exact ⟨c, hp⟩
    · obtain ⟨c', hc', _⟩ := (cellAt_modifyAt_other _ _ _ _ p h hpre).1 c hp
      exact ⟨c', hc'⟩

theorem subcellsAllEmpty_true (c : Cell) :
    ∀ (n i : Nat), subcellsAllEmpty c n i = some true →
      ∀ j, i ≤ j → j < i + n → ∃ sub, c.subcells[j]? = some sub ∧ sub.subcells = [] ∧
        sub.objects = [] := by
  intro n
  induction n with
  | zero => intro i _ j h1 h2; omega
  | succ n ih =>
    intro i h j h1 h2
    simp only [subcellsAllEmpty] at h
    cases hs : c.subcells[i]? with
    | none => simp [hs] at h
    | some sub =>
      simp only [hs] at h
      split_ifs at h with hc
      · simp at h
      · simp only [Bool.or_eq_true, Bool.not_eq_true', decide_eq_true_eq, not_or, Bool.not_eq_false,
          not_lt, Nat.le_zero_eq, List.length_eq_zero] at hc
        by_cases hji : j = i
        · subst hji
          exact ⟨sub, hs, (isLeaf_iff sub).mp hc.1, hc.2⟩
        · exact ih (i + 1) h j (by omega) (by omega)

theorem subcellsAllEmpty_total (c : Cell) :
    ∀ (n i : Nat), i + n ≤ c.subcells.length → ∃ b, subcellsAllEmpty c n i = some b := by
  intro n
  induction n with
  | zero => intro i _; exact ⟨true, rfl⟩
  | succ n ih =>
    intro i h
    obtain ⟨sub, hs⟩ := getElem?_some_of_lt (l := c.subcells) (i := i) (by omega)
    simp only [subcellsAllEmpty, hs]
    split_ifs
    · exact ⟨false, rfl⟩
    · exact ih (i + 1) (by omega)

theorem Pruned.unchanged (root : Cell) : Pruned root root :=
  ⟨fun _ c h => ⟨c, h, rfl, rfl, Or.inr rfl⟩, fun _ c h _ => ⟨c, h⟩⟩

theorem Pruned.andThen {a b c : Cell} (h1 : Pruned a b) (h2 : Pruned b c) : Pruned a c := by
  constructor
  · intro p c' hc'
    obtain ⟨cb, hcb, e1, e2, e3⟩ := h2.1 p c' hc'
    obtain ⟨ca, hca, f1, f2, f3⟩ := h1.1 p cb hcb
    refine ⟨ca, hca, e1.trans f1, e2.trans f2, ?_⟩
    rcases e3 with e3 | e3
    · exact Or.inl e3
    · rcases f3 with f3 | f3
      · left
        rw [f3] at e3
        exact List.length_eq_zero.mp e3
      · exact Or.inr (e3.trans f3)
  · intro p ca hca hne
    obtain ⟨cb, hcb⟩ := h1.2 p ca hca hne
    obtain ⟨ca', hca', _, f2, _⟩ := h1.1 p cb hcb
    rw [hca] at hca'
    cases hca'
    exact h2.2 p cb hcb (by rw [f2]; exact hne)

theorem Pruned.shape {a b : Cell} (h : Pruned a b) (hs : ShapeOk a) : ShapeOk b := by
  intro p c' hc'
  obtain ⟨c, hc, _, _, e3⟩ := h.1 p c' hc'
  rcases e3 with e3 | e3
  · exact Or.inl e3
  · rcases hs p c hc with e | e
    · left
      rw [e] at e3
      exact List.length_eq_zero.mp e3
    · exact Or.inr (e3.trans e)

theorem Pruned.depth {a b : Cell} {k : Nat} (h : Pruned a b) (hd : DepthOk k a) : DepthOk k b := by
  intro p c' hc'
  obtain ⟨c, hc, _⟩ := h.1 p c' hc'
  exact hd p c hc

/-- Deleting the subcells of the cell behind `X`, when they are eight leaves without
objects, prunes the tree. -/
theorem collapse_step (cur cur2 : Cell) (X : CellRef) (b : Bool) (hshape : ShapeOk cur)
    (h : removeSubcellsIfEmpty cur X = some (cur2, b)) : Pruned cur cur2 := by
  unfold removeSubcellsIfEmpty at h
  cases hcX : cellAt cur X with
  | none => simp [hcX] at h
  | some cX =>
    simp only [hcX] at h
    cases hchk : subcellsAllEmpty cX 8 0 with
    | none => simp [hchk] at h
    | some bb =>
      cases bb with
      | false =>
        simp only [hchk, Option.some.injEq, Prod.mk.injEq] at h
        rw [← h.1]
        exact Pruned.unchanged cur
      | true =>
        simp only [hchk] at h
        cases hm : modifyAt (fun c => { c with subcells := [] }) cur X with
        | none => simp [hm] at h
        | some root' =>
          simp only [hm, Option.some.injEq, Prod.mk.injEq] at h
          obtain ⟨rfl, _⟩ := h
          have hbelow := fun r => cellAt_modifyAt_below _ _ _ _ _ r hm hcX
          have hkids := subcellsAllEmpty_true cX 8 0 hchk
          constructor
          · intro p c' hp
            by_cases hpre : X <+: p
            · obtain ⟨r, rfl⟩ := hpre
              rw [hbelow] at hp
              cases r with
              | nil =>
                rw [cellAt_nil] at hp
                cases hp
                exact ⟨cX, by simpa using hcX, rfl, rfl, Or.inl rfl⟩
              | cons i r => rw [cellAt_leaf rfl] at hp; cases hp
            · obtain ⟨c, hc, h1, h2, h3⟩ := (cellAt_modifyAt_other _ _ _ _ p hm hpre).2 c' hp
              exact ⟨c, hc, h1, h2, Or.inr h3⟩
          · intro p c hp hne
            by_cases hpre : X <+: p
            · obtain ⟨r, rfl⟩ := hpre
              rw [hbelow]
              cases r with
              | nil => exact ⟨_, rfl⟩
              | cons i r =>
                exfalso
                rw [cellAt_append, hcX] at hp
                simp only [Option.some_bind] at hp
                rw [cellAt_cons] at hp
                cases hs : cX.subcells[i]? with
                | none => simp [hs] at hp
                | some sub =>
                  rw [hs] at hp
                  simp only [Option.some_bind] at hp
                  have hlen : cX.subcells.length = 8 := by
                    rcases hshape X cX hcX with e | e
                    · rw [e] at hs; simp at hs
                    · exact e
                  have hi : i < 8 := by rw [← hlen]; exact getElem?_lt_of_some hs
                  obtain ⟨sub2, hs2, hleaf, hobj⟩ := hkids i (by omega) (by omega)
                  rw [hs] at hs2
                  cases hs2
                  cases r with
                  | nil =>
                    rw [cellAt_nil] at hp
                    cases hp
                    exact hne hobj
                  | cons j r => rw [cellAt_leaf hleaf] at hp; cases hp
            · obtain ⟨c', hc', _⟩ := (cellAt_modifyAt_other _ _ _ _ p hm hpre).1 c hp
              exact ⟨c', hc'⟩

theorem climb_pruned : ∀ (rev : List Nat) (cur cur' : Cell), ShapeOk cur →
    climbIfEmpty rev cur = some cur' → Pruned cur cur' := by
  intro rev
  induction rev with
  | nil =>
    intro cur cur' hshape h
    simp only [climbIfEmpty] at h
    cases hr : removeSubcellsIfEmpty cur [] with
    | none => simp [hr] at h
    | some r =>
      obtain ⟨root', b⟩ := r
      simp only [hr, Option.some.injEq] at h
      subst h
      exact collapse_step _ _ _ _ hshape hr
  | cons i rev ih =>
    intro cur cur' hshape h
    simp only [climbIfEmpty] at h
    cases hr : removeSubcellsIfEmpty cur (rev.reverse ++ [i]) with
    | none => simp [hr] at h
    | some r =>
      obtain ⟨root', b⟩ := r
      have hp := collapse_step _ _ _ _ hshape hr
      cases b with
      | false =>
        simp only [List.reverse_cons, hr, Option.some.injEq] at h
        subst h
        exact hp
      | true =>
        simp only [List.reverse_cons, hr] at h
        exact hp.andThen (ih root' cur' (hp.shape hshape) h)

theorem filter_ne_idem (o : Obj) (l : ObjectList) :
    (l.filter (fun x => x ≠ o)).filter (fun x => x ≠ o) = l.filter (fun x => x ≠ o) := by
  rw [List.filter_filter]
  simp

theorem RemoveInv.congr {o : Obj} {k : Nat} {root0 cur : Cell} {d1 d2 : CellList}
    (hd : ∀ p, p ∈ d1 ↔ p ∈ d2) (h : RemoveInv o k root0 d1 cur) : RemoveInv o k root0 d2 cur := by
  obtain ⟨h1, h2, h3, h4⟩ := h
  refine ⟨h1, h2, ?_, ?_⟩
  · intro p c2 hc2
    obtain ⟨c1, hc1, e1, e2⟩ := h3 p c2 hc2
    refine ⟨c1, hc1, e1, ?_⟩
    rw [e2]
    by_cases hp : p ∈ d1
    · rw [if_pos hp, if_pos ((hd p).mp hp)]
    · rw [if_neg hp, if_neg (fun e => hp ((hd p).mpr e))]
  · intro p c1 hc1 hne
    apply h4 p c1 hc1
    by_cases hp : p ∈ d1
    · rw [if_pos hp]; rw [if_pos ((hd p).mp hp)] at hne; exact hne
    · rw [if_neg hp]; rw [if_neg (fun e => hp ((hd p).mpr e))] at hne; exact hne

theorem RemoveInv.erase {o : Obj} {k : Nat} {root0 cur cur1 : Cell} {done : CellList} {q : CellRef}
    (h : RemoveInv o k root0 done cur) (hm : modifyAt (eraseObject o) cur q = some cur1) :
    RemoveInv o k root0 (q :: done) cur1 := by
  obtain ⟨h1, h2, h3, h4⟩ := h
  obtain ⟨e1, e2⟩ := erase_step o q cur cur1 hm
  refine ⟨?_, ?_, ?_, ?_⟩
  · intro p c' hc'
    obtain ⟨c, hc, _, hl, _⟩ := e1 p c' hc'
    rcases h1 p c hc with e | e
    · left
      rw [e] at hl
      exact List.length_eq_zero.mp hl
    · exact Or.inr (hl.trans e)
  · intro p c' hc'
    obtain ⟨c, hc, _⟩ := e1 p c' hc'
    exact h2 p c hc
  · intro p c2 hc2
    obtain ⟨c, hc, hr, _, ho⟩ := e1 p c2 hc2
    obtain ⟨c1, hc1, hr1, ho1⟩ := h3 p c hc
    refine ⟨c1, hc1, hr.trans hr1, ?_⟩
    rw [ho, ho1]
    by_cases hpq : p = q
    · subst hpq
      simp only [if_true, List.mem_cons, true_or]
      by_cases hpd : p ∈ done
      · simp only [hpd, if_true]; exact filter_ne_idem o _
      · simp only [hpd, if_false]
    · simp only [hpq, if_false, List.mem_cons, false_or]
  · intro p c1 hc1 hne
    have : ∃ c, cellAt cur p = some c := by
      apply h4 p c1 hc1
      by_cases hpd : p ∈ done
      · simp only [hpd, if_true]
        simpa [hpd] using hne
      · simp only [hpd, if_false]
        by_cases hpq : p = q
        · subst hpq
          simp only [List.mem_cons, true_or, if_true] at hne
          intro e
          rw [e] at hne
          exact hne rfl
        · simpa [hpd, hpq] using hne
    obtain ⟨c, hc⟩ := this
    exact e2 p c hc

theorem RemoveInv.pruned {o : Obj} {k : Nat} {root0 cur cur' : Cell} {done : CellList}
    (h : RemoveInv o k root0 done cur) (hp : Pruned cur cur') : RemoveInv o k root0 done cur' := by
  obtain ⟨h1, h2, h3, h4⟩ := h
  refine ⟨hp.shape h1, hp.depth h2, ?_, ?_⟩
  · intro p c2 hc2
    obtain ⟨c, hc, hr, ho, _⟩ := hp.1 p c2 hc2
    obtain ⟨c1, hc1, hr1, ho1⟩ := h3 p c hc
    exact ⟨c1, hc1, hr.trans hr1, ho.trans ho1⟩
  · intro p c1 hc1 hne
    obtain ⟨c, hc⟩ := h4 p c1 hc1 hne
    obtain ⟨c1', hc1', _, ho1⟩ := h3 p c hc
    rw [hc1] at hc1'
    cases hc1'
    exact hp.2 p c hc (by rw [ho1]; exact hne)

theorem removeFromCells_inv (o : Obj) (k : Nat) (root0 : Cell) :
    ∀ (cells done : CellList) (cur root' : Cell), RemoveInv o k root0 done cur →
      removeFromCells o cells cur = some root' → RemoveInv o k root0 (cells ++ done) root' := by
  intro cells
  induction cells with
  | nil =>
    intro done cur root' h hr
    simp only [removeFromCells, Option.some.injEq] at hr
    subst hr
    exact h
  | cons q rest ih =>
    intro done cur root' h hr
    rw [removeFromCells_eq] at hr
    have hcongr : ∀ p, p ∈ rest ++ (q :: done) ↔ p ∈ (q :: rest) ++ done := by
      intro p
      simp only [List.mem_append, List.mem_cons]
      tauto
    cases hm : modifyAt (eraseObject o) cur q with
    | none => simp [hm] at hr
    | some cur1 =>
      simp only [hm] at hr
      have h1 := h.erase hm
      cases hpar : parentRef q with
      | none =>
        simp only [hpar] at hr
        exact (ih _ _ _ h1 hr).congr hcongr
      | some X =>
        simp only [hpar] at hr
        cases hc : removeSubcellsAndClimbIfEmpty cur1 X with
        | none => simp [hc] at hr
        | some cur2 =>
          simp only [hc] at hr
          have h2 := h1.pruned (climb_pruned _ _ _ h1.1 hc)
          exact (ih _ _ _ h2 hr).congr hcongr

theorem parentRef_some {q X : CellRef} (h : parentRef q = some X) : ∃ i, q = X ++ [i] := by
  cases q with
  | nil => simp [parentRef] at h
  | cons j q =>
    simp only [parentRef, Option.some.injEq] at h
    subst h
    exact ⟨(j :: q).getLast (by simp), (List.dropLast_append_getLast (by simp)).symm⟩

theorem parent_has_subcells {root c : Cell} {X : CellRef} {i : Nat}
    (h : cellAt root (X ++ [i]) = some c) :
    ∃ cX, cellAt root X = some cX ∧ cX.subcells ≠ [] := by
  rw [cellAt_append] at h
  cases hX : cellAt root X with
  | none => simp [hX] at h
  | some cX =>
    refine ⟨cX, rfl, ?_⟩
    rw [hX] at h
    simp only [Option.some_bind, cellAt_cons] at h
    intro e
    rw [e] at h
    simp at h

theorem removeSubcellsIfEmpty_total (cur c : Cell) (X : CellRef) (hshape : ShapeOk cur)
    (hc : cellAt cur X = some c) (hne : c.subcells ≠ []) :
    ∃ r, removeSubcellsIfEmpty cur X = some r := by
  have hlen : c.subcells.length = 8 := by
    rcases hshape X c hc with e | e
    · exact absurd e hne
    · exact e
  obtain ⟨b, hb⟩ := subcellsAllEmpty_total c 8 0 (by omega)
  obtain ⟨root', hroot'⟩ := modifyAt_isSome (fun c => { c with subcells := [] }) X cur c hc
  unfold removeSubcellsIfEmpty
  simp only [hc, hb]
  cases b with
  | false => exact ⟨_, rfl⟩
  | true => simp only [hroot']; exact ⟨_, rfl⟩

theorem removeSubcellsIfEmpty_true (cur root' : Cell) (X : CellRef)
    (h : removeSubcellsIfEmpty cur X = some (root', true)) :
    ∃ c, cellAt cur X = some c ∧
      modifyAt (fun c => { c with subcells := [] }) cur X = some root' := by
  unfold removeSubcellsIfEmpty at h
  cases hcX : cellAt cur X with
  | none => simp [hcX] at h
  | some cX =>
    simp only [hcX] at h
    cases hchk : subcellsAllEmpty cX 8 0 with
    | none => simp [hchk] at h
    | some bb =>
      cases bb with
      | false => simp [hchk] at h
      | true =>
        simp only [hchk] at h
        cases hm : modifyAt (fun c => { c with subcells := [] }) cur X with
        | none => simp [hm] at h
        | some r =>
          simp only [hm, Option.some.injEq, Prod.mk.injEq, and_true] at h
          subst h
          exact ⟨cX, rfl, rfl⟩

theorem climb_total : ∀ (rev : List Nat) (cur c : Cell), ShapeOk cur →
    cellAt cur rev.reverse = some c → c.subcells ≠ [] →
    ∃ cur', climbIfEmpty rev cur = some cur' := by
  intro rev
  induction rev with
  | nil =>
    intro cur c hshape hc hne
    obtain ⟨⟨root', b⟩, hr⟩ := removeSubcellsIfEmpty_total cur c [] hshape hc hne
    simp only [climbIfEmpty, hr]
    exact ⟨_, rfl⟩
  | cons i rev ih =>
    intro cur c hshape hc hne
    obtain ⟨⟨root', b⟩, hr⟩ := removeSubcellsIfEmpty_total cur c _ hshape hc hne
    simp only [climbIfEmpty, hr]
    cases b with
    | false => exact ⟨_, rfl⟩
    | true =>
      simp only
      obtain ⟨cX, hcX, hm⟩ := removeSubcellsIfEmpty_true _ _ _ hr
      have hx : cellAt root' (rev.reverse ++ [i]) = some { cX with subcells := [] } := by
        have := cellAt_modifyAt_below _ _ _ _ _ [] hm hcX
        simp only [List.append_nil, List.reverse_cons] at this
        rw [this]
        rfl
      obtain ⟨cP, hcP, hneP⟩ := parent_has_subcells hx
      exact ih root' cP ((collapse_step _ _ _ _ hshape hr).shape hshape) hcP hneP

theorem removeFromCells_total (o : Obj) (k : Nat) (root0 : Cell) :
    ∀ (cells done : CellList) (cur : Cell), RemoveInv o k root0 done cur → cells.Nodup →
      (∀ q, q ∈ cells → q ∉ done) →
      (∀ q, q ∈ cells → ∃ c1, cellAt root0 q = some c1 ∧ o ∈ c1.objects) →
      ∃ root', removeFromCells o cells cur = some root' := by
  intro cells
  induction cells with
  | nil => intro done cur _ _ _ _; exact ⟨cur, rfl⟩
  | cons q rest ih =>
    intro done cur h hnd hdone hold
    rw [List.nodup_cons] at hnd
    obtain ⟨c1, hc1, ho1⟩ := hold q (List.mem_cons_self _ _)
    have hqd : q ∉ done := hdone q (List.mem_cons_self _ _)
    obtain ⟨c, hc⟩ := h.2.2.2 q c1 hc1 (by
      rw [if_neg hqd]
      exact List.ne_nil_of_mem ho1)
    obtain ⟨cur1, hm⟩ := modifyAt_isSome (eraseObject o) q cur c hc
    have h1 := h.erase hm
    have hdone' : ∀ q', q' ∈ rest → q' ∉ q :: done := by
      intro q' hq' hmem
      rcases List.mem_cons.mp hmem with e | e
      · subst e; exact hnd.1 hq'
      · exact hdone q' (List.mem_cons_of_mem _ hq') e
    have hold' : ∀ q', q' ∈ rest → ∃ c1, cellAt root0 q' = some c1 ∧ o ∈ c1.objects :=
      fun q' hq' => hold q' (List.mem_cons_of_mem _ hq')
    rw [removeFromCells_eq, hm]
    cases hpar : parentRef q with
    | none => exact ih _ _ h1 hnd.2 hdone' hold'
    | some X =>
      simp only
      obtain ⟨i, rfl⟩ := parentRef_some hpar
      obtain ⟨c', hc'⟩ := (erase_step o _ cur cur1 hm).2 _ c hc
      obtain ⟨cX, hcX, hneX⟩ := parent_has_subcells hc'
      obtain ⟨cur2, hcl⟩ := climb_total X.reverse cur1 cX h1.1 (by simpa using hcX) hneX
      have hcl' : removeSubcellsAndClimbIfEmpty cur1 X = some cur2 := hcl
      rw [hcl']
      simp only
      exact ih _ _ (h1.pruned (climb_pruned _ _ _ h1.1 hcl)) hnd.2 hdone' hold'

theorem find_eq_none_iff (m : CellMap) (o : Obj) : m.find o = none ↔ o ∉ keysOf m := by
  induction m with
  | nil => simp [CellMap.find, keysOf]
  | cons e rest ih =>
    obtain ⟨k, v⟩ := e
    simp only [CellMap.find, keysOf, List.map_cons, List.mem_cons, not_or]
    by_cases hk : k = o
    · simp [hk]
    · have : ¬ o = k := fun e => hk e.symm
      simp only [hk, if_false, this, not_false_eq_true, true_and]
      exact ih

theorem keysOf_pushBack (m : CellMap) (o : Obj) (c : CellRef) :
    keysOf (m.pushBack o c) = keysOf m := by
  induction m with
  | nil => rfl
  | cons e rest ih =>
    obtain ⟨k, v⟩ := e
    simp only [CellMap.pushBack]
    split_ifs
    · rfl
    · simp only [keysOf, List.map_cons, List.cons.injEq, true_and]
      exact ih

theorem keysOf_addCellToMap (m : CellMap) (o : Obj) (c : CellRef) :
    keysOf (addCellToMap m o c) = if o ∈ keysOf m then keysOf m else keysOf m ++ [o] := by
  unfold addCellToMap
  cases h : m.find o with
  | none =>
    have := (find_eq_none_iff m o).mp h
    rw [if_neg this]
    simp [keysOf]
  | some v =>
    have : o ∈ keysOf m := by
      by_contra hn
      rw [(find_eq_none_iff m o).mpr hn] at h
      cases h
    simp [this, keysOf_pushBack]

theorem keysOf_addCells (o : Obj) (l : CellList) :
    ∀ m : CellMap, keysOf (addCells m o l) =
      if o ∈ keysOf m ∨ l = [] then keysOf m else keysOf m ++ [o] := by
  induction l with
  | nil => intro m; simp [addCells_nil]
  | cons c l ih =>
    intro m
    rw [addCells_cons, ih, keysOf_addCellToMap]
    by_cases ho : o ∈ keysOf m
    · simp [ho]
    · simp [ho]

theorem nodup_keysOf_addCells (m : CellMap) (o : Obj) (l : CellList) (h : (keysOf m).Nodup) :
    (keysOf (addCells m o l)).Nodup := by
  rw [keysOf_addCells]
  split_ifs with hc
  · exact h
  · rw [not_or] at hc
    rw [List.nodup_append]
    refine ⟨h, by simp, ?_⟩
    intro a ha hb
    simp only [List.mem_singleton] at hb
    subst hb
    exact hc.1 ha

/-- Which cells hold which object after `insertHelper` on the root. -/
theorem holds_after_insert {test : ObjectCellIntersectionTest} {o : Obj} {root root' : Cell}
    {m m' : CellMap} {k : Nat} (h : InsertSpec test o [] root m k root' m') (p : CellRef) (o' : Obj) :
    Holds root' p o' ↔ Holds root p o' ∨ (o' = o ∧ p ∈ acceptedLeaves test o k root') := by
  obtain ⟨_, _, _, h4, h5⟩ := h
  constructor
  · rintro ⟨c', hc', ho'⟩
    cases hc : cellAt root p with
    | none =>
      rw [h5 p c' hc' hc] at ho'
      split_ifs at ho' with hacc
      · simp only [List.mem_singleton] at ho'
        exact Or.inr ⟨ho', hacc⟩
      · simp at ho'
    | some c =>
      obtain ⟨c'', hc'', _, ho''⟩ := h4 p c hc
      rw [hc'] at hc''
      cases hc''
      rw [ho'', List.mem_append] at ho'
      rcases ho' with e | e
      · exact Or.inl ⟨c, hc, e⟩
      · split_ifs at e with hacc
        · simp only [List.mem_singleton] at e
          exact Or.inr ⟨e, hacc⟩
        · simp at e
  · rintro (⟨c, hc, ho'⟩ | ⟨rfl, hacc⟩)
    · obtain ⟨c', hc', _, ho''⟩ := h4 p c hc
      exact ⟨c', hc', by rw [ho'']; exact List.mem_append_left _ ho'⟩
    · obtain ⟨c', hc'⟩ := cellAt_of_mem_acceptedLeaves test o' k root' p hacc
      refine ⟨c', hc', ?_⟩
      cases hc : cellAt root p with
      | none => rw [h5 p c' hc' hc, if_pos hacc]; simp
      | some c =>
        obtain ⟨c'', hc'', _, ho''⟩ := h4 p c hc
        rw [hc'] at hc''
        cases hc''
        rw [ho'', if_pos hacc]
        simp

theorem cellsOf_after_insert {test : ObjectCellIntersectionTest} {o : Obj} {root root' : Cell}
    {m m' : CellMap} {k : Nat} (h : InsertSpec test o [] root m k root' m') (p : CellRef) (o' : Obj) :
    p ∈ cellsOf m' o' ↔ p ∈ cellsOf m o' ∨ (o' = o ∧ p ∈ acceptedLeaves test o k root') := by
  rw [h.1]
  simp only [List.nil_append, List.map_id']
  by_cases ho : o' = o
  · subst ho
    rw [cellsOf_addCells_self, List.mem_append]
    simp
  · rw [cellsOf_addCells_ne _ _ _ ho]
    simp [ho]

theorem agree_after_insert {test : ObjectCellIntersectionTest} {o : Obj} {root root' : Cell}
    {m m' : CellMap} {k : Nat} (h : InsertSpec test o [] root m k root' m') (o' : Obj)
    (ha : ∀ p, p ∈ cellsOf m o' ↔ Holds root p o') :
    ∀ p, p ∈ cellsOf m' o' ↔ Holds root' p o' := by
  intro p
  rw [cellsOf_after_insert h, holds_after_insert h, ha p]

theorem occupied_after_insert {test : ObjectCellIntersectionTest} {o : Obj} {root root' : Cell}
    {m m' : CellMap} {k : Nat} (h : InsertSpec test o [] root m k root' m')
    (hocc : ∀ p c, cellAt root p = some c → c.objects ≠ [] → p.length = k) :
    ∀ p c', cellAt root' p = some c' → c'.objects ≠ [] → p.length = k := by
  intro p c' hc' hne
  obtain ⟨x, hx⟩ := List.exists_mem_of_ne_nil _ hne
  rcases (holds_after_insert h p x).mp ⟨c', hc', hx⟩ with ⟨c, hc, hxc⟩ | ⟨_, hacc⟩
  · exact hocc p c hc (List.ne_nil_of_mem hxc)
  · exact acceptedLeaves_length _ _ _ _ _ hacc

theorem Inv.insert {s s' : Octree} {fuel : Nat} {o : Obj} (hinv : Inv s)
    (h : s.insert fuel o = some s') : Inv s' := by
  obtain ⟨hmd, _, hspec⟩ := insert_spec s s' fuel o hinv.shape hinv.depth h
  refine ⟨hspec.2.1, by rw [hmd]; exact hspec.2.2.1, ?_, ?_, ?_⟩
  · rw [hmd]
    exact occupied_after_insert hspec hinv.occupied
  · intro o' p
    exact agree_after_insert hspec o' (hinv.agree o') p
  · have := nodup_keysOf_addCells s.cellMap o
      ((acceptedLeaves s.objectInCellTest o s.maxDepth s'.rootCell).map (fun q => [] ++ q))
      hinv.keys
    rw [← hspec.1] at this
    exact this

theorem find_erase (m : CellMap) (o o' : Obj) :
    (m.erase o).find o' = if o' = o then none else m.find o' := by
  induction m with
  | nil => simp [CellMap.erase, CellMap.find]
  | cons e rest ih =>
    obtain ⟨k, v⟩ := e
    unfold CellMap.erase at ih ⊢
    by_cases hk : k = o
    · subst hk
      simp only [List.filter_cons, ne_eq, not_true_eq_false, decide_False, Bool.false_eq_true,
        if_false, ih, CellMap.find]
      by_cases ho : o' = k
      · simp [ho]
      · have : ¬ k = o' := fun e => ho e.symm
        simp [ho, this]
    · simp only [List.filter_cons, ne_eq, hk, not_false_eq_true, decide_True, if_true,
        CellMap.find, ih]
      by_cases hk' : k = o'
      · subst hk'; simp [hk]
      · simp [hk']

theorem cellsOf_erase (m : CellMap) (o o' : Obj) :
    cellsOf (m.erase o) o' = if o' = o then [] else cellsOf m o' := by
  unfold cellsOf
  rw [find_erase]
  split_ifs <;> rfl

theorem erase_of_find_none (m : CellMap) (o : Obj) (h : m.find o = none) : m.erase o = m := by
  unfold CellMap.erase
  rw [List.filter_eq_self]
  intro e he
  have hn := (find_eq_none_iff m o).mp h
  simp only [ne_eq, decide_eq_true_eq]
  intro heq
  apply hn
  rw [← heq]
  exact List.mem_map_of_mem Prod.fst he

theorem nodup_keysOf_erase (m : CellMap) (o : Obj) (h : (keysOf m).Nodup) :
    (keysOf (m.erase o)).Nodup := by
  unfold keysOf CellMap.erase at *
  exact List.Nodup.sublist (List.Sublist.map _ (List.filter_sublist _)) h

/-- The effect of a `remove` that returns, on a state satisfying the invariant. -/
theorem remove_effect {s s' : Octree} {o : Obj} (hinv : Inv s) (h : s.remove o = some s') :
    s'.maxDepth = s.maxDepth ∧ s'.objectInCellTest = s.objectInCellTest ∧
    s'.cellMap = s.cellMap.erase o ∧ ShapeOk s'.rootCell ∧ DepthOk s.maxDepth s'.rootCell ∧
    (∀ p c', cellAt s'.rootCell p = some c' → ∃ c, cellAt s.rootCell p = some c ∧
      c'.region = c.region ∧ c'.objects = c.objects.filter (fun x => x ≠ o)) ∧
    (∀ p c, cellAt s.rootCell p = some c → c.objects.filter (fun x => x ≠ o) ≠ [] →
      ∃ c', cellAt s'.rootCell p = some c') := by
  have hnot : ∀ p c, cellAt s.rootCell p = some c → p ∉ cellsOf s.cellMap o →
      c.objects.filter (fun x => x ≠ o) = c.objects := by
    intro p c hc hp
    rw [List.filter_eq_self]
    intro x hx
    simp only [ne_eq, decide_eq_true_eq]
    rintro rfl
    exact hp ((hinv.agree x p).mpr ⟨c, hc, hx⟩)
  unfold Octree.remove at h
  cases hf : s.cellMap.find o with
  | none =>
    simp only [hf, Option.some.injEq] at h
    subst h
    have hcells : cellsOf s.cellMap o = [] := by simp [cellsOf, hf]
    refine ⟨rfl, rfl, (erase_of_find_none _ _ hf).symm, hinv.shape, hinv.depth, ?_, ?_⟩
    · intro p c' hc'
      exact ⟨c', hc', rfl, (hnot p c' hc' (by rw [hcells]; simp)).symm⟩
    · intro p c hc _
      exact ⟨c, hc⟩
  | some cells =>
    simp only [hf] at h
    cases hr : removeFromCells o cells s.rootCell with
    | none => simp [hr] at h
    | some root' =>
      simp only [hr, Option.some.injEq] at h
      subst h
      have hcells : cellsOf s.cellMap o = cells := by simp [cellsOf, hf]
      have h0 : RemoveInv o s.maxDepth s.rootCell [] s.rootCell :=
        ⟨hinv.shape, hinv.depth, fun p c hc => ⟨c, hc, rfl, by simp⟩, fun p c hc _ => ⟨c, hc⟩⟩
      have hfin := removeFromCells_inv o s.maxDepth s.rootCell cells [] _ _ h0 hr
      rw [List.append_nil] at hfin
      obtain ⟨j1, j2, j3, j4⟩ := hfin
      refine ⟨rfl, rfl, rfl, j1, j2, ?_, ?_⟩
      · intro p c' hc'
        obtain ⟨c, hc, e1, e2⟩ := j3 p c' hc'
        refine ⟨c, hc, e1, ?_⟩
        rw [e2]
        split_ifs with hp
        · rfl
        · exact (hnot p c hc (by rw [hcells]; exact hp)).symm
      · intro p c hc hne
        apply j4 p c hc
        split_ifs with hp
        · exact hne
        · rw [← hnot p c hc (by rw [hcells]; exact hp)]
          exact hne

theorem Inv.remove {s s' : Octree} {o : Obj} (hinv : Inv s) (h : s.remove o = some s') :
    Inv s' := by
  obtain ⟨hmd, _, hm, hshape, hdepth, f1, f2⟩ := remove_effect hinv h
  refine ⟨hshape, by rw [hmd]; exact hdepth, ?_, ?_, ?_⟩
  · intro p c' hc' hne
    obtain ⟨c, hc, _, ho⟩ := f1 p c' hc'
    rw [hmd]
    apply hinv.occupied p c hc
    intro e
    rw [e] at ho
    exact hne (by simpa using ho)
  · intro o' p
    rw [hm, cellsOf_erase]
    by_cases ho : o' = o
    · subst ho
      simp only [if_true, List.not_mem_nil, false_iff]
      rintro ⟨c', hc', hmem⟩
      obtain ⟨c, _, _, ho⟩ := f1 p c' hc'
      rw [ho] at hmem
      simp at hmem
    · simp only [ho, if_false]
      rw [hinv.agree o' p]
      constructor
      · rintro ⟨c, hc, hmem⟩
        have hin : o' ∈ c.objects.filter (fun x => x ≠ o) := by
          rw [List.mem_filter]
          exact ⟨hmem, by simpa using ho⟩
        obtain ⟨c', hc'⟩ := f2 p c hc (List.ne_nil_of_mem hin)
        obtain ⟨c2, hc2, _, ho2⟩ := f1 p c' hc'
        rw [hc] at hc2
        cases hc2
        exact ⟨c', hc', by rw [ho2]; exact hin⟩
      · rintro ⟨c', hc', hmem⟩
        obtain ⟨c, hc, _, ho2⟩ := f1 p c' hc'
        rw [ho2] at hmem
        exact ⟨c, hc, (List.mem_filter.mp hmem).1⟩
  · rw [hm]
    exact nodup_keysOf_erase _ _ hinv.keys

theorem find_clearEntry (m : CellMap) (x z : Obj) :
    (m.clearEntry x).find z = if z = x then (m.find x).map (fun _ => []) else m.find z := by
  induction m with
  | nil => simp [CellMap.clearEntry, CellMap.find]
  | cons e rest ih =>
    obtain ⟨k, v⟩ := e
    simp only [CellMap.clearEntry]
    by_cases hk : k = x
    · subst hk
      by_cases hz : z = k
      · subst hz; simp [CellMap.find]
      · have : ¬ k = z := fun e => hz e.symm
        simp [CellMap.find, hz, this]
    · simp only [hk, if_false, CellMap.find]
      by_cases hk' : k = z
      · subst hk'; simp [hk]
      · simp [hk', ih]

theorem cellsOf_clearEntry (m : CellMap) (x z : Obj) :
    cellsOf (m.clearEntry x) z = if z = x then [] else cellsOf m z := by
  unfold cellsOf
  rw [find_clearEntry]
  split_ifs
  · cases m.find x <;> rfl
  · rfl

theorem keysOf_clearEntry (m : CellMap) (x : Obj) : keysOf (m.clearEntry x) = keysOf m := by
  induction m with
  | nil => rfl
  | cons e rest ih =>
    obtain ⟨k, v⟩ := e
    simp only [CellMap.clearEntry]
    split_ifs
    · rfl
    · simp only [keysOf, List.map_cons, List.cons.injEq, true_and]
      exact ih

theorem inv_of_empty (s : Octree) (hsub : s.rootCell.subcells = []) (hobj : s.rootCell.objects = [])
    (hm : s.cellMap = []) : Inv s := by
  have hroot : ∀ p c, cellAt s.rootCell p = some c → c.objects = [] := by
    intro p c hc
    cases p with
    | nil => rw [cellAt_nil] at hc; cases hc; exact hobj
    | cons i p => rw [cellAt_leaf hsub] at hc; cases hc
  refine ⟨ShapeOk.leaf hsub, DepthOk.of_leaf hsub, ?_, ?_, ?_⟩
  · intro p c hc hne
    exact absurd (hroot p c hc) hne
  · intro o p
    rw [hm]
    simp only [cellsOf, CellMap.find, Option.getD_none, List.not_mem_nil, false_iff]
    rintro ⟨c, hc, hmem⟩
    rw [hroot p c hc] at hmem
    simp at hmem
  · rw [hm]; simp

theorem Inv.fresh (lowBound highBound : Vector3f) (maxDepth : Nat)
    (test : ObjectCellIntersectionTest) : Inv (Octree.new lowBound highBound maxDepth test) :=
  inv_of_empty _ rfl rfl rfl

theorem Inv.clear {s s' : Octree} (h : s.clear = some s') : Inv s' := by
  unfold Octree.clear at h
  cases hc : clearCellRecursive s.rootCell with
  | none => simp [hc] at h
  | some u =>
    simp only [hc, Option.some.injEq] at h
    subst h
    exact inv_of_empty _ rfl rfl rfl

theorem Inv.update {s s' : Octree} {fuel : Nat} {o : Obj} (hinv : Inv s)
    (h : s.update fuel o = some s') : Inv s' := by
  unfold Octree.update at h
  cases hr : s.remove o with
  | none => simp [hr] at h
  | some s1 =>
    simp only [hr] at h
    exact (hinv.remove hr).insert h

theorem Inv.moved {s : Octree} (test : ObjectCellIntersectionTest) (hinv : Inv s) :
    Inv { s with objectInCellTest := test } :=
  ⟨hinv.shape, hinv.depth, hinv.occupied, hinv.agree, hinv.keys⟩

theorem ResetInv.step {x : Obj} {rest : List Obj} {s s1 : Octree} {fuel : Nat}
    (h : ResetInv (x :: rest) s)
    (hi : Octree.insert fuel x { s with cellMap := s.cellMap.clearEntry x } = some s1) :
    ResetInv rest s1 := by
  obtain ⟨hmd, _, hspec⟩ := insert_spec { s with cellMap := s.cellMap.clearEntry x } s1 fuel x
    h.shape h.depth hi
  simp only at hmd hspec
  have hnd := List.nodup_cons.mp h.nodup
  refine ⟨hspec.2.1, by rw [hmd]; exact hspec.2.2.1, ?_, ?_, hnd.2, ?_, ?_⟩
  · rw [hmd]
    exact occupied_after_insert hspec h.occupied
  · have := nodup_keysOf_addCells (s.cellMap.clearEntry x) x
      ((acceptedLeaves s.objectInCellTest x s.maxDepth s1.rootCell).map (fun q => [] ++ q))
      (by rw [keysOf_clearEntry]; exact h.keys)
    rw [← hspec.1] at this
    exact this
  · intro z hz p hp
    rcases (holds_after_insert hspec p z).mp hp with e | ⟨e, _⟩
    · exact h.absent z (List.mem_cons_of_mem _ hz) p e
    · subst e
      exact hnd.1 hz
  · intro z hz
    apply agree_after_insert hspec z
    intro p
    rw [cellsOf_clearEntry]
    by_cases hzx : z = x
    · subst hzx
      simp only [if_true, List.not_mem_nil, false_iff]
      exact h.absent z (List.mem_cons_self _ _) p
    · simp only [hzx, if_false]
      exact h.agree z (by simp [hzx, hz]) p

theorem reinsertAll_inv (fuel : Nat) : ∀ (pending : List Obj) (s s' : Octree),
    ResetInv pending s → reinsertAll fuel pending s = some s' → ResetInv [] s' := by
  intro pending
  induction pending with
  | nil =>
    intro s s' h hr
    simp only [reinsertAll, Option.some.injEq] at hr
    subst hr
    exact h
  | cons x rest ih =>
    intro s s' h hr
    simp only [reinsertAll] at hr
    cases hi : Octree.insert fuel x { s with cellMap := s.cellMap.clearEntry x } with
    | none => simp [hi] at hr
    | some s1 =>
      simp only [hi] at hr
      exact ih s1 s' (h.step hi) hr

theorem ResetInv.inv {s : Octree} (h : ResetInv [] s) : Inv s :=
  ⟨h.shape, h.depth, h.occupied, fun o p => h.agree o (by simp) p, h.keys⟩

theorem Inv.resetWithBounds {s s' : Octree} {fuel : Nat} {order : List Obj}
    {lowBound highBound : Vector3f} (hinv : Inv s) (hperm : order.Perm (s.cellMap.map Prod.fst))
    (h : s.resetWithBounds fuel order lowBound highBound = some s') : Inv s' := by
  unfold Octree.resetWithBounds at h
  cases hc : clearCellRecursive s.rootCell with
  | none => simp [hc] at h
  | some u =>
    simp only [hc] at h
    apply (reinsertAll_inv fuel _ _ s' ?_ h).inv
    have hroot : ∀ (p : CellRef) (c : Cell) (r : Cell), r.subcells = [] → r.objects = [] →
        cellAt r p = some c → c.objects = [] := by
      intro p c r hsub hobj hcp
      cases p with
      | nil => rw [cellAt_nil] at hcp; cases hcp; exact hobj
      | cons i p => rw [cellAt_leaf hsub] at hcp; cases hcp
    refine ⟨ShapeOk.leaf rfl, DepthOk.of_leaf rfl, ?_, hinv.keys,
      hperm.nodup_iff.mpr hinv.keys, ?_, ?_⟩
    · intro p c hcp hne
      exact absurd (hroot p c _ rfl rfl hcp) hne
    · rintro z _ p ⟨c, hcp, hmem⟩
      rw [hroot p c _ rfl rfl hcp] at hmem
      simp at hmem
    · intro z hz p
      have hnone : s.cellMap.find z = none :=
        (find_eq_none_iff _ _).mpr (fun hk => hz (hperm.mem_iff.mpr hk))
      simp only [cellsOf, hnone, Option.getD_none, List.not_mem_nil, false_iff]
      rintro ⟨c, hcp, hmem⟩
      rw [hroot p c _ rfl rfl hcp] at hmem
      simp at hmem

theorem reachable_inv {s : Octree} (h : Reachable s) : Inv s := by
  induction h with
  | fresh lowBound highBound maxDepth test => exact Inv.fresh _ _ _ _
  | insert fuel object _ hi ih => exact ih.insert hi
  | remove object _ hr ih => exact ih.remove hr
  | update fuel object _ hu ih => exact ih.update hu
  | clear _ hc _ => exact Inv.clear hc
  | resetWithBounds fuel order lowBound highBound _ hp hr ih => exact ih.resetWithBounds hp hr
  | moved test _ ih => exact ih.moved test

/-! ### The concrete states are reachable -/

theorem exampleFlat_reachable : Reachable exampleFlat :=
  Reachable.fresh _ _ _ _

theorem exampleFlatOne_reachable : Reachable exampleFlatOne :=
  Reachable.insert 1 7 exampleFlat_reachable (by with_unfolding_all rfl)

theorem exampleWideOne_reachable : Reachable exampleWideOne :=
  Reachable.insert 2 1 (Reachable.fresh _ _ _ _)
    (show exampleWide.insert 2 1 = some exampleWideOne by with_unfolding_all rfl)

theorem exampleWideTwice_reachable : Reachable exampleWideTwice :=
  Reachable.insert 2 1 exampleWideOne_reachable
    (show exampleWideOne.insert 2 1 = some exampleWideTwice by with_unfolding_all rfl)

theorem exampleWidePair_reachable : Reachable exampleWidePair :=
  Reachable.insert 2 2 exampleWideOne_reachable
    (show exampleWideOne.insert 2 2 = some exampleWidePair by with_unfolding_all rfl)

theorem exampleCornerOne_reachable : Reachable exampleCornerOne :=
  Reachable.insert 2 1 (Reachable.fresh _ _ _ _)
    (show exampleCorner.insert 2 1 = some exampleCornerOne by with_unfolding_all rfl)

theorem exampleCornerTwo_reachable : Reachable exampleCornerTwo :=
  Reachable.insert 2 2 exampleCornerOne_reachable
    (show exampleCornerOne.insert 2 2 = some exampleCornerTwo by with_unfolding_all rfl)

/-! ### Claims -/

theorem leaf_of_depth {k : Nat} {root c : Cell} {p : CellRef} (hd : DepthOk k root)
    (hc : cellAt root p = some c) (hp : p.length = k) : c.subcells = [] := by
  cases hsub : c.subcells with
  | nil => rfl
  | cons a l =>
    have := hd (p ++ [0]) a (by
      rw [cellAt_append, hc]
      simp [cellAt_cons, hsub, cellAt_nil])
    simp at this
    omega

/-- C2. Index-tree agreement is an invariant: in every state reachable from a fresh octree
by `insert`, `remove`, `update`, `clear` (and also `resetWithBounds` and moves of objects),
a cell is listed in the index entry of `o` if and only if it is a leaf of the tree whose
object list contains `o`. -/
theorem index_tree_agreement (s : Octree) (h : Reachable s) (o : Obj) (c : CellRef) :
    (∃ cells, s.cellMap.find o = some cells ∧ c ∈ cells) ↔
      ∃ cell, cellAt s.rootCell c = some cell ∧ cell.isLeaf = true ∧ o ∈ cell.objects := by
  have hinv := reachable_inv h
  have hcells : (∃ cells, s.cellMap.find o = some cells ∧ c ∈ cells) ↔ c ∈ cellsOf s.cellMap o := by
    unfold cellsOf
    cases s.cellMap.find o with
    | none => simp
    | some cells => simp
  rw [hcells, hinv.agree o c]
  constructor
  · rintro ⟨cell, hc, hmem⟩
    refine ⟨cell, hc, ?_, hmem⟩
    rw [isLeaf_iff]
    exact leaf_of_depth hinv.depth hc (hinv.occupied c cell hc (List.ne_nil_of_mem hmem))
  · rintro ⟨cell, hc, _, hmem⟩
    exact ⟨cell, hc, hmem⟩

theorem index_tree_agreement_witness :
    Reachable exampleFlatOne ∧
    ((∃ cells, exampleFlatOne.cellMap.find 7 = some cells ∧ [] ∈ cells) ↔
      ∃ cell, cellAt exampleFlatOne.rootCell [] = some cell ∧ cell.isLeaf = true ∧
        7 ∈ cell.objects) :=
  ⟨exampleFlatOne_reachable, index_tree_agreement exampleFlatOne exampleFlatOne_reachable 7 []⟩

/-- C3. Depth bound: in every reachable state no cell lies deeper than `maxDepth`; an
`insert` returns, and a leaf at depth `maxDepth` is still a leaf afterwards, its object list
being the old one with the object appended (when the leaf is among the accepted cells) or
unchanged; with `maxDepth = 0` the root has no subcells. -/
theorem depth_bound (s : Octree) (h : Reachable s) :
    (∀ p c, cellAt s.rootCell p = some c → p.length ≤ s.maxDepth) ∧
    (∀ o, ∃ s', s.insert (s.maxDepth + 1) o = some s' ∧
      (∀ fuel s'', s.insert fuel o = some s'' → s'' = s') ∧
      ∀ p c, cellAt s.rootCell p = some c → c.isLeaf = true → p.length = s.maxDepth →
        ∃ c', cellAt s'.rootCell p = some c' ∧ c'.isLeaf = true ∧
          c'.objects = c.objects ++ (if p ∈ acceptedCells s' o then [o] else [])) ∧
    (s.maxDepth = 0 → s.rootCell.isLeaf = true) := by
  have hinv := reachable_inv h
  refine ⟨hinv.depth, ?_, ?_⟩
  · intro o
    obtain ⟨s', hs'⟩ := insert_total s o hinv.shape hinv.depth
    obtain ⟨hmd, htest, hspec⟩ := insert_spec s s' _ o hinv.shape hinv.depth hs'
    refine ⟨s', hs', fun fuel s'' h'' => insert_fuel_unique s s'' s' fuel _ o h'' hs', ?_⟩
    intro p c hc _ hp
    obtain ⟨c', hc', _, ho⟩ := hspec.2.2.2.1 p c hc
    refine ⟨c', hc', ?_, ?_⟩
    · rw [isLeaf_iff]
      exact leaf_of_depth hspec.2.2.1 hc' hp
    · rw [ho, acceptedCells_eq, hmd, htest]
  · intro h0
    rw [isLeaf_iff]
    exact leaf_of_depth hinv.depth (cellAt_nil _) (by simp [h0])

theorem depth_bound_witness :
    Reachable exampleFlatOne ∧
    (∀ p c, cellAt exampleFlatOne.rootCell p = some c → p.length ≤ exampleFlatOne.maxDepth) ∧
    (exampleFlatOne.maxDepth = 0 → exampleFlatOne.rootCell.isLeaf = true) :=
  ⟨exampleFlatOne_reachable, (depth_bound exampleFlatOne exampleFlatOne_reachable).1,
    (depth_bound exampleFlatOne exampleFlatOne_reachable).2.2⟩

/-- C5, as stated, fails: `update(7)` on a fresh octree, where 7 has no index entry,
inserts 7. -/
theorem update_not_indexed_changes_state :
    exampleFlat.cellMap.find 7 = none ∧
    exampleFlat.update 1 7 = some exampleFlatOne ∧
    exampleFlat.rootCell.objects = [] ∧ exampleFlatOne.rootCell.objects = [7] ∧
    exampleFlat.cellMap = [] ∧ exampleFlatOne.cellMap = [(7, [[]])] :=
  ⟨rfl, by with_unfolding_all rfl, rfl, rfl, rfl, rfl⟩

/-- C5, amended. `update` on an object with no index entry removes nothing and then
inserts the object: it is exactly `insert`, and it leaves tree and index as they were when
the region callback rejects the object at the root. -/
theorem update_not_indexed (s : Octree) (o : Obj) (fuel : Nat) (h : s.cellMap.find o = none) :
    s.update fuel o = s.insert fuel o ∧
    (s.objectInCellTest o s.rootCell.region = false → s.update (fuel + 1) o = some s) := by
  have hr : s.remove o = some s := by simp only [Octree.remove, h]
  constructor
  · simp only [Octree.update, hr]
  · intro hrej
    simp only [Octree.update, hr, Octree.insert, insertHelper, hrej, Bool.false_eq_true, if_false]

theorem update_not_indexed_witness :
    exampleFlat.cellMap.find 7 = none ∧ exampleFlat.update 1 7 = exampleFlat.insert 1 7 :=
  ⟨rfl, (update_not_indexed exampleFlat 7 1 rfl).1⟩

/-- C6. `remove` on an object that has no index entry returns and leaves the state (cells,
object lists and index) as it was. -/
theorem remove_not_indexed (s : Octree) (o : Obj) (h : s.cellMap.find o = none) :
    s.remove o = some s := by
  simp only [Octree.remove, h]

theorem remove_not_indexed_witness :
    exampleFlatOne.cellMap.find 3 = none ∧ exampleFlatOne.remove 3 = some exampleFlatOne :=
  ⟨rfl, remove_not_indexed exampleFlatOne 3 rfl⟩

theorem scanObjects_eq (o : Obj) (T : ObjectObjectIntersectionTest) :
    ∀ (objects : ObjectList) (collisions : Option ObjectList) (has : Bool),
      scanObjects o T objects collisions has =
        (has || !(collidingIn o T objects).isEmpty,
          collisions.map (fun l => l ++ collidingIn o T objects)) := by
  intro objects
  induction objects with
  | nil =>
    intro collisions has
    cases collisions <;> simp [scanObjects, collidingIn]
  | cons x rest ih =>
    intro collisions has
    simp only [scanObjects, collidingIn, List.filter_cons]
    by_cases hx : (decide (x ≠ o) && T o x) = true
    · rw [if_pos (by simpa using hx), if_pos hx, ih]
      cases collisions <;> simp [collidingIn]
    · rw [if_neg (by simpa using hx), if_neg hx, ih]
      rfl

theorem insideCells_eq (root : Cell) (o : Obj) (T : ObjectObjectIntersectionTest) :
    ∀ (cells : CellList) (collisions : Option ObjectList) (has : Bool),
      (∀ p, p ∈ cells → ∃ c, cellAt root p = some c) →
      insideCells root o T cells collisions has =
        some (has || !(collisionsFrom root o T cells).isEmpty,
          collisions.map (fun l => l ++ collisionsFrom root o T cells)) := by
  intro cells
  induction cells with
  | nil =>
    intro collisions has _
    cases collisions <;> simp [insideCells, collisionsFrom]
  | cons p rest ih =>
    intro collisions has hres
    obtain ⟨c, hc⟩ := hres p (List.mem_cons_self _ _)
    have hobj : objectsAt root p = c.objects := by simp [objectsAt, hc]
    simp only [insideCells, hc, scanObjects_eq]
    rw [ih _ _ (fun q hq => hres q (List.mem_cons_of_mem _ hq))]
    simp only [collisionsFrom, List.flatMap_cons, hobj, Option.some.injEq, Prod.mk.injEq]
    constructor
    · cases has <;> cases h1 : (collidingIn o T c.objects) <;> simp
    · cases collisions <;> simp

theorem mem_collisionsFrom (root : Cell) (o : Obj) (T : ObjectObjectIntersectionTest)
    (cells : CellList) (x : Obj) :
    x ∈ collisionsFrom root o T cells ↔
      ∃ p, p ∈ cells ∧ Holds root p x ∧ x ≠ o ∧ T o x = true := by
  simp only [collisionsFrom, List.mem_flatMap, collidingIn, List.mem_filter, Bool.and_eq_true,
    decide_eq_true_eq, Holds, objectsAt]
  constructor
  · rintro ⟨p, hp, hmem, hne, hT⟩
    cases hc : cellAt root p with
    | none => simp [hc] at hmem
    | some c =>
      simp only [hc] at hmem
      exact ⟨p, hp, ⟨c, hc, hmem⟩, hne, hT⟩
  · rintro ⟨p, hp, ⟨c, hc, hmem⟩, hne, hT⟩
    exact ⟨p, hp, by simp only [hc]; exact hmem, hne, hT⟩

theorem inside_eq {s : Octree} (hinv : Inv s) (o : Obj) (T : ObjectObjectIntersectionTest)
    (cells : CellList) (hf : s.cellMap.find o = some cells) (collisions : Option ObjectList) :
    s.testIntersectionInside o T collisions =
      some (!(collisionsFrom s.rootCell o T cells).isEmpty,
        collisions.map (fun l => l ++ collisionsFrom s.rootCell o T cells)) := by
  have hcells : cellsOf s.cellMap o = cells := by simp [cellsOf, hf]
  have hres : ∀ p, p ∈ cells → ∃ c, cellAt s.rootCell p = some c := by
    intro p hp
    obtain ⟨c, hc, _⟩ := (hinv.agree o p).mp (by rw [hcells]; exact hp)
    exact ⟨c, hc⟩
  simp only [Octree.testIntersectionInside, hf]
  rw [insideCells_eq _ _ _ _ _ _ hres]
  simp

/-- C9. Inside mode tests only co-located objects: in a reachable state, for an object `o`
with index entry `cells`, `testIntersectionInside` returns; the boolean is true iff some cell
recorded for `o` holds an object `x` other than `o` with `objObjTest(o, x)`; the objects
appended to `collisions` are exactly those `x`, and never `o`; when the object test is false
for all other objects the result is false and nothing is appended. -/
theorem inside_tests_colocated (s : Octree) (h : Reachable s) (o : Obj)
    (T : ObjectObjectIntersectionTest) (cells : CellList) (hf : s.cellMap.find o = some cells)
    (collisions : Option ObjectList) :
    ∃ b added,
      s.testIntersectionInside o T collisions = some (b, collisions.map (fun l => l ++ added)) ∧
      (b = true ↔ ∃ p x, p ∈ cells ∧ Holds s.rootCell p x ∧ x ≠ o ∧ T o x = true) ∧
      (∀ x, x ∈ added ↔ ∃ p, p ∈ cells ∧ Holds s.rootCell p x ∧ x ≠ o ∧ T o x = true) ∧
      o ∉ added ∧
      ((∀ x, x ≠ o → T o x = false) → b = false ∧ added = []) := by
  have hinv := reachable_inv h
  have hmem := mem_collisionsFrom s.rootCell o T cells
  refine ⟨_, _, inside_eq hinv o T cells hf collisions, ?_, hmem, ?_, ?_⟩
  · simp only [Bool.not_eq_true', List.isEmpty_eq_false]
    constructor
    · intro hne
      obtain ⟨x, hx⟩ := List.exists_mem_of_ne_nil _ hne
      obtain ⟨p, hp⟩ := (hmem x).mp hx
      exact ⟨p, x, hp⟩
    · rintro ⟨p, x, hp⟩
      exact List.ne_nil_of_mem ((hmem x).mpr ⟨p, hp⟩)
  · intro ho
    obtain ⟨_, _, _, hne, _⟩ := (hmem o).mp ho
    exact hne rfl
  · intro hall
    have hnil : collisionsFrom s.rootCell o T cells = [] := by
      rw [List.eq_nil_iff_forall_not_mem]
      intro x hx
      obtain ⟨_, _, _, hne, hT⟩ := (hmem x).mp hx
      rw [hall x hne] at hT
      cases hT
    simp [hnil]

theorem inside_tests_colocated_witness :
    Reachable exampleFlatOne ∧ exampleFlatOne.cellMap.find 7 = some [[]] ∧
    ∃ b added,
      exampleFlatOne.testIntersectionInside 7 (fun _ _ => true) (some []) =
        some (b, (some []).map (fun l => l ++ added)) ∧ 7 ∉ added := by
  refine ⟨exampleFlatOne_reachable, rfl, ?_⟩
  obtain ⟨b, added, h1, _, _, h4, _⟩ := inside_tests_colocated exampleFlatOne
    exampleFlatOne_reachable 7 (fun _ _ => true) [[]] rfl (some [])
  exact ⟨b, added, h1, h4⟩

/-- C7, evaluated: in the state after `insert(1); insert(2)` with the callback `cornerTest`,
object 2 is held by octant 7 only, `cornerTest` rejects octant 7 (and octants 1 to 6) for
object 1 and accepts the root, and `testIntersectionOutside(1, cornerTest, ...)` reports
object 2 all the same: the helper tests the region of `rootCell`, not of the cell it visits. -/
theorem outside_reports_object_of_rejected_leaf :
    exampleCornerTwo.rootCell.subcells.map (fun c => c.objects) =
      [[1], [], [], [], [], [], [], [2]] ∧
    exampleCornerTwo.rootCell.subcells.map (fun c => cornerTest 1 c.region) =
      [true, false, false, false, false, false, false, false] ∧
    cornerTest 1 exampleCornerTwo.rootCell.region = true ∧
    exampleCornerTwo.testIntersectionOutside 1 cornerTest (fun _ _ => true) (some []) =
      some (true, some [2]) := by
  decide!

/-- C8, evaluated: in the reachable state after `insert(1); insert(2)` with the callback
`cornerTest`, object 1 has an index entry, the inside query for it finds nothing and the
outside query with the octree's own region callback reports object 2. -/
theorem inside_outside_differ :
    Reachable exampleCornerTwo ∧
    exampleCornerTwo.cellMap.find 1 = some [[0]] ∧
    exampleCornerTwo.testIntersectionInside 1 (fun _ _ => true) (some []) =
      some (false, some []) ∧
    exampleCornerTwo.testIntersectionOutside 1 exampleCornerTwo.objectInCellTest
      (fun _ _ => true) (some []) = some (true, some [2]) :=
  ⟨exampleCornerTwo_reachable, by decide!, by decide!, by decide!⟩

theorem allRefs_nodup : ∀ k : Nat, (allRefs k).Nodup := by
  intro k
  induction k with
  | zero => simp [allRefs]
  | succ k ih =>
    simp only [allRefs]
    rw [List.nodup_flatMap]
    constructor
    · intro i _
      exact ih.map (fun a b e => by simpa using e)
    · apply (List.nodup_range 8).imp
      intro i j hij
      simp only [Function.onFun]
      rw [List.disjoint_left]
      intro q h1 h2
      rw [List.mem_map] at h1 h2
      obtain ⟨a, _, rfl⟩ := h1
      obtain ⟨b, _, hb⟩ := h2
      simp only [List.cons.injEq] at hb
      exact hij hb.1.symm

theorem acceptedLeaves_nodup (test : ObjectCellIntersectionTest) (o : Obj) (k : Nat) (c : Cell) :
    (acceptedLeaves test o k c).Nodup := by
  rw [acceptedLeaves_eq_filter]
  exact (allRefs_nodup k).filter _

theorem reachableUnique_reachable {s : Octree} (h : ReachableUnique s) : Reachable s := by
  induction h with
  | fresh lowBound highBound maxDepth test => exact Reachable.fresh _ _ _ _
  | insert fuel object _ _ hi ih => exact Reachable.insert fuel object ih hi
  | remove object _ hr ih => exact Reachable.remove object ih hr
  | update fuel object _ hu ih => exact Reachable.update fuel object ih hu
  | clear _ hc ih => exact Reachable.clear ih hc
  | resetWithBounds fuel order lowBound highBound _ hp hr ih =>
    exact Reachable.resetWithBounds fuel order lowBound highBound ih hp hr
  | moved test _ ih => exact Reachable.moved test ih

theorem entriesNodup_insert {s s' : Octree} {fuel : Nat} {o : Obj} (hshape : ShapeOk s.rootCell)
    (hdepth : DepthOk s.maxDepth s.rootCell) (hn : EntriesNodup s.cellMap)
    (hempty : cellsOf s.cellMap o = []) (h : s.insert fuel o = some s') :
    EntriesNodup s'.cellMap := by
  obtain ⟨_, _, hspec⟩ := insert_spec s s' fuel o hshape hdepth h
  intro o' cells hf
  rw [hspec.1] at hf
  by_cases ho : o' = o
  · subst ho
    rw [find_addCells_self] at hf
    split_ifs at hf with hnil
    · exact hn _ _ hf
    · simp only [hempty, List.nil_append, List.map_id', Option.some.injEq] at hf
      rw [← hf]
      exact acceptedLeaves_nodup _ _ _ _
  · rw [find_addCells_ne _ _ ho] at hf
    exact hn _ _ hf

theorem entriesNodup_erase {m : CellMap} (o : Obj) (hn : EntriesNodup m) :
    EntriesNodup (m.erase o) := by
  intro o' cells hf
  rw [find_erase] at hf
  split_ifs at hf
  exact hn _ _ hf

theorem entriesNodup_clearEntry {m : CellMap} (x : Obj) (hn : EntriesNodup m) :
    EntriesNodup (m.clearEntry x) := by
  intro o' cells hf
  rw [find_clearEntry] at hf
  split_ifs at hf
  · cases hx : m.find x with
    | none => simp [hx] at hf
    | some v =>
      simp only [hx, Option.map_some', Option.some.injEq] at hf
      rw [← hf]
      exact List.nodup_nil
  · exact hn _ _ hf

theorem entriesNodup_reinsertAll (fuel : Nat) : ∀ (pending : List Obj) (s s' : Octree),
    ResetInv pending s → EntriesNodup s.cellMap → reinsertAll fuel pending s = some s' →
    EntriesNodup s'.cellMap := by
  intro pending
  induction pending with
  | nil =>
    intro s s' _ hn hr
    simp only [reinsertAll, Option.some.injEq] at hr
    subst hr
    exact hn
  | cons x rest ih =>
    intro s s' h hn hr
    simp only [reinsertAll] at hr
    cases hi : Octree.insert fuel x { s with cellMap := s.cellMap.clearEntry x } with
    | none => simp [hi] at hr
    | some s1 =>
      simp only [hi] at hr
      refine ih s1 s' (h.step hi) ?_ hr
      exact entriesNodup_insert (s := { s with cellMap := s.cellMap.clearEntry x }) h.shape h.depth
        (entriesNodup_clearEntry x hn) (by simp [cellsOf_clearEntry]) hi

theorem resetInv_of_cleared {s : Octree} (hinv : Inv s) {order : List Obj}
    (hperm : order.Perm (s.cellMap.map Prod.fst)) (root : Cell) (hsub : root.subcells = [])
    (hobj : root.objects = []) :
    ResetInv order { s with rootCell := root } := by
  have hroot : ∀ (p : CellRef) (c : Cell), cellAt root p = some c → c.objects = [] := by
    intro p c hcp
    cases p with
    | nil => rw [cellAt_nil] at hcp; cases hcp; exact hobj
    | cons i p => rw [cellAt_leaf hsub] at hcp; cases hcp
  refine ⟨ShapeOk.leaf hsub, DepthOk.of_leaf hsub, ?_, hinv.keys,
    hperm.nodup_iff.mpr hinv.keys, ?_, ?_⟩
  · intro p c hcp hne
    exact absurd (hroot p c hcp) hne
  · rintro z _ p ⟨c, hcp, hmem⟩
    rw [hroot p c hcp] at hmem
    simp at hmem
  · intro z hz p
    have hnone : s.cellMap.find z = none :=
      (find_eq_none_iff _ _).mpr (fun hk => hz (hperm.mem_iff.mpr hk))
    simp only [cellsOf, hnone, Option.getD_none, List.not_mem_nil, false_iff]
    rintro ⟨c, hcp, hmem⟩
    rw [hroot p c hcp] at hmem
    simp at hmem

theorem reachableUnique_entriesNodup {s : Octree} (h : ReachableUnique s) :
    EntriesNodup s.cellMap := by
  induction h with
  | fresh lowBound highBound maxDepth test =>
    intro o cells hf
    simp [Octree.new, CellMap.find] at hf
  | @insert s s' fuel object hs hnone hi ih =>
    have hinv := reachable_inv (reachableUnique_reachable hs)
    exact entriesNodup_insert hinv.shape hinv.depth ih (by simp [cellsOf, hnone]) hi
  | @remove s s' object hs hr ih =>
    have hinv := reachable_inv (reachableUnique_reachable hs)
    rw [(remove_effect hinv hr).2.2.1]
    exact entriesNodup_erase object ih
  | @update s s' fuel object hs hu ih =>
    have hinv := reachable_inv (reachableUnique_reachable hs)
    unfold Octree.update at hu
    cases hr : s.remove object with
    | none => simp [hr] at hu
    | some s1 =>
      simp only [hr] at hu
      have hinv1 := hinv.remove hr
      have hm := (remove_effect hinv hr).2.2.1
      refine entriesNodup_insert hinv1.shape hinv1.depth ?_ ?_ hu
      · rw [hm]; exact entriesNodup_erase object ih
      · rw [hm, cellsOf_erase]; simp
  | @clear s s' hs hc ih =>
    unfold Octree.clear at hc
    cases hcl : clearCellRecursive s.rootCell with
    | none => simp [hcl] at hc
    | some u =>
      simp only [hcl, Option.some.injEq] at hc
      subst hc
      intro o cells hf
      simp [CellMap.find] at hf
  | @resetWithBounds s s' fuel order lowBound highBound hs hp hr ih =>
    have hinv := reachable_inv (reachableUnique_reachable hs)
    unfold Octree.resetWithBounds at hr
    cases hcl : clearCellRecursive s.rootCell with
    | none => simp [hcl] at hr
    | some u =>
      simp only [hcl] at hr
      exact entriesNodup_reinsertAll fuel _ _ s'
        (resetInv_of_cleared hinv hp
          { lowBound := lowBound
            highBound := highBound
            center := ⟨(lowBound.x + highBound.x) / 2, (lowBound.y + highBound.y) / 2,
                       (lowBound.z + highBound.z) / 2⟩
            subcells := []
            objects := [] } rfl rfl) ih hr
  | moved test _ ih => exact ih

/-- C4, as stated, fails: after `insert(1); insert(1)` on a fresh octree of maximum depth 1
the entry of object 1 lists every leaf twice, and `remove(1)` dereferences a leaf that the
collapse triggered by its first visits has already deleted. -/
theorem remove_after_double_insert_undefined :
    Reachable exampleWideTwice ∧
    exampleWideTwice.cellMap.find 1 = some (allRefs 1 ++ allRefs 1) ∧
    exampleWideTwice.remove 1 = none :=
  ⟨exampleWideTwice_reachable, by with_unfolding_all rfl, by with_unfolding_all rfl⟩

/-- C4, amended. In a reachable state, for an object `o` with an index entry: if the entry
lists no cell twice, as in every state reached without inserting an object that already had
an index entry, `remove(o)` returns; and whenever it returns, the index has no entry for
`o`, no cell holds `o`, every other object keeps its index entry, every cell left in the tree
is a cell of the old tree whose object list is the old one without `o` (same order), and
every leaf that held another object is still a leaf of the tree. -/
theorem remove_erases_object (s : Octree) (h : Reachable s) (o : Obj) (cells : CellList)
    (hf : s.cellMap.find o = some cells) :
    (cells.Nodup ∨ ReachableUnique s → ∃ s', s.remove o = some s') ∧
    ∀ s', s.remove o = some s' →
      s'.cellMap.find o = none ∧
      (∀ p c', cellAt s'.rootCell p = some c' → o ∉ c'.objects) ∧
      (∀ o', o' ≠ o → s'.cellMap.find o' = s.cellMap.find o') ∧
      (∀ p c', cellAt s'.rootCell p = some c' → ∃ c, cellAt s.rootCell p = some c ∧
        c'.objects = c.objects.filter (fun x => x ≠ o)) ∧
      (∀ p c, cellAt s.rootCell p = some c → (∃ o', o' ∈ c.objects ∧ o' ≠ o) →
        ∃ c', cellAt s'.rootCell p = some c' ∧ c'.isLeaf = true ∧
          c'.objects = c.objects.filter (fun x => x ≠ o)) := by
  have hinv := reachable_inv h
  constructor
  · intro hcase
    have hnd : cells.Nodup := by
      rcases hcase with e | e
      · exact e
      · exact reachableUnique_entriesNodup e o cells hf
    have hcells : cellsOf s.cellMap o = cells := by simp [cellsOf, hf]
    have h0 : RemoveInv o s.maxDepth s.rootCell [] s.rootCell :=
      ⟨hinv.shape, hinv.depth, fun p c hc => ⟨c, hc, rfl, by simp⟩, fun p c hc _ => ⟨c, hc⟩⟩
    obtain ⟨root', hr⟩ := removeFromCells_total o s.maxDepth s.rootCell cells [] s.rootCell h0 hnd
      (fun _ _ => by simp) (fun q hq => (hinv.agree o q).mp (by rw [hcells]; exact hq))
    exact ⟨{ s with rootCell := root', cellMap := s.cellMap.erase o }, by
      simp only [Octree.remove, hf, hr]⟩
  · intro s' hs'
    have hinv' := hinv.remove hs'
    obtain ⟨hmd, _, hm, _, _, f1, f2⟩ := remove_effect hinv hs'
    refine ⟨by rw [hm, find_erase]; simp, ?_, ?_, ?_, ?_⟩
    · intro p c' hc' hmem
      obtain ⟨c, _, _, ho⟩ := f1 p c' hc'
      rw [ho] at hmem
      simp at hmem
    · intro o' ho'
      rw [hm, find_erase, if_neg ho']
    · intro p c' hc'
      obtain ⟨c, hc, _, ho⟩ := f1 p c' hc'
      exact ⟨c, hc, ho⟩
    · rintro p c hc ⟨o', hmem, hne⟩
      have hin : o' ∈ c.objects.filter (fun x => x ≠ o) := by
        rw [List.mem_filter]
        exact ⟨hmem, by simpa using hne⟩
      obtain ⟨c', hc'⟩ := f2 p c hc (List.ne_nil_of_mem hin)
      obtain ⟨c2, hc2, _, ho2⟩ := f1 p c' hc'
      rw [hc] at hc2
      cases hc2
      refine ⟨c', hc', ?_, ho2⟩
      rw [isLeaf_iff]
      exact leaf_of_depth hinv'.depth hc'
        (hinv'.occupied p c' hc' (by rw [ho2]; exact List.ne_nil_of_mem hin))

theorem remove_erases_object_witness :
    Reachable exampleFlatOne ∧ exampleFlatOne.cellMap.find 7 = some [[]] ∧
    (([[]] : CellList).Nodup ∨ ReachableUnique exampleFlatOne →
      ∃ s', exampleFlatOne.remove 7 = some s') :=
  ⟨exampleFlatOne_reachable, rfl,
    (remove_erases_object exampleFlatOne exampleFlatOne_reachable 7 [[]] rfl).1⟩

/-- C13. Dispatch rule: `testIntersection` is `testIntersectionInside` when the object has
an index entry or the region callback is `NULL`, and `testIntersectionOutside` with the
given callback when the object has no index entry and the callback is not `NULL`. -/
theorem testIntersection_dispatch (s : Octree) (o : Obj)
    (objCellTest : Option ObjectCellIntersectionTest) (T : ObjectObjectIntersectionTest)
    (collisions : Option ObjectList) :
    ((s.cellMap.find o).isSome = true ∨ objCellTest = none →
      s.testIntersection o objCellTest T collisions = s.testIntersectionInside o T collisions) ∧
    (∀ t, s.cellMap.find o = none → objCellTest = some t →
      s.testIntersection o objCellTest T collisions =
        s.testIntersectionOutside o t T collisions) := by
  constructor
  · intro h
    cases objCellTest with
    | none => rfl
    | some t =>
      rcases h with h | h
      · simp only [Octree.testIntersection, h, if_true]
      · cases h
  · intro t hf ht
    subst ht
    simp only [Octree.testIntersection, hf, Option.isSome_none, Bool.false_eq_true, if_false]

theorem testIntersection_dispatch_witness :
    ((exampleFlatOne.cellMap.find 7).isSome = true ∨
        (some (fun _ _ => true) : Option ObjectCellIntersectionTest) = none) ∧
    exampleFlatOne.cellMap.find 3 = none ∧
    exampleFlatOne.testIntersection 7 (some (fun _ _ => true)) (fun _ _ => true) (some []) =
      exampleFlatOne.testIntersectionInside 7 (fun _ _ => true) (some []) ∧
    exampleFlatOne.testIntersection 3 (some (fun _ _ => true)) (fun _ _ => true) (some []) =
      exampleFlatOne.testIntersectionOutside 3 (fun _ _ => true) (fun _ _ => true) (some []) :=
  ⟨Or.inl rfl, rfl,
    (testIntersection_dispatch exampleFlatOne 7 (some (fun _ _ => true)) (fun _ _ => true)
      (some [])).1 (Or.inl rfl),
    (testIntersection_dispatch exampleFlatOne 3 (some (fun _ _ => true)) (fun _ _ => true)
      (some [])).2 _ rfl rfl⟩

/-- C14. Inside mode on an object without index entry: the query returns false and hands
back `collisions` as it was (nothing appended), whatever the object test answers; the query
is a function of the state and so changes neither tree nor index. -/
theorem inside_not_indexed (s : Octree) (o : Obj) (T : ObjectObjectIntersectionTest)
    (collisions : Option ObjectList) (h : s.cellMap.find o = none) :
    s.testIntersectionInside o T collisions = some (false, collisions) := by
  simp only [Octree.testIntersectionInside, h]

theorem inside_not_indexed_witness :
    exampleFlatOne.cellMap.find 3 = none ∧
    exampleFlatOne.testIntersectionInside 3 (fun _ _ => true) (some [5]) = some (false, some [5]) :=
  ⟨rfl, inside_not_indexed exampleFlatOne 3 (fun _ _ => true) (some [5]) rfl⟩

theorem clearSubcells_total : ∀ (l : List Cell) (n : Nat), n ≤ l.length →
    (∀ sub, sub ∈ l → clearCellRecursive sub = some ()) → clearSubcells n l = some () := by
  intro l
  induction l with
  | nil =>
    intro n hn _
    have : n = 0 := by simpa using hn
    subst this
    simp [clearSubcells]
  | cons a l ih =>
    intro n hn hall
    cases n with
    | zero => simp [clearSubcells]
    | succ n =>
      simp only [clearSubcells, hall a (List.mem_cons_self _ _)]
      exact ih n (by simpa using hn) (fun sub hs => hall sub (List.mem_cons_of_mem _ hs))

theorem clearCellRecursive_total : ∀ (n : Nat) (c : Cell), sizeOf c ≤ n → ShapeOk c →
    clearCellRecursive c = some () := by
  intro n
  induction n with
  | zero =>
    intro c hc _
    cases c
    simp at hc
  | succ n ih =>
    intro c hc hshape
    obtain ⟨lo, hi, ce, subs, objs⟩ := c
    simp only [clearCellRecursive]
    split_ifs with hlen
    · rfl
    · have h8 : subs.length = 8 := by
        rcases hshape.node with e | e
        · simp only at e; subst e; simp at hlen
        · exact e
      apply clearSubcells_total subs 8 (by omega)
      intro sub hsub
      obtain ⟨i, hi', hget⟩ := List.mem_iff_getElem.mp hsub
      have hs : (Cell.mk lo hi ce subs objs).subcells[i]? = some sub := by
        simp only
        rw [List.getElem?_eq_getElem hi', hget]
      apply ih sub ?_ (hshape.subcell hs)
      have := List.sizeOf_lt_of_mem hsub
      simp only [Cell.mk.sizeOf_spec] at hc
      omega

/-- C15. Clear resets to an empty tree: whenever `clear` returns, the root is a leaf without
subcells and without objects, its bounds and center are those before the call, and the index
has no entries; and `clear` does return in every state whose cells have no or eight
subcells. -/
theorem clear_resets (s : Octree) :
    (ShapeOk s.rootCell → ∃ s', s.clear = some s') ∧
    ∀ s', s.clear = some s' →
      s'.rootCell.isLeaf = true ∧ s'.rootCell.subcells = [] ∧ s'.rootCell.objects = [] ∧
      s'.rootCell.lowBound = s.rootCell.lowBound ∧ s'.rootCell.highBound = s.rootCell.highBound ∧
      s'.rootCell.center = s.rootCell.center ∧ s'.cellMap = [] ∧
      (∀ o, s'.cellMap.find o = none) := by
  constructor
  · intro hshape
    have := clearCellRecursive_total _ s.rootCell (le_refl _) hshape
    exact ⟨{ s with rootCell := { s.rootCell with subcells := [], objects := [] }, cellMap := [] },
      by simp only [Octree.clear, this]⟩
  · intro s' h
    unfold Octree.clear at h
    cases hc : clearCellRecursive s.rootCell with
    | none => simp [hc] at h
    | some u =>
      simp only [hc, Option.some.injEq] at h
      subst h
      exact ⟨rfl, rfl, rfl, rfl, rfl, rfl, rfl, fun _ => rfl⟩

theorem clear_resets_witness :
    ShapeOk exampleWidePair.rootCell ∧
    (∃ s', exampleWidePair.clear = some s') :=
  ⟨(reachable_inv exampleWidePair_reachable).shape,
    (clear_resets exampleWidePair).1 (reachable_inv exampleWidePair_reachable).shape⟩

/-- C19. Split does not move objects: after `split` on a leaf the object list, the bounds and
the center of the cell are what they were, there are exactly eight subcells, and each of
them has no subcells and no objects. -/
theorem split_keeps_objects (c : Cell) (hleaf : c.isLeaf = true) :
    c.split.objects = c.objects ∧ c.split.lowBound = c.lowBound ∧
    c.split.highBound = c.highBound ∧ c.split.center = c.center ∧
    c.split.subcells.length = 8 ∧
    ∀ sub, sub ∈ c.split.subcells → sub.isLeaf = true ∧ sub.subcells = [] ∧ sub.objects = [] := by
  have hsub : c.subcells = [] := (isLeaf_iff c).mp hleaf
  refine ⟨rfl, rfl, rfl, rfl, split_length hsub, ?_⟩
  intro sub hmem
  obtain ⟨i, hi, hget⟩ := List.mem_iff_getElem.mp hmem
  have hs : c.split.subcells[i]? = some sub := by
    rw [List.getElem?_eq_getElem hi, hget]
  have := split_sub hsub hs
  exact ⟨(isLeaf_iff sub).mpr this.1, this.1, this.2⟩

theorem split_keeps_objects_witness :
    exampleFlatOne.rootCell.isLeaf = true ∧
    exampleFlatOne.rootCell.split.objects = [7] ∧
    exampleFlatOne.rootCell.split.subcells.length = 8 :=
  ⟨rfl, (split_keeps_objects exampleFlatOne.rootCell rfl).1,
    (split_keeps_objects exampleFlatOne.rootCell rfl).2.2.2.2.1⟩

/-- C20. Cell shape invariant: in every reachable state every cell has no subcells or
exactly eight, and a cell that has subcells has an empty object list. -/
theorem cell_shape_invariant (s : Octree) (h : Reachable s) (p : CellRef) (c : Cell)
    (hc : cellAt s.rootCell p = some c) :
    (c.subcells.length = 0 ∨ c.subcells.length = 8) ∧
    (c.isLeaf = false → c.objects = []) := by
  have hinv := reachable_inv h
  constructor
  · rcases hinv.shape p c hc with e | e
    · left; rw [e]; rfl
    · exact Or.inr e
  · intro hnl
    by_contra hne
    have hleaf := leaf_of_depth hinv.depth hc (hinv.occupied p c hc hne)
    rw [(isLeaf_iff c).mpr hleaf] at hnl
    cases hnl

theorem cell_shape_invariant_witness :
    Reachable exampleWidePair ∧ cellAt exampleWidePair.rootCell [] = some exampleWidePair.rootCell ∧
    ((exampleWidePair.rootCell.subcells.length = 0 ∨ exampleWidePair.rootCell.subcells.length = 8) ∧
      (exampleWidePair.rootCell.isLeaf = false → exampleWidePair.rootCell.objects = [])) :=
  ⟨exampleWidePair_reachable, rfl,
    cell_shape_invariant exampleWidePair exampleWidePair_reachable [] _ rfl⟩

theorem new_center (lowBound highBound : Vector3f) :
    (Cell.new lowBound highBound).center = midpoint lowBound highBound := rfl

theorem octant_of_split {c : Cell} (h : c.subcells = []) (i : Nat) :
    (c.split.subcells[i]?).map Cell.region = c.region.octant i := by
  simp only [Region.octant, Cell.split, Cell.region, h, List.nil_append]

/-- The corners of the region of octant `i`, bit by bit. -/
theorem octant_eq (r : Region) (i : Nat) (hi : i < 8) :
    r.octant i = some
      { lowBound := ⟨if i / 4 = 0 then r.lowBound.x else r.center.x,
                     if i / 2 % 2 = 0 then r.lowBound.y else r.center.y,
                     if i % 2 = 0 then r.lowBound.z else r.center.z⟩
        highBound := ⟨if i / 4 = 0 then r.center.x else r.highBound.x,
                      if i / 2 % 2 = 0 then r.center.y else r.highBound.y,
                      if i % 2 = 0 then r.center.z else r.highBound.z⟩
        center := midpoint
          ⟨if i / 4 = 0 then r.lowBound.x else r.center.x,
           if i / 2 % 2 = 0 then r.lowBound.y else r.center.y,
           if i % 2 = 0 then r.lowBound.z else r.center.z⟩
          ⟨if i / 4 = 0 then r.center.x else r.highBound.x,
           if i / 2 % 2 = 0 then r.center.y else r.highBound.y,
           if i % 2 = 0 then r.center.z else r.highBound.z⟩ } := by
  interval_cases i <;> rfl

theorem octant_none (r : Region) (i : Nat) (hi : 8 ≤ i) : r.octant i = none := by
  simp only [Region.octant, Cell.split, List.nil_append, Option.map_eq_none']
  apply List.getElem?_eq_none
  simpa using hi

theorem octant_lt {r r' : Region} {i : Nat} (h : r.octant i = some r') : i < 8 := by
  by_contra hn
  rw [octant_none r i (by omega)] at h
  cases h

/-- C17. Fixed octant ordering: `split` on a leaf creates exactly eight subcells, and subcell
`i` (x-bit `i / 4`, y-bit `i / 2 % 2`, z-bit `i % 2`) spans on each axis the interval from the
low bound to the center when the bit of the axis is 0 and from the center to the high bound
when it is 1; a cell made by the constructor has its center at `(low + high) / 2`. -/
theorem split_octant_order (c : Cell) (hleaf : c.isLeaf = true) :
    c.split.subcells.length = 8 ∧
    (∀ i, i < 8 → ∃ sub, c.split.subcells[i]? = some sub ∧
      sub.lowBound = ⟨if i / 4 = 0 then c.lowBound.x else c.center.x,
                      if i / 2 % 2 = 0 then c.lowBound.y else c.center.y,
                      if i % 2 = 0 then c.lowBound.z else c.center.z⟩ ∧
      sub.highBound = ⟨if i / 4 = 0 then c.center.x else c.highBound.x,
                       if i / 2 % 2 = 0 then c.center.y else c.highBound.y,
                       if i % 2 = 0 then c.center.z else c.highBound.z⟩ ∧
      sub.center = midpoint sub.lowBound sub.highBound) ∧
    (∀ lowBound highBound : Vector3f,
      (Cell.new lowBound highBound).center =
        ⟨(lowBound.x + highBound.x) / 2, (lowBound.y + highBound.y) / 2,
         (lowBound.z + highBound.z) / 2⟩) := by
  have hsub : c.subcells = [] := (isLeaf_iff c).mp hleaf
  refine ⟨split_length hsub, ?_, fun _ _ => rfl⟩
  intro i hi
  have h1 := octant_of_split hsub i
  rw [octant_eq c.region i hi] at h1
  cases hs : c.split.subcells[i]? with
  | none => rw [hs] at h1; cases h1
  | some sub =>
    rw [hs] at h1
    simp only [Option.map_some', Option.some.injEq] at h1
    refine ⟨sub, rfl, ?_, ?_, ?_⟩
    · have := congrArg Region.lowBound h1
      exact this
    · have := congrArg Region.highBound h1
      exact this
    · have h3 := congrArg Region.center h1
      have h4 := congrArg Region.lowBound h1
      have h5 := congrArg Region.highBound h1
      simp only [Cell.region] at h3 h4 h5
      rw [h3, h4, h5]

theorem split_octant_order_witness :
    exampleWide.rootCell.isLeaf = true ∧ exampleWide.rootCell.split.subcells.length = 8 ∧
    (∃ sub, exampleWide.rootCell.split.subcells[4]? = some sub ∧
      sub.lowBound = ⟨exampleWide.rootCell.center.x, exampleWide.rootCell.lowBound.y,
        exampleWide.rootCell.lowBound.z⟩) := by
  refine ⟨rfl, (split_octant_order exampleWide.rootCell rfl).1, ?_⟩
  obtain ⟨sub, h1, h2, _⟩ := (split_octant_order exampleWide.rootCell rfl).2.1 4 (by decide)
  exact ⟨sub, h1, h2⟩

theorem proper_center_bounds {r : Region} (hp : r.Proper) :
    r.lowBound.x ≤ r.center.x ∧ r.center.x ≤ r.highBound.x ∧
    r.lowBound.y ≤ r.center.y ∧ r.center.y ≤ r.highBound.y ∧
    r.lowBound.z ≤ r.center.z ∧ r.center.z ≤ r.highBound.z := by
  obtain ⟨hx, hy, hz, hc⟩ := hp
  rw [hc]
  simp only [midpoint]
  refine ⟨?_, ?_, ?_, ?_, ?_, ?_⟩ <;> linarith

theorem octant_proper {r r' : Region} {i : Nat} (hp : r.Proper) (h : r.octant i = some r') :
    r'.Proper := by
  have hi := octant_lt h
  obtain ⟨b1, b2, b3, b4, b5, b6⟩ := proper_center_bounds hp
  rw [octant_eq r i hi] at h
  simp only [Option.some.injEq] at h
  subst h
  simp only [Region.Proper, and_true]
  refine ⟨?_, ?_, ?_⟩
  · split_ifs <;> assumption
  · split_ifs <;> assumption
  · split_ifs <;> assumption

theorem octant_contains_sub {r r' : Region} {i : Nat} (hp : r.Proper) (h : r.octant i = some r')
    (pt : Vector3f) (hin : r'.contains pt) : r.contains pt := by
  have hi := octant_lt h
  obtain ⟨b1, b2, b3, b4, b5, b6⟩ := proper_center_bounds hp
  rw [octant_eq r i hi] at h
  simp only [Option.some.injEq] at h
  subst h
  simp only [Region.contains] at hin ⊢
  obtain ⟨h1, h2, h3, h4, h5, h6⟩ := hin
  refine ⟨?_, ?_, ?_, ?_, ?_, ?_⟩
  · split_ifs at h1 <;> linarith
  · split_ifs at h2 <;> linarith
  · split_ifs at h3 <;> linarith
  · split_ifs at h4 <;> linarith
  · split_ifs at h5 <;> linarith
  · split_ifs at h6 <;> linarith

theorem octant_covers (r : Region) (pt : Vector3f) (hin : r.contains pt) :
    ∃ i r', r.octant i = some r' ∧ r'.contains pt := by
  obtain ⟨h1, h2, h3, h4, h5, h6⟩ := hin
  have key : ∀ bx bi bz : Nat, bx < 2 → bi < 2 → bz < 2 →
      (if bx = 0 then r.lowBound.x else r.center.x) ≤ pt.x →
      pt.x ≤ (if bx = 0 then r.center.x else r.highBound.x) →
      (if bi = 0 then r.lowBound.y else r.center.y) ≤ pt.y →
      pt.y ≤ (if bi = 0 then r.center.y else r.highBound.y) →
      (if bz = 0 then r.lowBound.z else r.center.z) ≤ pt.z →
      pt.z ≤ (if bz = 0 then r.center.z else r.highBound.z) →
      ∃ i r', r.octant i = some r' ∧ r'.contains pt := by
    intro bx bi bz hbx hbi hbz a1 a2 a3 a4 a5 a6
    refine ⟨4 * bx + 2 * bi + bz, _, octant_eq r _ (by omega), ?_⟩
    have e1 : (4 * bx + 2 * bi + bz) / 4 = bx := by omega
    have e2 : (4 * bx + 2 * bi + bz) / 2 % 2 = bi := by omega
    have e3 : (4 * bx + 2 * bi + bz) % 2 = bz := by omega
    simp only [Region.contains, e1, e2, e3]
    exact ⟨a1, a2, a3, a4, a5, a6⟩
  have sel : ∀ (lo c hi v : ℚ), lo ≤ v → v ≤ hi → ∃ b : Nat, b < 2 ∧
      (if b = 0 then lo else c) ≤ v ∧ v ≤ (if b = 0 then c else hi) := by
    intro lo c hi v hl hh
    by_cases hv : v ≤ c
    · exact ⟨0, by omega, by simpa using hl, by simpa using hv⟩
    · exact ⟨1, by omega, by simp; linarith, by simpa using hh⟩
  obtain ⟨bx, hbx, a1, a2⟩ := sel r.lowBound.x r.center.x r.highBound.x pt.x h1 h2
  obtain ⟨bi, hbi, a3, a4⟩ := sel r.lowBound.y r.center.y r.highBound.y pt.y h3 h4
  obtain ⟨bz, hbz, a5, a6⟩ := sel r.lowBound.z r.center.z r.highBound.z pt.z h5 h6
  exact key bx bi bz hbx hbi hbz a1 a2 a3 a4 a5 a6

theorem octant_overlap {r ri rj : Region} {i j : Nat} (hij : i ≠ j)
    (hi : r.octant i = some ri) (hj : r.octant j = some rj) (pt : Vector3f)
    (h1 : ri.contains pt) (h2 : rj.contains pt) :
    pt.x = r.center.x ∨ pt.y = r.center.y ∨ pt.z = r.center.z := by
  have hi8 := octant_lt hi
  have hj8 := octant_lt hj
  rw [octant_eq r i hi8] at hi
  rw [octant_eq r j hj8] at hj
  simp only [Option.some.injEq] at hi hj
  subst hi
  subst hj
  simp only [Region.contains] at h1 h2
  obtain ⟨a1, a2, a3, a4, a5, a6⟩ := h1
  obtain ⟨c1, c2, c3, c4, c5, c6⟩ := h2
  have hbits : i / 4 ≠ j / 4 ∨ i / 2 % 2 ≠ j / 2 % 2 ∨ i % 2 ≠ j % 2 := by omega
  rcases hbits with hb | hb | hb
  · left
    by_cases e1 : i / 4 = 0
    · have e2 : ¬ j / 4 = 0 := fun e => hb (e1.trans e.symm)
      simp only [e1, e2, if_true, if_false] at a2 c1
      linarith
    · have e2 : j / 4 = 0 := by omega
      simp only [e1, e2, if_true, if_false] at a1 c2
      linarith
  · right; left
    by_cases e1 : i / 2 % 2 = 0
    · have e2 : ¬ j / 2 % 2 = 0 := fun e => hb (e1.trans e.symm)
      simp only [e1, e2, if_true, if_false] at a4 c3
      linarith
    · have e2 : j / 2 % 2 = 0 := by omega
      simp only [e1, e2, if_true, if_false] at a3 c4
      linarith
  · right; right
    by_cases e1 : i % 2 = 0
    · have e2 : ¬ j % 2 = 0 := fun e => hb (e1.trans e.symm)
      simp only [e1, e2, if_true, if_false] at a6 c5
      linarith
    · have e2 : j % 2 = 0 := by omega
      simp only [e1, e2, if_true, if_false] at a5 c6
      linarith

theorem geomOk_sub {c sub : Cell} {i : Nat} (h : GeomOk c) (hs : c.subcells[i]? = some sub) :
    GeomOk sub := by
  intro q j d e hd he
  apply h (i :: q) j d e _ he
  rw [cellAt_cons, hs]
  exact hd

theorem geomOk_intro {c : Cell}
    (h0 : ∀ (i : Nat) (sub : Cell), c.subcells[i]? = some sub → c.region.octant i = some sub.region)
    (hs : ∀ (i : Nat) (sub : Cell), c.subcells[i]? = some sub → GeomOk sub) : GeomOk c := by
  intro q j d e hd he
  cases q with
  | nil =>
    rw [cellAt_nil] at hd
    cases hd
    exact h0 j e he
  | cons i q =>
    rw [cellAt_cons] at hd
    cases hsub : c.subcells[i]? with
    | none => simp [hsub] at hd
    | some sub =>
      rw [hsub] at hd
      exact hs i sub hsub q j d e hd he

theorem geomOk_leaf {c : Cell} (h : c.subcells = []) : GeomOk c := by
  apply geomOk_intro
  · intro i sub hs; rw [h] at hs; simp at hs
  · intro i sub hs; rw [h] at hs; simp at hs

theorem geomOk_split {c : Cell} (h : c.subcells = []) : GeomOk c.split := by
  apply geomOk_intro
  · intro i sub hs
    have := octant_of_split h i
    rw [hs] at this
    exact this.symm
  · intro i sub hs
    exact geomOk_leaf (split_sub h hs).1

theorem acceptedChain_of_reject (test : ObjectCellIntersectionTest) (o : Obj) (c : Cell)
    (q : CellRef) (h : test o c.region = false) : acceptedChain test o c q = false := by
  cases q with
  | nil => rw [acceptedChain_nil]; exact h
  | cons i q => rw [acceptedChain_cons, h]; rfl

theorem insertShape_loop_case (test : ObjectCellIntersectionTest) (maxDepth : Nat) (o : Obj)
    (fuel : Nat)
    (ih : ∀ (path : CellRef) (cell : Cell) (lvl : Nat) (m : CellMap) (k : Nat) (cell' : Cell)
      (m' : CellMap), lvl + k = maxDepth → ShapeOk cell → DepthOk k cell →
      insertHelper test maxDepth o fuel path cell lvl m = some (cell', m') →
      InsertShape test o cell k cell')
    (path : CellRef) (cell0 : Cell) (lvl : Nat) (m : CellMap) (k : Nat) (cell' : Cell) (m' : CellMap)
    (hk : lvl + (k + 1) = maxDepth) (hshape : ShapeOk cell0) (hdepth : DepthOk (k + 1) cell0)
    (hlen : cell0.subcells.length = 8) (ht : test o cell0.region = true)
    (h : insertSubcells
      (fun i sub m => insertHelper test maxDepth o fuel (path ++ [i]) sub (lvl + 1) m)
      8 0 cell0 m = some (cell', m')) :
    InsertShape test o cell0 (k + 1) cell' := by
  obtain ⟨h1, h2, h3, h4, h5, _, ms, hms0, hms8, hms⟩ := insertSubcells_inv _ _ _ _ _ _ _ h
  have hreg : cell'.region = cell0.region := by simp [Cell.region, h1, h2, h3]
  have ht' : test o cell'.region = true := by rw [hreg]; exact ht
  have hlen' : cell'.subcells.length = 8 := by rw [h5, hlen]
  have hJ : ∀ j, j < 8 → ∃ sub sub', cell0.subcells[j]? = some sub ∧
      cell'.subcells[j]? = some sub' ∧ sub'.region = sub.region ∧
      InsertShape test o sub k sub' := by
    intro j hj
    obtain ⟨sub, sub', e1, e2, e3⟩ := hms j (by omega) (by omega)
    have hspec := insertHelper_spec test maxDepth o fuel _ _ _ _ k _ _ (by omega)
      (hshape.subcell e1) (hdepth.below e1) e3
    obtain ⟨c', hc', hr', _⟩ := hspec.2.2.2.1 [] sub rfl
    rw [cellAt_nil] at hc'
    cases hc'
    exact ⟨sub, sub', e1, e2, hr',
      ih _ _ _ _ _ _ _ (by omega) (hshape.subcell e1) (hdepth.below e1) e3⟩
  constructor
  · intro hg
    apply geomOk_intro
    · intro i sub' hs'
      have hi : i < 8 := by rw [← hlen']; exact getElem?_lt_of_some hs'
      obtain ⟨sub, sub2, e1, e2, e3, _⟩ := hJ i hi
      rw [hs'] at e2
      cases e2
      rw [hreg, e3]
      exact hg [] i cell0 sub rfl e1
    · intro i sub' hs'
      have hi : i < 8 := by rw [← hlen']; exact getElem?_lt_of_some hs'
      obtain ⟨sub, sub2, e1, e2, _, e4⟩ := hJ i hi
      rw [hs'] at e2
      cases e2
      exact e4.1 (geomOk_sub hg e1)
  · intro q c' hq
    cases q with
    | nil =>
      rw [cellAt_nil] at hq
      cases hq
      have hne' : cell'.subcells ≠ [] := by
        intro e; rw [e] at hlen'; simp at hlen'
      have hne0 : cell0.subcells ≠ [] := by
        intro e; rw [e] at hlen; simp at hlen
      simp only [hne', ne_eq, not_false_eq_true, cellAt_nil, Option.some.injEq, exists_eq_left',
        true_iff]
      exact Or.inl hne0
    | cons j r =>
      rw [cellAt_cons] at hq
      cases hsub' : cell'.subcells[j]? with
      | none => simp [hsub'] at hq
      | some sub'' =>
        rw [hsub'] at hq
        simp only [Option.some_bind] at hq
        have hj : j < 8 := by rw [← hlen']; exact getElem?_lt_of_some hsub'
        obtain ⟨sub, sub', e1, e2, _, e4⟩ := hJ j hj
        rw [hsub'] at e2
        cases e2
        rw [e4.2 r c' hq, cellAt_cons, e1, acceptedChain_cons_of_some test o cell' sub'' j r hsub',
          ht']
        simp only [Option.some_bind, List.length_cons, Nat.add_lt_add_iff_right, Bool.true_and]

theorem insertHelper_shape (test : ObjectCellIntersectionTest) (maxDepth : Nat) (o : Obj) :
    ∀ (fuel : Nat) (path : CellRef) (cell : Cell) (lvl : Nat) (m : CellMap) (k : Nat) (cell' : Cell)
      (m' : CellMap), lvl + k = maxDepth → ShapeOk cell → DepthOk k cell →
      insertHelper test maxDepth o fuel path cell lvl m = some (cell', m') →
      InsertShape test o cell k cell' := by
  intro fuel
  induction fuel with
  | zero => intro path cell lvl m k cell' m' _ _ _ h; simp [insertHelper] at h
  | succ fuel ih =>
    intro path cell lvl m k cell' m' hk hshape hdepth h
    rw [insertHelper] at h
    split_ifs at h with ht hleaf hlvl
    · simp only [Option.some.injEq, Prod.mk.injEq] at h
      obtain ⟨rfl, rfl⟩ := h
      have hk0 : k = 0 := by omega
      subst hk0
      have hsub : cell.subcells = [] := (isLeaf_iff cell).mp hleaf
      refine ⟨fun _ => geomOk_leaf hsub, ?_⟩
      intro q c' hq
      cases q with
      | nil =>
        rw [cellAt_nil] at hq
        cases hq
        simp [hsub, cellAt_nil]
      | cons j r => rw [cellAt_leaf (by exact hsub)] at hq; cases hq
    · have hsub : cell.subcells = [] := (isLeaf_iff cell).mp hleaf
      obtain ⟨k', rfl⟩ : ∃ k', k = k' + 1 := ⟨k - 1, by omega⟩
      have hshape0 : ShapeOk cell.split :=
        ShapeOk.intro (Or.inr (split_length hsub)) (fun i sub hs => ShapeOk.leaf (split_sub hsub hs).1)
      have hdepth0 : DepthOk (k' + 1) cell.split :=
        DepthOk.succ (fun i sub hs => DepthOk.of_leaf (split_sub hsub hs).1)
      obtain ⟨a1, a2⟩ := insertShape_loop_case test maxDepth o fuel ih path cell.split
        lvl m k' cell' m' hk hshape0 hdepth0 (split_length hsub) ht h
      obtain ⟨h1, h2, h3, _⟩ := insertSubcells_inv _ _ _ _ _ _ _ h
      have hreg : cell'.region = cell.region := by simp [Cell.region, h1, h2, h3, Cell.split]
      refine ⟨fun _ => a1 (geomOk_split hsub), ?_⟩
      intro q c' hq
      rw [a2 q c' hq]
      cases q with
      | nil =>
        simp only [cellAt_nil, Option.some.injEq, exists_eq_left', hsub, ne_eq, not_true_eq_false,
          false_or, List.length_nil, Nat.zero_lt_succ, true_and, acceptedChain_nil, hreg, ht,
          iff_true]
        right
        trivial
      | cons j r =>
        have e1 : ¬ ∃ c, cellAt cell.split (j :: r) = some c ∧ c.subcells ≠ [] := by
          rintro ⟨c, hc, hne⟩
          rw [cellAt_cons] at hc
          cases hs : cell.split.subcells[j]? with
          | none => simp [hs] at hc
          | some sub =>
            rw [hs] at hc
            simp only [Option.some_bind] at hc
            cases r with
            | nil =>
              rw [cellAt_nil] at hc
              cases hc
              exact hne (split_sub hsub hs).1
            | cons j2 r2 => rw [cellAt_leaf (split_sub hsub hs).1] at hc; cases hc
        have e2 : ¬ ∃ c, cellAt cell (j :: r) = some c ∧ c.subcells ≠ [] := by
          rintro ⟨c, hc, _⟩
          rw [cellAt_leaf hsub] at hc
          cases hc
        simp only [e1, e2, false_or]
    · have hsub : cell.subcells ≠ [] := fun e => hleaf ((isLeaf_iff cell).mpr e)
      have hlen : cell.subcells.length = 8 := by
        rcases hshape.node with e | e
        · exact absurd e hsub
        · exact e
      obtain ⟨k', rfl⟩ : ∃ k', k = k' + 1 := by
        cases k with
        | zero => exact absurd hdepth.leaf_of_zero hsub
        | succ k' => exact ⟨k', rfl⟩
      exact insertShape_loop_case test maxDepth o fuel ih path cell lvl m k' cell' m' hk hshape
        hdepth hlen ht h
    · simp only [Option.some.injEq, Prod.mk.injEq] at h
      obtain ⟨rfl, rfl⟩ := h
      refine ⟨fun hg => hg, ?_⟩
      intro q c' hq
      rw [acceptedChain_of_reject test o cell q (by simpa using ht)]
      simp only [Bool.false_eq_true, and_false, or_false]
      constructor
      · intro hne; exact ⟨c', hq, hne⟩
      · rintro ⟨c, hc, hne⟩
        rw [hq] at hc
        cases hc
        exact hne

theorem insert_shape (s s' : Octree) (fuel : Nat) (o : Obj) (hshape : ShapeOk s.rootCell)
    (hdepth : DepthOk s.maxDepth s.rootCell) (h : s.insert fuel o = some s') :
    InsertShape s.objectInCellTest o s.rootCell s.maxDepth s'.rootCell := by
  unfold Octree.insert at h
  cases hr : insertHelper s.objectInCellTest s.maxDepth o fuel [] s.rootCell 0 s.cellMap with
  | none => simp [hr] at h
  | some r =>
    obtain ⟨root, cm⟩ := r
    simp only [hr, Option.some.injEq] at h
    subst h
    exact insertHelper_shape _ _ _ _ _ _ _ _ _ _ _ (by simp) hshape hdepth hr

theorem insert_root_region (s s' : Octree) (fuel : Nat) (o : Obj) (hshape : ShapeOk s.rootCell)
    (hdepth : DepthOk s.maxDepth s.rootCell) (h : s.insert fuel o = some s') :
    s'.rootCell.region = s.rootCell.region := by
  obtain ⟨_, _, hspec⟩ := insert_spec s s' fuel o hshape hdepth h
  obtain ⟨c', hc', hr, _⟩ := hspec.2.2.2.1 [] s.rootCell rfl
  rw [cellAt_nil] at hc'
  cases hc'
  exact hr

theorem region_center (c : Cell) : c.region.center = c.center := rfl

theorem region_lowBound (c : Cell) : c.region.lowBound = c.lowBound := rfl

theorem region_highBound (c : Cell) : c.region.highBound = c.highBound := rfl

theorem cellAt_snoc {root c : Cell} {q : CellRef} {i : Nat} (hc : cellAt root q = some c) :
    cellAt root (q ++ [i]) = c.subcells[i]? := by
  rw [cellAt_append, hc]
  simp only [Option.some_bind, cellAt_cons]
  cases c.subcells[i]? <;> rfl

theorem geomInv_insert {s s' : Octree} {fuel : Nat} {o : Obj} (hshape : ShapeOk s.rootCell)
    (hdepth : DepthOk s.maxDepth s.rootCell) (hg : GeomInv s) (h : s.insert fuel o = some s') :
    GeomInv s' := by
  refine ⟨(insert_shape s s' fuel o hshape hdepth h).1 hg.1, ?_⟩
  have hr := insert_root_region s s' fuel o hshape hdepth h
  have e1 := congrArg Region.center hr
  have e2 := congrArg Region.lowBound hr
  have e3 := congrArg Region.highBound hr
  simp only [region_center, region_lowBound, region_highBound] at e1 e2 e3
  rw [e1, e2, e3]
  exact hg.2

theorem geomInv_remove {s s' : Octree} {o : Obj} (hinv : Inv s) (hg : GeomInv s)
    (h : s.remove o = some s') : GeomInv s' := by
  obtain ⟨_, _, _, _, _, f1, _⟩ := remove_effect hinv h
  constructor
  · intro q i c' sub' hc' hs'
    have hsub' : cellAt s'.rootCell (q ++ [i]) = some sub' := by rw [cellAt_snoc hc']; exact hs'
    obtain ⟨c, hc, hr, _⟩ := f1 q c' hc'
    obtain ⟨sub, hsub, hrs, _⟩ := f1 (q ++ [i]) sub' hsub'
    rw [cellAt_snoc hc] at hsub
    rw [hr, hrs]
    exact hg.1 q i c sub hc hsub
  · obtain ⟨c, hc, hr, _⟩ := f1 [] s'.rootCell rfl
    rw [cellAt_nil] at hc
    cases hc
    have e1 := congrArg Region.center hr
    have e2 := congrArg Region.lowBound hr
    have e3 := congrArg Region.highBound hr
    simp only [region_center, region_lowBound, region_highBound] at e1 e2 e3
    rw [e1, e2, e3]
    exact hg.2

theorem geomInv_reinsertAll (fuel : Nat) : ∀ (pending : List Obj) (s s' : Octree),
    ResetInv pending s → GeomInv s → reinsertAll fuel pending s = some s' → GeomInv s' := by
  intro pending
  induction pending with
  | nil =>
    intro s s' _ hg hr
    simp only [reinsertAll, Option.some.injEq] at hr
    subst hr
    exact hg
  | cons x rest ih =>
    intro s s' h hg hr
    simp only [reinsertAll] at hr
    cases hi : Octree.insert fuel x { s with cellMap := s.cellMap.clearEntry x } with
    | none => simp [hi] at hr
    | some s1 =>
      simp only [hi] at hr
      exact ih s1 s' (h.step hi)
        (geomInv_insert (s := { s with cellMap := s.cellMap.clearEntry x }) h.shape h.depth hg hi) hr

theorem reachable_geomInv {s : Octree} (h : Reachable s) : GeomInv s := by
  induction h with
  | fresh lowBound highBound maxDepth test => exact ⟨geomOk_leaf rfl, rfl⟩
  | @insert s s' fuel object hs hi ih =>
    have hinv := reachable_inv hs
    exact geomInv_insert hinv.shape hinv.depth ih hi
  | @remove s s' object hs hr ih => exact geomInv_remove (reachable_inv hs) ih hr
  | @update s s' fuel object hs hu ih =>
    have hinv := reachable_inv hs
    unfold Octree.update at hu
    cases hr : s.remove object with
    | none => simp [hr] at hu
    | some s1 =>
      simp only [hr] at hu
      have hinv1 := hinv.remove hr
      exact geomInv_insert hinv1.shape hinv1.depth (geomInv_remove hinv ih hr) hu
  | @clear s s' hs hc ih =>
    unfold Octree.clear at hc
    cases hcl : clearCellRecursive s.rootCell with
    | none => simp [hcl] at hc
    | some u =>
      simp only [hcl, Option.some.injEq] at hc
      subst hc
      exact ⟨geomOk_leaf rfl, ih.2⟩
  | @resetWithBounds s s' fuel order lowBound highBound hs hp hr ih =>
    have hinv := reachable_inv hs
    unfold Octree.resetWithBounds at hr
    cases hcl : clearCellRecursive s.rootCell with
    | none => simp [hcl] at hr
    | some u =>
      simp only [hcl] at hr
      exact geomInv_reinsertAll fuel _ _ s'
        (resetInv_of_cleared hinv hp
          { lowBound := lowBound
            highBound := highBound
            center := ⟨(lowBound.x + highBound.x) / 2, (lowBound.y + highBound.y) / 2,
                       (lowBound.z + highBound.z) / 2⟩
            subcells := []
            objects := [] } rfl rfl) ⟨geomOk_leaf rfl, rfl⟩ hr
  | moved test _ ih => exact ih

theorem octant_center {r r' : Region} {i : Nat} (h : r.octant i = some r') :
    r'.center = midpoint r'.lowBound r'.highBound := by
  have hi := octant_lt h
  rw [octant_eq r i hi] at h
  simp only [Option.some.injEq] at h
  subst h
  rfl

theorem geomInv_center {s : Octree} (hg : GeomInv s) (p : CellRef) (c : Cell)
    (hc : cellAt s.rootCell p = some c) : c.center = midpoint c.lowBound c.highBound := by
  rcases List.eq_nil_or_concat p with rfl | ⟨q, i, rfl⟩
  · rw [cellAt_nil] at hc
    cases hc
    exact hg.2
  · rw [List.concat_eq_append] at hc
    cases hq : cellAt s.rootCell q with
    | none => rw [cellAt_append, hq] at hc; cases hc
    | some cq =>
      rw [cellAt_snoc hq] at hc
      exact octant_center (hg.1 q i cq c hq hc)

/-- C18. Partition invariant, in exact arithmetic: in a reachable state, for a cell with
subcells whose low bound is below its high bound on every axis, a point lies in the closed
box of the cell iff it lies in the closed box of one of its subcells; a point in two different
subcells lies on a center plane of the cell; and every subcell again has its low bound below
its high bound and its center in the middle of its bounds. -/
theorem partition_invariant (s : Octree) (h : Reachable s) (p : CellRef) (c : Cell)
    (hc : cellAt s.rootCell p = some c) (hsplit : c.isLeaf = false)
    (hx : c.lowBound.x ≤ c.highBound.x) (hy : c.lowBound.y ≤ c.highBound.y)
    (hz : c.lowBound.z ≤ c.highBound.z) :
    c.subcells.length = 8 ∧
    (∀ pt, c.region.contains pt ↔
      ∃ (i : Nat) (sub : Cell), c.subcells[i]? = some sub ∧ sub.region.contains pt) ∧
    (∀ (i j : Nat) (subi subj : Cell) (pt : Vector3f), i ≠ j →
      c.subcells[i]? = some subi → c.subcells[j]? = some subj →
      subi.region.contains pt → subj.region.contains pt →
      pt.x = c.center.x ∨ pt.y = c.center.y ∨ pt.z = c.center.z) ∧
    (∀ (i : Nat) (sub : Cell), c.subcells[i]? = some sub →
      sub.lowBound.x ≤ sub.highBound.x ∧ sub.lowBound.y ≤ sub.highBound.y ∧
      sub.lowBound.z ≤ sub.highBound.z ∧ sub.center = midpoint sub.lowBound sub.highBound) := by
  have hinv := reachable_inv h
  have hg := reachable_geomInv h
  have hlen : c.subcells.length = 8 := by
    rcases hinv.shape p c hc with e | e
    · rw [(isLeaf_iff c).mpr e] at hsplit; cases hsplit
    · exact e
  have hproper : c.region.Proper := ⟨hx, hy, hz, geomInv_center hg p c hc⟩
  refine ⟨hlen, ?_, ?_, ?_⟩
  · intro pt
    constructor
    · intro hin
      obtain ⟨i, r', hr', hin'⟩ := octant_covers c.region pt hin
      obtain ⟨sub, hsub⟩ := getElem?_some_of_lt (l := c.subcells) (i := i)
        (by rw [hlen]; exact octant_lt hr')
      have := hg.1 p i c sub hc hsub
      rw [hr'] at this
      cases this
      exact ⟨i, sub, hsub, hin'⟩
    · rintro ⟨i, sub, hsub, hin⟩
      exact octant_contains_sub hproper (hg.1 p i c sub hc hsub) pt hin
  · intro i j subi subj pt hij hi hj h1 h2
    exact octant_overlap hij (hg.1 p i c subi hc hi) (hg.1 p j c subj hc hj) pt h1 h2
  · intro i sub hsub
    exact octant_proper hproper (hg.1 p i c sub hc hsub)

theorem partition_invariant_witness :
    Reachable exampleWidePair ∧
    cellAt exampleWidePair.rootCell [] = some exampleWidePair.rootCell ∧
    exampleWidePair.rootCell.isLeaf = false ∧
    exampleWidePair.rootCell.lowBound.x ≤ exampleWidePair.rootCell.highBound.x ∧
    exampleWidePair.rootCell.lowBound.y ≤ exampleWidePair.rootCell.highBound.y ∧
    exampleWidePair.rootCell.lowBound.z ≤ exampleWidePair.rootCell.highBound.z ∧
    exampleWidePair.rootCell.subcells.length = 8 :=
  ⟨exampleWidePair_reachable, rfl, rfl, by decide, by decide, by decide,
    (partition_invariant exampleWidePair exampleWidePair_reachable [] _ rfl rfl
      (by decide) (by decide) (by decide)).1⟩

theorem insertSubcells_indep (body : Nat → Cell → CellMap → Option (Cell × CellMap))
    (hb : ∀ i sub m r, body i sub m = some r → ∀ m2, ∃ m2', body i sub m2 = some (r.1, m2')) :
    ∀ (n i : Nat) (cell : Cell) (m : CellMap) (r : Cell × CellMap),
      insertSubcells body n i cell m = some r →
      ∀ m2, ∃ m2', insertSubcells body n i cell m2 = some (r.1, m2') := by
  intro n
  induction n with
  | zero =>
    intro i cell m r h m2
    simp only [insertSubcells, Option.some.injEq] at h
    subst h
    exact ⟨m2, rfl⟩
  | succ n ih =>
    intro i cell m r h m2
    simp only [insertSubcells] at h ⊢
    cases hsub : cell.subcells[i]? with
    | none => simp [hsub] at h
    | some sub =>
      simp only [hsub] at h ⊢
      cases hb1 : body i sub m with
      | none => simp [hb1] at h
      | some r1 =>
        obtain ⟨sub', m1⟩ := r1
        simp only [hb1] at h
        obtain ⟨m2', h2⟩ := hb _ _ _ _ hb1 m2
        simp only at h2
        rw [h2]
        exact ih _ _ _ _ h m2'

/-- The cell that `insertHelper` returns does not depend on the index it is given. -/
theorem insertHelper_indep (test : ObjectCellIntersectionTest) (maxDepth : Nat) (o : Obj) :
    ∀ (fuel : Nat) (path : CellRef) (cell : Cell) (lvl : Nat) (m : CellMap) (r : Cell × CellMap),
      insertHelper test maxDepth o fuel path cell lvl m = some r →
      ∀ m2, ∃ m2', insertHelper test maxDepth o fuel path cell lvl m2 = some (r.1, m2') := by
  intro fuel
  induction fuel with
  | zero => intro path cell lvl m r h; simp [insertHelper] at h
  | succ fuel ih =>
    intro path cell lvl m r h m2
    rw [insertHelper] at h
    rw [insertHelper]
    split_ifs at h ⊢ with h1 h2 h3
    · simp only [Option.some.injEq] at h
      subst h
      exact ⟨_, rfl⟩
    · exact insertSubcells_indep _ (fun i sub m r hr => ih _ _ _ _ _ hr) _ _ _ _ _ h m2
    · exact insertSubcells_indep _ (fun i sub m r hr => ih _ _ _ _ _ hr) _ _ _ _ _ h m2
    · simp only [Option.some.injEq] at h
      subst h
      exact ⟨_, rfl⟩

/-- Two states with the same tree, depth limit and callback: `insert` gives the same tree,
and the cells it records for the object are the same. -/
theorem insert_same_tree {sA sB sA' : Octree} {fuel : Nat} {o : Obj}
    (hroot : sA.rootCell = sB.rootCell) (hmd : sA.maxDepth = sB.maxDepth)
    (htest : sA.objectInCellTest = sB.objectInCellTest) (hshape : ShapeOk sA.rootCell)
    (hdepth : DepthOk sA.maxDepth sA.rootCell) (h : sA.insert fuel o = some sA') :
    ∃ sB', sB.insert fuel o = some sB' ∧ sB'.rootCell = sA'.rootCell ∧
      (∀ x, x ≠ o → cellsOf sA'.cellMap x = cellsOf sA.cellMap x ∧
        cellsOf sB'.cellMap x = cellsOf sB.cellMap x) ∧
      ∃ L, cellsOf sA'.cellMap o = cellsOf sA.cellMap o ++ L ∧
        cellsOf sB'.cellMap o = cellsOf sB.cellMap o ++ L := by
  have hspecA := (insert_spec sA sA' fuel o hshape hdepth h).2.2
  unfold Octree.insert at h
  cases hr : insertHelper sA.objectInCellTest sA.maxDepth o fuel [] sA.rootCell 0 sA.cellMap with
  | none => simp [hr] at h
  | some r =>
    obtain ⟨root, cm⟩ := r
    simp only [hr, Option.some.injEq] at h
    subst h
    obtain ⟨m2', h2⟩ := insertHelper_indep _ _ _ _ _ _ _ _ _ hr sB.cellMap
    simp only at h2
    rw [hroot, hmd, htest] at h2
    have hB : sB.insert fuel o = some { sB with rootCell := root, cellMap := m2' } := by
      simp only [Octree.insert, h2]
    have hspecB := (insert_spec sB _ fuel o (by rw [← hroot]; exact hshape)
      (by rw [← hroot, ← hmd]; exact hdepth) hB).2.2
    simp only at hspecA hspecB
    refine ⟨_, hB, rfl, ?_, ?_⟩
    · intro x hx
      simp only
      rw [hspecA.1, hspecB.1]
      exact ⟨cellsOf_addCells_ne _ _ _ hx _, cellsOf_addCells_ne _ _ _ hx _⟩
    · refine ⟨(acceptedLeaves sA.objectInCellTest o sA.maxDepth root).map (fun q => [] ++ q),
        ?_, ?_⟩
      · simp only
        rw [hspecA.1, cellsOf_addCells_self]
      · simp only
        rw [hspecB.1, cellsOf_addCells_self, htest, hmd]

theorem insert_keys_of_mem {s s' : Octree} {fuel : Nat} {o : Obj} (hshape : ShapeOk s.rootCell)
    (hdepth : DepthOk s.maxDepth s.rootCell) (hmem : o ∈ keysOf s.cellMap)
    (h : s.insert fuel o = some s') : keysOf s'.cellMap = keysOf s.cellMap := by
  obtain ⟨_, _, hspec⟩ := insert_spec s s' fuel o hshape hdepth h
  rw [hspec.1, keysOf_addCells, if_pos (Or.inl hmem)]

theorem reinsertAll_matches (fuel : Nat) : ∀ (pending : List Obj) (sA sB sA' : Octree),
    ResetInv pending sA → sA.rootCell = sB.rootCell → sA.maxDepth = sB.maxDepth →
    sA.objectInCellTest = sB.objectInCellTest →
    (∀ x, x ∈ pending → x ∈ keysOf sA.cellMap) →
    (∀ x, x ∈ pending → cellsOf sB.cellMap x = []) →
    reinsertAll fuel pending sA = some sA' →
    ∃ sB', insertAll fuel pending sB = some sB' ∧ sB'.rootCell = sA'.rootCell ∧
      keysOf sA'.cellMap = keysOf sA.cellMap ∧ sA'.rootCell.region = sA.rootCell.region ∧
      sA'.maxDepth = sA.maxDepth ∧ sA'.objectInCellTest = sA.objectInCellTest ∧
      ∀ o, (o ∈ pending → cellsOf sA'.cellMap o = cellsOf sB'.cellMap o) ∧
        (o ∉ pending → cellsOf sA'.cellMap o = cellsOf sA.cellMap o ∧
          cellsOf sB'.cellMap o = cellsOf sB.cellMap o) := by
  intro pending
  induction pending with
  | nil =>
    intro sA sB sA' _ hroot _ _ _ _ hr
    simp only [reinsertAll, Option.some.injEq] at hr
    subst hr
    exact ⟨sB, rfl, hroot.symm, rfl, rfl, rfl, rfl, fun o => ⟨fun h => by simp at h, fun _ => ⟨rfl, rfl⟩⟩⟩
  | cons x rest ih =>
    intro sA sB sA' h hroot hmd htest hkeys hempty hr
    simp only [reinsertAll] at hr
    cases hi : Octree.insert fuel x { sA with cellMap := sA.cellMap.clearEntry x } with
    | none => simp [hi] at hr
    | some sA1 =>
      simp only [hi] at hr
      have hnd := List.nodup_cons.mp h.nodup
      obtain ⟨sB1, hB1, hroot1, hother, L, hLA, hLB⟩ :=
        @insert_same_tree { sA with cellMap := sA.cellMap.clearEntry x } sB sA1 fuel x
          hroot hmd htest h.shape h.depth hi
      obtain ⟨hmdA, htestA, _⟩ := insert_spec { sA with cellMap := sA.cellMap.clearEntry x } sA1
        fuel x h.shape h.depth hi
      obtain ⟨hmdB, htestB, _⟩ := insert_spec sB sB1 fuel x (by rw [← hroot]; exact h.shape)
        (by rw [← hroot, ← hmd]; exact h.depth) hB1
      have hregA := insert_root_region { sA with cellMap := sA.cellMap.clearEntry x } sA1
        fuel x h.shape h.depth hi
      simp only at hmdA htestA hLA hother hregA
      have hkeys1 : keysOf sA1.cellMap = keysOf sA.cellMap := by
        have := insert_keys_of_mem (s := { sA with cellMap := sA.cellMap.clearEntry x })
          h.shape h.depth (by simp only [keysOf_clearEntry]; exact hkeys x (List.mem_cons_self _ _)) hi
        simp only [keysOf_clearEntry] at this
        exact this
      obtain ⟨sB', hB', hroot', hk', hreg', hmd', htest', hall⟩ := ih sA1 sB1 sA' (h.step hi)
        hroot1.symm (by rw [hmdA, hmdB, hmd]) (by rw [htestA, htestB, htest])
        (fun y hy => by rw [hkeys1]; exact hkeys y (List.mem_cons_of_mem _ hy))
        (fun y hy => by
          have hyx : y ≠ x := fun e => hnd.1 (e ▸ hy)
          rw [(hother y hyx).2]
          exact hempty y (List.mem_cons_of_mem _ hy)) hr
      refine ⟨sB', by simp only [insertAll, hB1, hB'], hroot', hk'.trans hkeys1,
        hreg'.trans hregA, hmd'.trans hmdA, htest'.trans htestA, ?_⟩
      intro o
      constructor
      · intro ho
        rcases List.mem_cons.mp ho with e | e
        · subst e
          obtain ⟨e1, e2⟩ := (hall o).2 hnd.1
          rw [e1, e2, hLA, hLB, cellsOf_clearEntry, if_pos rfl,
            hempty o (List.mem_cons_self _ _)]
        · exact (hall o).1 e
      · intro ho
        have hox : o ≠ x := fun e => ho (e ▸ List.mem_cons_self _ _)
        have hor : o ∉ rest := fun e => ho (List.mem_cons_of_mem _ e)
        obtain ⟨e1, e2⟩ := (hall o).2 hor
        rw [e1, e2, (hother o hox).1, (hother o hox).2, cellsOf_clearEntry, if_neg hox]
        exact ⟨rfl, rfl⟩

theorem reinsertAll_total : ∀ (pending : List Obj) (s : Octree), ResetInv pending s →
    ∃ s', reinsertAll (s.maxDepth + 1) pending s = some s' := by
  intro pending
  induction pending with
  | nil => intro s _; exact ⟨s, rfl⟩
  | cons x rest ih =>
    intro s h
    obtain ⟨s1, hi⟩ := insert_total { s with cellMap := s.cellMap.clearEntry x } x h.shape h.depth
    simp only at hi
    obtain ⟨hmd, _, _⟩ := insert_spec { s with cellMap := s.cellMap.clearEntry x } s1 _ x
      h.shape h.depth hi
    simp only at hmd
    obtain ⟨s', hs'⟩ := ih s1 (h.step hi)
    rw [hmd] at hs'
    exact ⟨s', by simp only [reinsertAll, hi, hs']⟩

theorem reinsertAll_fuel_unique : ∀ (pending : List Obj) (s a b : Octree) (f1 f2 : Nat),
    reinsertAll f1 pending s = some a → reinsertAll f2 pending s = some b → a = b := by
  intro pending
  induction pending with
  | nil =>
    intro s a b f1 f2 h1 h2
    simp only [reinsertAll, Option.some.injEq] at h1 h2
    rw [← h1, ← h2]
  | cons x rest ih =>
    intro s a b f1 f2 h1 h2
    simp only [reinsertAll] at h1 h2
    cases hi1 : Octree.insert f1 x { s with cellMap := s.cellMap.clearEntry x } with
    | none => simp [hi1] at h1
    | some s1 =>
      cases hi2 : Octree.insert f2 x { s with cellMap := s.cellMap.clearEntry x } with
      | none => simp [hi2] at h2
      | some s2 =>
        have := insert_fuel_unique _ _ _ _ _ _ hi1 hi2
        subst this
        simp only [hi1] at h1
        simp only [hi2] at h2
        exact ih _ _ _ _ _ h1 h2

/-- C16. ResetWithBounds rebuilds against the new bounds: in a reachable state, whatever the
order `order` in which the container hands out the keys, `resetWithBounds(low, high)` returns
(with `maxDepth + 1` levels of recursion, and with the same result for any budget that
suffices); afterwards the root has bounds `low` and `high` and the center that the constructor
of `Cell` computes from them (`(low + high) / 2` on each axis), exactly the objects that had an
index entry have one, and the tree and the cell list of every object are those obtained by
inserting these objects, in the order `order`, into a fresh octree with the new bounds: no
cell, object list or index entry of the old tree is left. -/
theorem resetWithBounds_rebuilds (s : Octree) (h : Reachable s) (order : List Obj)
    (hperm : order.Perm (keysOf s.cellMap)) (low high : Vector3f) :
    ∃ s', s.resetWithBounds (s.maxDepth + 1) order low high = some s' ∧
      (∀ fuel s'', s.resetWithBounds fuel order low high = some s'' → s'' = s') ∧
      s'.rootCell.lowBound = low ∧ s'.rootCell.highBound = high ∧
      s'.rootCell.center = (Cell.new low high).center ∧
      (∀ o, o ∈ keysOf s'.cellMap ↔ o ∈ keysOf s.cellMap) ∧
      ∃ s2, insertAll (s.maxDepth + 1) order
          (Octree.new low high s.maxDepth s.objectInCellTest) = some s2 ∧
        s'.rootCell = s2.rootCell ∧ ∀ o, cellsOf s'.cellMap o = cellsOf s2.cellMap o := by
  have hinv := reachable_inv h
  have hclear := clearCellRecursive_total _ s.rootCell (le_refl _) hinv.shape
  have hres := resetInv_of_cleared hinv hperm (Cell.new low high) rfl rfl
  obtain ⟨s', hs'⟩ := reinsertAll_total _ _ hres
  simp only at hs'
  have hreset : ∀ fuel, s.resetWithBounds fuel order low high =
      reinsertAll fuel order { s with rootCell := Cell.new low high } := by
    intro fuel
    simp only [Octree.resetWithBounds, hclear]
    rfl
  obtain ⟨s2, h2, hroot, hk, hreg, _, _, hall⟩ := reinsertAll_matches (s.maxDepth + 1) _
    { s with rootCell := Cell.new low high } (Octree.new low high s.maxDepth s.objectInCellTest) s'
    hres rfl rfl rfl (fun x hx => hperm.mem_iff.mp hx) (fun x _ => rfl) hs'
  simp only at hk hreg hall
  refine ⟨s', by rw [hreset]; exact hs', ?_, ?_, ?_, ?_, fun o => by rw [hk], s2, h2,
    hroot.symm, ?_⟩
  · intro fuel s'' h''
    rw [hreset] at h''
    exact reinsertAll_fuel_unique _ _ _ _ _ _ h'' hs'
  · exact congrArg Region.lowBound hreg
  · exact congrArg Region.highBound hreg
  · exact congrArg Region.center hreg
  · intro o
    by_cases ho : o ∈ order
    · exact (hall o).1 ho
    · obtain ⟨e1, e2⟩ := (hall o).2 ho
      rw [e1, e2]
      have hnone : s.cellMap.find o = none :=
        (find_eq_none_iff _ _).mpr (fun hk => ho (hperm.mem_iff.mpr hk))
      simp [cellsOf, hnone, Octree.new, CellMap.find]

theorem resetWithBounds_rebuilds_witness :
    Reachable exampleWidePair ∧ ([2, 1] : List Obj).Perm (keysOf exampleWidePair.cellMap) ∧
    ∃ s', exampleWidePair.resetWithBounds (exampleWidePair.maxDepth + 1) [2, 1] ⟨0, 0, 0⟩
        ⟨4, 4, 4⟩ = some s' ∧
      s'.rootCell.lowBound = ⟨0, 0, 0⟩ ∧ s'.rootCell.highBound = ⟨4, 4, 4⟩ ∧
      ∃ s2, insertAll (exampleWidePair.maxDepth + 1) [2, 1]
          (Octree.new ⟨0, 0, 0⟩ ⟨4, 4, 4⟩ exampleWidePair.maxDepth
            exampleWidePair.objectInCellTest) = some s2 ∧
        s'.rootCell = s2.rootCell := by
  have hperm : ([2, 1] : List Obj).Perm (keysOf exampleWidePair.cellMap) := by
    show ([2, 1] : List Obj).Perm [1, 2]
    decide
  obtain ⟨s', h1, _, h3, h4, _, _, s2, h7, h8, _⟩ :=
    resetWithBounds_rebuilds exampleWidePair exampleWidePair_reachable [2, 1] hperm ⟨0, 0, 0⟩
      ⟨4, 4, 4⟩
  exact ⟨exampleWidePair_reachable, hperm, s', h1, h3, h4, s2, h7, h8⟩

theorem regionAt_snoc : ∀ (p : CellRef) (r : Region) (i : Nat),
    regionAt r (p ++ [i]) = (regionAt r p).bind (fun r' => r'.octant i) := by
  intro p
  induction p with
  | nil =>
    intro r i
    simp only [List.nil_append, regionAt, Option.some_bind]
    cases r.octant i <;> rfl
  | cons j p ih =>
    intro r i
    simp only [List.cons_append, regionAt]
    cases r.octant j with
    | none => rfl
    | some r1 => exact ih r1 i

theorem chainOk_snoc (test : ObjectCellIntersectionTest) (o : Obj) :
    ∀ (p : CellRef) (r : Region) (i : Nat),
      chainOk test o r (p ++ [i]) =
        (chainOk test o r p &&
          match regionAt r (p ++ [i]) with
          | none => false
          | some r' => test o r') := by
  intro p
  induction p with
  | nil =>
    intro r i
    simp only [List.nil_append, chainOk, regionAt]
    cases r.octant i <;> rfl
  | cons j p ih =>
    intro r i
    simp only [List.cons_append, chainOk, regionAt]
    cases r.octant j with
    | none => simp
    | some r1 =>
      have := ih r1 i
      simp only [Bool.and_assoc]
      exact congrArg (fun b => test o r && b) this

theorem chainOk_last (test : ObjectCellIntersectionTest) (o : Obj) :
    ∀ (p : CellRef) (r : Region), chainOk test o r p = true →
      ∃ r', regionAt r p = some r' ∧ test o r' = true := by
  intro p
  induction p with
  | nil =>
    intro r h
    exact ⟨r, rfl, h⟩
  | cons j p ih =>
    intro r h
    simp only [chainOk, Bool.and_eq_true] at h
    simp only [regionAt]
    cases hr : r.octant j with
    | none => simp [hr] at h
    | some r1 =>
      simp only [hr] at h
      exact ih r1 h.2

theorem chainOk_of_append (test : ObjectCellIntersectionTest) (o : Obj) :
    ∀ (p q : CellRef) (r : Region), chainOk test o r (p ++ q) = true →
      chainOk test o r p = true := by
  intro p
  induction p with
  | nil =>
    intro q r h
    cases q with
    | nil => exact h
    | cons j q =>
      simp only [List.nil_append, chainOk, Bool.and_eq_true] at h
      exact h.1
  | cons j p ih =>
    intro q r h
    simp only [List.cons_append, chainOk, Bool.and_eq_true] at h ⊢
    refine ⟨h.1, ?_⟩
    cases hr : r.octant j with
    | none => simp [hr] at h
    | some r1 =>
      simp only [hr] at h
      exact ih q r1 h.2

theorem chain_eq (test : ObjectCellIntersectionTest) (o : Obj) :
    ∀ (p : CellRef) (root c : Cell), GeomOk root → cellAt root p = some c →
      acceptedChain test o root p = chainOk test o root.region p := by
  intro p
  induction p with
  | nil =>
    intro root c _ _
    rw [acceptedChain_nil]
    rfl
  | cons i p ih =>
    intro root c hg hc
    rw [cellAt_cons] at hc
    cases hs : root.subcells[i]? with
    | none => simp [hs] at hc
    | some sub =>
      simp only [hs, Option.some_bind] at hc
      rw [acceptedChain_cons_of_some test o root sub i p hs]
      simp only [chainOk, hg [] i root sub rfl hs]
      rw [ih sub c (geomOk_sub hg hs) hc]

theorem regionAt_of_cellAt : ∀ (p : CellRef) (root c : Cell), GeomOk root →
    cellAt root p = some c → regionAt root.region p = some c.region := by
  intro p
  induction p with
  | nil =>
    intro root c _ hc
    simp only [cellAt_nil, Option.some.injEq] at hc
    subst hc
    rfl
  | cons i p ih =>
    intro root c hg hc
    rw [cellAt_cons] at hc
    cases hs : root.subcells[i]? with
    | none => simp [hs] at hc
    | some sub =>
      simp only [hs, Option.some_bind] at hc
      simp only [regionAt, hg [] i root sub rfl hs]
      exact ih sub c (geomOk_sub hg hs) hc

theorem mem_acceptedLeaves_iff (test : ObjectCellIntersectionTest) (o : Obj) :
    ∀ (k : Nat) (c : Cell) (q : CellRef), ShapeOk c →
      (q ∈ acceptedLeaves test o k c ↔ q.length = k ∧ acceptedChain test o c q = true) := by
  intro k
  induction k with
  | zero =>
    intro c q _
    cases q with
    | nil =>
      rw [acceptedChain_nil]
      simp only [acceptedLeaves]
      by_cases ht : test o c.region = true <;> simp [ht]
    | cons i r =>
      constructor
      · intro h
        have := acceptedLeaves_length test o 0 c _ h
        simp at this
      · intro h
        simp at h
  | succ k ih =>
    intro c q hshape
    constructor
    · intro h
      have hlen := acceptedLeaves_length test o (k + 1) c _ h
      refine ⟨hlen, ?_⟩
      cases q with
      | nil => simp at hlen
      | cons i r =>
        by_cases ht : test o c.region = true
        · obtain ⟨d, hd⟩ := cellAt_of_mem_acceptedLeaves test o (k + 1) c _ h
          rw [cellAt_cons] at hd
          cases hs : c.subcells[i]? with
          | none => simp [hs] at hd
          | some sub =>
            have hi : i < 8 := by
              have h1 := getElem?_lt_of_some hs
              rcases hshape.node with e | e
              · rw [e] at h1; simp at h1
              · omega
            have := (mem_acceptedLeaves_cons test o k c sub i r hi hs ht).mp h
            rw [acceptedChain_cons_of_some test o c sub i r hs, ht]
            exact ((ih sub r (hshape.subcell hs)).mp this).2
        · simp only [Bool.not_eq_true] at ht
          rw [acceptedLeaves_of_reject test o (k + 1) c ht] at h
          simp at h
    · rintro ⟨hlen, hch⟩
      cases q with
      | nil => simp at hlen
      | cons i r =>
        cases hs : c.subcells[i]? with
        | none =>
          rw [acceptedChain_cons_of_none test o c i r hs] at hch
          simp at hch
        | some sub =>
          rw [acceptedChain_cons_of_some test o c sub i r hs, Bool.and_eq_true] at hch
          have hi : i < 8 := by
            have h1 := getElem?_lt_of_some hs
            rcases hshape.node with e | e
            · rw [e] at h1; simp at h1
            · omega
          refine (mem_acceptedLeaves_cons test o k c sub i r hi hs hch.1).mpr ?_
          exact (ih sub r (hshape.subcell hs)).mpr ⟨by simpa using hlen, hch.2⟩

theorem hereditary_leaf {test : ObjectCellIntersectionTest} {R : Region} {md : Nat}
    (hher : Hereditary test R md) (o : Obj) :
    ∀ (n : Nat) (p : CellRef), p.length + n = md → chainOk test o R p = true →
      ∃ q, q.length = md ∧ p <+: q ∧ chainOk test o R q = true := by
  intro n
  induction n with
  | zero =>
    intro p hp hc
    exact ⟨p, by omega, List.prefix_refl p, hc⟩
  | succ n ih =>
    intro p hp hc
    obtain ⟨r, hr, ht⟩ := chainOk_last test o p R hc
    obtain ⟨i, r', hoct, ht'⟩ := hher o p r (by omega) hr ht
    have hc' : chainOk test o R (p ++ [i]) = true := by
      rw [chainOk_snoc, hc, regionAt_snoc, hr]
      simp only [Option.some_bind, hoct, Bool.true_and]
      exact ht'
    obtain ⟨q, hq, hpre, hcq⟩ := ih (p ++ [i]) (by simp; omega) hc'
    exact ⟨q, hq, (List.prefix_append p [i]).trans hpre, hcq⟩

theorem hereditary_step {test : ObjectCellIntersectionTest} {R : Region} {md : Nat}
    (hher : Hereditary test R md) (o : Obj) (p : CellRef) (hp : p.length < md)
    (hc : chainOk test o R p = true) :
    ∃ i, i < 8 ∧ chainOk test o R (p ++ [i]) = true := by
  obtain ⟨r, hr, ht⟩ := chainOk_last test o p R hc
  obtain ⟨i, r', hoct, ht'⟩ := hher o p r hp hr ht
  refine ⟨i, octant_lt hoct, ?_⟩
  rw [chainOk_snoc, hc, regionAt_snoc, hr]
  simp only [Option.some_bind, hoct, Bool.true_and]
  exact ht'

theorem chainOk_index_lt (test : ObjectCellIntersectionTest) (o : Obj) (R : Region)
    (p : CellRef) (i : Nat) (h : chainOk test o R (p ++ [i]) = true) : i < 8 := by
  obtain ⟨r, hr, _⟩ := chainOk_last test o _ R h
  rw [regionAt_snoc] at hr
  cases hp : regionAt R p with
  | none => simp [hp] at hr
  | some r0 =>
    simp only [hp, Option.some_bind] at hr
    exact octant_lt hr

theorem exists_of_chain {test : ObjectCellIntersectionTest} {R : Region} {md : Nat} {x : Obj}
    {root : Cell} (hshape : ShapeOk root)
    (hsplit : ∀ p c, cellAt root p = some c → p.length < md → chainOk test x R p = true →
      c.subcells ≠ []) :
    ∀ q : CellRef, q.length ≤ md → chainOk test x R q = true → ∃ c, cellAt root q = some c := by
  intro q
  induction q using List.reverseRecOn with
  | nil => intro _ _; exact ⟨root, rfl⟩
  | append_singleton q i ih =>
    intro hlen hc
    simp only [List.length_append, List.length_singleton] at hlen
    have hcq := chainOk_of_append test x q [i] R hc
    obtain ⟨cq, hq⟩ := ih (by omega) hcq
    have hne := hsplit q cq hq (by omega) hcq
    have hi := chainOk_index_lt test x R q i hc
    have h8 : cq.subcells.length = 8 := by
      rcases hshape q cq hq with e | e
      · exact absurd e hne
      · exact e
    obtain ⟨sub, hsub⟩ := getElem?_some_of_lt (l := cq.subcells) (i := i) (by omega)
    exact ⟨sub, by rw [cellAt_snoc hq]; exact hsub⟩

theorem subcellsAllEmpty_false (c : Cell) :
    ∀ (n i : Nat), subcellsAllEmpty c n i = some false →
      ∃ (j : Nat) (sub : Cell), c.subcells[j]? = some sub ∧
        (sub.subcells ≠ [] ∨ sub.objects ≠ []) := by
  intro n
  induction n with
  | zero =>
    intro i h
    simp [subcellsAllEmpty] at h
  | succ n ih =>
    intro i h
    simp only [subcellsAllEmpty] at h
    cases hs : c.subcells[i]? with
    | none => simp [hs] at h
    | some sub =>
      simp only [hs] at h
      by_cases hcond : (!sub.isLeaf || decide (sub.objects.length > 0)) = true
      · refine ⟨i, sub, hs, ?_⟩
        simp only [Bool.or_eq_true, Bool.not_eq_true', decide_eq_true_eq] at hcond
        rcases hcond with e | e
        · left
          intro hn
          have := (isLeaf_iff sub).mpr hn
          rw [this] at e
          cases e
        · right
          intro hn
          rw [hn] at e
          simp at e
      · rw [if_neg hcond] at h
        exact ih (i + 1) h

theorem length_ne_nil {c c' : Cell} (h : c'.subcells.length = c.subcells.length)
    (hne : c'.subcells ≠ []) : c.subcells ≠ [] := by
  intro e
  rw [e] at h
  exact hne (List.length_eq_zero.mp h)

theorem collapse_compact (cur cur2 : Cell) (X : CellRef) (b : Bool)
    (hex : ∀ p, p ≠ X → CompactAt cur p)
    (h : removeSubcellsIfEmpty cur X = some (cur2, b)) :
    ∀ p, (b = true → ∀ i, X ≠ p ++ [i]) → CompactAt cur2 p := by
  unfold removeSubcellsIfEmpty at h
  cases hcX : cellAt cur X with
  | none => simp [hcX] at h
  | some cX =>
    simp only [hcX] at h
    cases hchk : subcellsAllEmpty cX 8 0 with
    | none => simp [hchk] at h
    | some bb =>
      cases bb with
      | false =>
        simp only [hchk, Option.some.injEq, Prod.mk.injEq] at h
        obtain ⟨rfl, rfl⟩ := h
        intro p _
        by_cases hp : p = X
        · subst hp
          intro c hc _
          rw [hcX] at hc
          cases hc
          exact subcellsAllEmpty_false cX 8 0 hchk
        · exact hex p hp
      | true =>
        simp only [hchk] at h
        cases hm : modifyAt (fun c => { c with subcells := [] }) cur X with
        | none => simp [hm] at h
        | some root' =>
          simp only [hm, Option.some.injEq, Prod.mk.injEq] at h
          obtain ⟨rfl, rfl⟩ := h
          have hbelow := fun r => cellAt_modifyAt_below _ _ _ _ _ r hm hcX
          intro p hpar c' hc' hne'
          have hpar := hpar rfl
          by_cases hpre : X <+: p
          · obtain ⟨r, rfl⟩ := hpre
            rw [hbelow] at hc'
            cases r with
            | nil =>
              rw [cellAt_nil] at hc'
              cases hc'
              exact absurd rfl hne'
            | cons i r => rw [cellAt_leaf rfl] at hc'; cases hc'
          · obtain ⟨c, hc, _, _, hlen⟩ := (cellAt_modifyAt_other _ _ _ _ p hm hpre).2 c' hc'
            have hpX : p ≠ X := fun e => hpre (e ▸ List.prefix_refl _)
            obtain ⟨i, sub, hsub, hlive⟩ := hex p hpX c hc (length_ne_nil hlen hne')
            have hsub0 : cellAt root' (p ++ [i]) = c'.subcells[i]? := cellAt_snoc hc'
            have hsubc : cellAt cur (p ++ [i]) = some sub := by rw [cellAt_snoc hc]; exact hsub
            have hpre' : ¬ X <+: p ++ [i] := by
              intro hx
              rcases List.prefix_concat_iff.mp (by simpa [List.concat_eq_append] using hx) with e | e
              · exact hpar i e
              · exact hpre e
            obtain ⟨sub', hsub', _, hobj, hl⟩ :=
              (cellAt_modifyAt_other _ _ _ _ (p ++ [i]) hm hpre').1 sub hsubc
            refine ⟨i, sub', by rw [← hsub0]; exact hsub', ?_⟩
            rcases hlive with e | e
            · left
              exact length_ne_nil hl.symm e
            · right
              rw [hobj]; exact e

theorem climb_compact : ∀ (rev : List Nat) (cur cur' : Cell), ShapeOk cur →
    (∀ p, p ≠ rev.reverse → CompactAt cur p) → climbIfEmpty rev cur = some cur' →
    Compact cur' := by
  intro rev
  induction rev with
  | nil =>
    intro cur cur' _ hex h
    simp only [climbIfEmpty] at h
    cases hr : removeSubcellsIfEmpty cur [] with
    | none => simp [hr] at h
    | some res =>
      obtain ⟨root', b⟩ := res
      simp only [hr, Option.some.injEq] at h
      subst h
      intro p
      exact collapse_compact cur root' [] b (by simpa using hex) hr p
        (fun _ i e => by simp at e)
  | cons i parentRev ih =>
    intro cur cur' hshape hex h
    simp only [climbIfEmpty] at h
    simp only [List.reverse_cons] at hex
    cases hr : removeSubcellsIfEmpty cur (parentRev.reverse ++ [i]) with
    | none => simp [hr] at h
    | some res =>
      obtain ⟨root', b⟩ := res
      cases b with
      | false =>
        simp only [List.reverse_cons, hr, Option.some.injEq] at h
        subst h
        intro p
        exact collapse_compact cur root' _ false hex hr p (fun e => by cases e)
      | true =>
        simp only [List.reverse_cons, hr] at h
        have hshape' := (collapse_step cur root' _ true hshape hr).shape hshape
        refine ih root' cur' hshape' ?_ h
        intro p hp
        refine collapse_compact cur root' _ true hex hr p ?_
        intro _ j e
        have := List.append_inj_left' e rfl
        exact hp this.symm

theorem erase_compact (o : Obj) (q : CellRef) (cur cur1 : Cell)
    (h : modifyAt (eraseObject o) cur q = some cur1) (hc : Compact cur) :
    ∀ p, (∀ i, q ≠ p ++ [i]) → CompactAt cur1 p := by
  obtain ⟨f1, f2⟩ := erase_step o q cur cur1 h
  intro p hp c' hc' hne'
  obtain ⟨c, hcc, _, hlen, _⟩ := f1 p c' hc'
  obtain ⟨i, sub, hsub, hlive⟩ := hc p c hcc (length_ne_nil hlen hne')
  have hsubc : cellAt cur (p ++ [i]) = some sub := by rw [cellAt_snoc hcc]; exact hsub
  obtain ⟨sub', hsub'⟩ := f2 _ _ hsubc
  obtain ⟨sub0, hsub0, _, hl, hobj⟩ := f1 _ _ hsub'
  rw [hsubc] at hsub0
  cases hsub0
  rw [if_neg (fun e => hp i e.symm)] at hobj
  refine ⟨i, sub', by rw [← cellAt_snoc hc']; exact hsub', ?_⟩
  rcases hlive with e | e
  · left
    exact length_ne_nil hl.symm e
  · right
    rw [hobj]; exact e

theorem erase_shape (o : Obj) (q : CellRef) (cur cur1 : Cell)
    (h : modifyAt (eraseObject o) cur q = some cur1) (hs : ShapeOk cur) : ShapeOk cur1 := by
  obtain ⟨f1, _⟩ := erase_step o q cur cur1 h
  intro p c' hc'
  obtain ⟨c, hcc, _, hlen, _⟩ := f1 p c' hc'
  rcases hs p c hcc with e | e
  · left
    rw [e] at hlen
    exact List.length_eq_zero.mp hlen
  · right
    rw [hlen, e]

theorem removeFromCells_compact (o : Obj) : ∀ (cells : CellList) (cur root' : Cell),
    ShapeOk cur → Compact cur → removeFromCells o cells cur = some root' → Compact root' := by
  intro cells
  induction cells with
  | nil =>
    intro cur root' _ hc h
    simp only [removeFromCells, Option.some.injEq] at h
    subst h
    exact hc
  | cons cell rest ih =>
    intro cur root' hs hc h
    rw [removeFromCells_eq] at h
    cases hm : modifyAt (eraseObject o) cur cell with
    | none => simp [hm] at h
    | some root1 =>
      simp only [hm] at h
      have hs1 := erase_shape o cell cur root1 hm hs
      have he := erase_compact o cell cur root1 hm hc
      cases hp : parentRef cell with
      | none =>
        simp only [hp] at h
        have hnil : cell = [] := by
          cases cell with
          | nil => rfl
          | cons i p => simp [parentRef] at hp
        subst hnil
        exact ih root1 root' hs1 (fun p => he p (fun i e => by simp at e)) h
      | some parent =>
        simp only [hp] at h
        obtain ⟨i, rfl⟩ := parentRef_some hp
        cases hcl : removeSubcellsAndClimbIfEmpty root1 parent with
        | none => simp [hcl] at h
        | some root2 =>
          simp only [hcl] at h
          unfold removeSubcellsAndClimbIfEmpty at hcl
          have hs2 := (climb_pruned _ _ _ hs1 hcl).shape hs1
          have hc2 : Compact root2 := by
            refine climb_compact _ root1 root2 hs1 ?_ hcl
            intro p hpne
            rw [List.reverse_reverse] at hpne
            refine he p ?_
            intro j e
            exact hpne (List.append_inj_left' e rfl).symm
          exact ih root2 root' hs2 hc2 h

theorem remove_compact {s s' : Octree} {o : Obj} (hshape : ShapeOk s.rootCell)
    (hc : Compact s.rootCell) (h : s.remove o = some s') : Compact s'.rootCell := by
  unfold Octree.remove at h
  cases hf : s.cellMap.find o with
  | none =>
    simp only [hf, Option.some.injEq] at h
    subst h
    exact hc
  | some cells =>
    simp only [hf] at h
    cases hr : removeFromCells o cells s.rootCell with
    | none => simp [hr] at h
    | some root =>
      simp only [hr, Option.some.injEq] at h
      subst h
      exact removeFromCells_compact o cells _ _ hshape hc hr

theorem remove_total {s : Octree} (hinv : Inv s) (hn : EntriesNodup s.cellMap) (o : Obj) :
    ∃ s', s.remove o = some s' := by
  cases hf : s.cellMap.find o with
  | none => exact ⟨s, by simp only [Octree.remove, hf]⟩
  | some cells =>
    have hnd : cells.Nodup := hn o cells hf
    have hcells : cellsOf s.cellMap o = cells := by simp [cellsOf, hf]
    have h0 : RemoveInv o s.maxDepth s.rootCell [] s.rootCell :=
      ⟨hinv.shape, hinv.depth, fun p c hc => ⟨c, hc, rfl, by simp⟩, fun p c hc _ => ⟨c, hc⟩⟩
    obtain ⟨root', hr⟩ := removeFromCells_total o s.maxDepth s.rootCell cells [] s.rootCell h0 hnd
      (fun _ _ => by simp) (fun q hq => (hinv.agree o q).mp (by rw [hcells]; exact hq))
    exact ⟨{ s with rootCell := root', cellMap := s.cellMap.erase o }, by
      simp only [Octree.remove, hf, hr]⟩

theorem live_descendant {root : Cell} {md : Nat} (hc : Compact root) (hd : DepthOk md root) :
    ∀ (n : Nat) (p : CellRef) (c : Cell), p.length + n = md → cellAt root p = some c →
      c.subcells ≠ [] → ∃ (q : CellRef) (d : Cell), q ≠ [] ∧ cellAt root (p ++ q) = some d ∧
        d.objects ≠ [] := by
  intro n
  induction n with
  | zero =>
    intro p c hp hcp hne
    exact absurd (leaf_of_depth hd hcp (by omega)) hne
  | succ n ih =>
    intro p c hp hcp hne
    obtain ⟨i, sub, hsub, hlive⟩ := hc p c hcp hne
    have hsubc : cellAt root (p ++ [i]) = some sub := by rw [cellAt_snoc hcp]; exact hsub
    rcases hlive with e | e
    · obtain ⟨q, d, _, hq, hobj⟩ := ih (p ++ [i]) sub (by simp; omega) hsubc e
      refine ⟨i :: q, d, by simp, ?_, hobj⟩
      rw [List.append_assoc] at hq
      exact hq
    · exact ⟨[i], sub, by simp, hsubc, e⟩

theorem mem_keysOf_erase (m : CellMap) (o x : Obj) :
    x ∈ keysOf (m.erase o) ↔ x ∈ keysOf m ∧ x ≠ o := by
  simp only [keysOf, CellMap.erase, List.mem_map, List.mem_filter, decide_eq_true_eq]
  constructor
  · rintro ⟨e, ⟨he, hne⟩, rfl⟩
    exact ⟨⟨e, he, rfl⟩, hne⟩
  · rintro ⟨⟨e, he, rfl⟩, hne⟩
    exact ⟨e, ⟨he, hne⟩, rfl⟩

theorem canonical_fresh (test : ObjectCellIntersectionTest) (lowBound highBound : Vector3f)
    (md : Nat) :
    Canonical test (Cell.new lowBound highBound).region md
      (Octree.new lowBound highBound md test) := by
  have hroot : ∀ p c, cellAt (Octree.new lowBound highBound md test).rootCell p = some c →
      c.subcells = [] ∧ c.objects = [] := by
    intro p c hc
    cases p with
    | nil =>
      simp only [cellAt_nil, Option.some.injEq] at hc
      subst hc
      exact ⟨rfl, rfl⟩
    | cons i p =>
      rw [cellAt_leaf (by rfl)] at hc
      cases hc
  refine ⟨?_, ?_, ?_⟩
  · intro p c hc
    constructor
    · intro hne
      exact absurd (hroot p c hc).1 hne
    · rintro ⟨_, o, ho, _⟩
      simp [keysOf, Octree.new] at ho
  · intro p c o hc
    constructor
    · intro ho
      rw [(hroot p c hc).2] at ho
      simp at ho
    · rintro ⟨ho, _⟩
      simp [keysOf, Octree.new] at ho
  · intro o ho
    simp [keysOf, Octree.new] at ho

theorem canonical_compact {test : ObjectCellIntersectionTest} {R : Region} {md : Nat}
    {s : Octree} (hher : Hereditary test R md) (hshape : ShapeOk s.rootCell)
    (hcan : Canonical test R md s) : Compact s.rootCell := by
  intro p c hc hne
  obtain ⟨hlt, x, hx, hch⟩ := (hcan.split p c hc).mp hne
  obtain ⟨i, hi, hch'⟩ := hereditary_step hher x p hlt hch
  have h8 : c.subcells.length = 8 := by
    rcases hshape p c hc with e | e
    · exact absurd e hne
    · exact e
  obtain ⟨sub, hsub⟩ := getElem?_some_of_lt (l := c.subcells) (i := i) (by omega)
  have hsubc : cellAt s.rootCell (p ++ [i]) = some sub := by rw [cellAt_snoc hc]; exact hsub
  refine ⟨i, sub, hsub, ?_⟩
  by_cases hl : p.length + 1 < md
  · left
    exact (hcan.split _ sub hsubc).mpr ⟨by simpa using hl, x, hx, hch'⟩
  · right
    have := (hcan.held _ sub x hsubc).mpr ⟨hx, by simp; omega, hch'⟩
    exact List.ne_nil_of_mem this

theorem canonical_insert {test : ObjectCellIntersectionTest} {R : Region} {md : Nat}
    {s s' : Octree} {fuel : Nat} {o : Obj} (hher : Hereditary test R md) (hinv : Inv s)
    (hg : GeomOk s.rootCell) (hR : s.rootCell.region = R) (hmd : s.maxDepth = md)
    (hT : s.objectInCellTest = test) (hcan : Canonical test R md s)
    (h : s.insert fuel o = some s') :
    Canonical test R md s' ∧
    ∀ x, x ∈ keysOf s'.cellMap ↔ x ∈ keysOf s.cellMap ∨ (x = o ∧ chainOk test o R [] = true) := by
  subst hmd hT
  obtain ⟨_, _, hspec⟩ := insert_spec s s' fuel o hinv.shape hinv.depth h
  have hsh := insert_shape s s' fuel o hinv.shape hinv.depth h
  have hg' : GeomOk s'.rootCell := hsh.1 hg
  have hR' : s'.rootCell.region = R := by
    rw [insert_root_region s s' fuel o hinv.shape hinv.depth h, hR]
  have hshape' : ShapeOk s'.rootCell := hspec.2.1
  have hce : ∀ p c', cellAt s'.rootCell p = some c' →
      acceptedChain s.objectInCellTest o s'.rootCell p = chainOk s.objectInCellTest o R p := by
    intro p c' hc'
    rw [chain_eq _ o p _ c' hg' hc', hR']
  have hnew : ∀ p c', cellAt s'.rootCell p = some c' → p.length < s.maxDepth →
      chainOk s.objectInCellTest o R p = true → c'.subcells ≠ [] := by
    intro p c' hc' hlt hch
    exact (hsh.2 p c' hc').mpr (Or.inr ⟨hlt, by rw [hce p c' hc']; exact hch⟩)
  have hmemL : ∀ q, q ∈ acceptedLeaves s.objectInCellTest o s.maxDepth s'.rootCell ↔
      q.length = s.maxDepth ∧ chainOk s.objectInCellTest o R q = true := by
    intro q
    rw [mem_acceptedLeaves_iff _ o _ _ q hshape']
    constructor
    · rintro ⟨hl, hch⟩
      refine ⟨hl, ?_⟩
      cases hq : cellAt s'.rootCell q with
      | none =>
        exfalso
        have hmem : q ∈ acceptedLeaves s.objectInCellTest o s.maxDepth s'.rootCell :=
          (mem_acceptedLeaves_iff _ o _ _ q hshape').mpr ⟨hl, hch⟩
        obtain ⟨d, hd⟩ := cellAt_of_mem_acceptedLeaves _ o _ _ q hmem
        rw [hq] at hd
        cases hd
      | some c' => rw [← hce q c' hq]; exact hch
    · rintro ⟨hl, hch⟩
      refine ⟨hl, ?_⟩
      obtain ⟨c', hc'⟩ := exists_of_chain hshape' hnew q (le_of_eq hl) hch
      rw [hce q c' hc']; exact hch
  have hL : acceptedLeaves s.objectInCellTest o s.maxDepth s'.rootCell ≠ [] ↔
      chainOk s.objectInCellTest o R [] = true := by
    constructor
    · intro hne
      obtain ⟨q, hq⟩ := List.exists_mem_of_ne_nil _ hne
      exact chainOk_of_append _ o [] q R (by simpa using ((hmemL q).mp hq).2)
    · intro hch
      obtain ⟨q, hl, _, hcq⟩ := hereditary_leaf hher o s.maxDepth [] (by simp) hch
      exact List.ne_nil_of_mem ((hmemL q).mpr ⟨hl, hcq⟩)
  have hkeys : ∀ x, x ∈ keysOf s'.cellMap ↔
      x ∈ keysOf s.cellMap ∨ (x = o ∧ chainOk s.objectInCellTest o R [] = true) := by
    intro x
    rw [hspec.1, keysOf_addCells, ← hL]
    by_cases hk : o ∈ keysOf s.cellMap
    · rw [if_pos (Or.inl hk)]
      constructor
      · exact Or.inl
      · rintro (e | ⟨rfl, _⟩)
        · exact e
        · exact hk
    · by_cases hl : acceptedLeaves s.objectInCellTest o s.maxDepth s'.rootCell = []
      · rw [if_pos (Or.inr (by rw [hl]; rfl))]
        constructor
        · exact Or.inl
        · rintro (e | ⟨_, e⟩)
          · exact e
          · exact absurd hl e
      · rw [if_neg (by
          rintro (e | e)
          · exact hk e
          · exact hl (List.map_eq_nil_iff.mp e))]
        simp only [List.mem_append, List.mem_singleton]
        constructor
        · rintro (e | e)
          · exact Or.inl e
          · exact Or.inr ⟨e, hl⟩
        · rintro (e | ⟨e, _⟩)
          · exact Or.inl e
          · exact Or.inr e
  have hexist : ∀ x, x ∈ keysOf s.cellMap → ∀ q, q.length ≤ s.maxDepth →
      chainOk s.objectInCellTest x R q = true → ∃ c, cellAt s.rootCell q = some c := by
    intro x hx
    exact exists_of_chain hinv.shape
      (fun p c hc hlt hch => (hcan.split p c hc).mpr ⟨hlt, x, hx, hch⟩)
  refine ⟨⟨?_, ?_, ?_⟩, hkeys⟩
  · intro p c' hc'
    rw [hsh.2 p c' hc']
    constructor
    · rintro (⟨c, hc, hne⟩ | ⟨hlt, hch⟩)
      · obtain ⟨hlt, x, hx, hch⟩ := (hcan.split p c hc).mp hne
        exact ⟨hlt, x, (hkeys x).mpr (Or.inl hx), hch⟩
      · rw [hce p c' hc'] at hch
        exact ⟨hlt, o, (hkeys o).mpr (Or.inr ⟨rfl, chainOk_of_append _ o [] p R (by simpa using hch)⟩),
          hch⟩
    · rintro ⟨hlt, x, hx, hch⟩
      rcases (hkeys x).mp hx with e | ⟨rfl, _⟩
      · obtain ⟨c, hc⟩ := hexist x e p (le_of_lt hlt) hch
        exact Or.inl ⟨c, hc, (hcan.split p c hc).mpr ⟨hlt, x, e, hch⟩⟩
      · exact Or.inr ⟨hlt, by rw [hce p c' hc']; exact hch⟩
  · intro p c' x hc'
    have hholds : x ∈ c'.objects ↔ Holds s'.rootCell p x := by
      constructor
      · intro hx; exact ⟨c', hc', hx⟩
      · rintro ⟨c2, hc2, hx⟩
        rw [hc'] at hc2
        cases hc2
        exact hx
    rw [hholds, holds_after_insert hspec p x]
    constructor
    · rintro (⟨c, hc, hx⟩ | ⟨rfl, hmem⟩)
      · obtain ⟨hk, hl, hch⟩ := (hcan.held p c x hc).mp hx
        exact ⟨(hkeys x).mpr (Or.inl hk), hl, hch⟩
      · obtain ⟨hl, hch⟩ := (hmemL p).mp hmem
        exact ⟨(hkeys x).mpr (Or.inr ⟨rfl, chainOk_of_append _ x [] p R (by simpa using hch)⟩),
          hl, hch⟩
    · rintro ⟨hk, hl, hch⟩
      rcases (hkeys x).mp hk with e | ⟨rfl, _⟩
      · obtain ⟨c, hc⟩ := hexist x e p (le_of_eq hl) hch
        exact Or.inl ⟨c, hc, (hcan.held p c x hc).mpr ⟨e, hl, hch⟩⟩
      · exact Or.inr ⟨rfl, (hmemL p).mpr ⟨hl, hch⟩⟩
  · intro x hx
    rcases (hkeys x).mp hx with e | ⟨rfl, e⟩
    · exact hcan.rooted x e
    · exact e

theorem canonical_remove {test : ObjectCellIntersectionTest} {R : Region} {md : Nat}
    {s s' : Octree} {o : Obj} (hher : Hereditary test R md) (hinv : Inv s)
    (hmd : s.maxDepth = md) (hcan : Canonical test R md s) (h : s.remove o = some s') :
    Canonical test R md s' := by
  subst hmd
  obtain ⟨_, _, hm, hshape', hdepth', f1, f2⟩ := remove_effect hinv h
  have hcomp' : Compact s'.rootCell :=
    remove_compact hinv.shape (canonical_compact hher hinv.shape hcan) h
  have hkeys : ∀ x, x ∈ keysOf s'.cellMap ↔ x ∈ keysOf s.cellMap ∧ x ≠ o := by
    intro x
    rw [hm, mem_keysOf_erase]
  have hheld : ∀ p c' x, cellAt s'.rootCell p = some c' →
      (x ∈ c'.objects ↔
        x ∈ keysOf s'.cellMap ∧ p.length = s.maxDepth ∧ chainOk test x R p = true) := by
    intro p c' x hc'
    obtain ⟨c, hc, _, hobj⟩ := f1 p c' hc'
    rw [hobj, List.mem_filter, hcan.held p c x hc, hkeys]
    simp only [ne_eq, decide_not, Bool.not_eq_true', decide_eq_false_iff_not]
    tauto
  refine ⟨?_, hheld, fun x hx => hcan.rooted x ((hkeys x).mp hx).1⟩
  intro p c' hc'
  constructor
  · intro hne
    have hle : p.length ≤ s.maxDepth := hdepth' p c' hc'
    obtain ⟨q, d, hq, hd, hobj⟩ := live_descendant hcomp' hdepth' (s.maxDepth - p.length) p c'
      (by omega) hc' hne
    obtain ⟨x, hx⟩ := List.exists_mem_of_ne_nil _ hobj
    obtain ⟨hk, hl, hch⟩ := (hheld _ d x hd).mp hx
    refine ⟨?_, x, hk, chainOk_of_append test x p q R hch⟩
    have : 0 < q.length := List.length_pos.mpr hq
    simp only [List.length_append] at hl
    omega
  · rintro ⟨hlt, x, hx, hch⟩
    obtain ⟨hxk, hxo⟩ := (hkeys x).mp hx
    obtain ⟨q, hl, ⟨t, rfl⟩, hcq⟩ := hereditary_leaf hher x (s.maxDepth - p.length) p
      (by omega) hch
    obtain ⟨d, hd⟩ := exists_of_chain hinv.shape
      (fun p c hc hlt hch => (hcan.split p c hc).mpr ⟨hlt, x, hxk, hch⟩) (p ++ t) (le_of_eq hl) hcq
    have hxd : x ∈ d.objects := (hcan.held _ d x hd).mpr ⟨hxk, hl, hcq⟩
    have hfil : d.objects.filter (fun y => y ≠ o) ≠ [] := by
      refine List.ne_nil_of_mem (a := x) ?_
      rw [List.mem_filter]
      exact ⟨hxd, by simpa using hxo⟩
    obtain ⟨d', hd'⟩ := f2 _ d hd hfil
    rw [cellAt_append, hc'] at hd'
    simp only [Option.some_bind] at hd'
    cases t with
    | nil =>
      simp only [List.append_nil] at hl
      omega
    | cons j t =>
      intro hn
      rw [cellAt_leaf hn] at hd'
      cases hd'

theorem built_unique {lowBound highBound : Vector3f} {md : Nat}
    {test : ObjectCellIntersectionTest} {s : Octree} (h : Built lowBound highBound md test s) :
    ReachableUnique s := by
  induction h with
  | fresh => exact ReachableUnique.fresh _ _ _ _
  | insert fuel object _ hf hi ih => exact ReachableUnique.insert fuel object ih hf hi
  | remove object _ hr ih => exact ReachableUnique.remove object ih hr

theorem built_inv {lowBound highBound : Vector3f} {md : Nat}
    {test : ObjectCellIntersectionTest} {s : Octree} (h : Built lowBound highBound md test s) :
    Inv s :=
  reachable_inv (reachableUnique_reachable (built_unique h))

theorem built_fields {lowBound highBound : Vector3f} {md : Nat}
    {test : ObjectCellIntersectionTest} {s : Octree} (h : Built lowBound highBound md test s) :
    s.maxDepth = md ∧ s.objectInCellTest = test ∧
      s.rootCell.region = (Cell.new lowBound highBound).region := by
  induction h with
  | fresh => exact ⟨rfl, rfl, rfl⟩
  | insert fuel object hb _ hi ih =>
    have hinv := built_inv hb
    obtain ⟨h1, h2, _⟩ := insert_spec _ _ fuel object hinv.shape hinv.depth hi
    exact ⟨h1.trans ih.1, h2.trans ih.2.1,
      (insert_root_region _ _ fuel object hinv.shape hinv.depth hi).trans ih.2.2⟩
  | remove object hb hr ih =>
    have hinv := built_inv hb
    obtain ⟨h1, h2, _, _, _, f1, _⟩ := remove_effect hinv hr
    obtain ⟨c, hc, hreg, _⟩ := f1 [] _ rfl
    simp only [cellAt_nil, Option.some.injEq] at hc
    subst hc
    exact ⟨h1.trans ih.1, h2.trans ih.2.1, hreg.trans ih.2.2⟩

theorem built_canonical {lowBound highBound : Vector3f} {md : Nat}
    {test : ObjectCellIntersectionTest} {s : Octree}
    (hher : Hereditary test (Cell.new lowBound highBound).region md)
    (h : Built lowBound highBound md test s) :
    Canonical test (Cell.new lowBound highBound).region md s := by
  induction h with
  | fresh => exact canonical_fresh test lowBound highBound md
  | insert fuel object hb _ hi ih =>
    obtain ⟨h1, h2, h3⟩ := built_fields hb
    exact (canonical_insert hher (built_inv hb)
      (reachable_geomInv (reachableUnique_reachable (built_unique hb))).1 h3 h1 h2 ih hi).1
  | remove object hb hr ih =>
    exact canonical_remove hher (built_inv hb) (built_fields hb).1 ih hr

theorem insertAll_built {lowBound highBound : Vector3f} {md : Nat}
    {test : ObjectCellIntersectionTest}
    (hher : Hereditary test (Cell.new lowBound highBound).region md) (fuel : Nat) :
    ∀ (os : List Obj) (s s1 : Octree), Built lowBound highBound md test s → os.Nodup →
      (∀ o, o ∈ os → o ∉ keysOf s.cellMap) → insertAll fuel os s = some s1 →
      Built lowBound highBound md test s1 ∧
      ∀ x, x ∈ keysOf s1.cellMap ↔ x ∈ keysOf s.cellMap ∨
        (x ∈ os ∧ chainOk test x (Cell.new lowBound highBound).region [] = true) := by
  intro os
  induction os with
  | nil =>
    intro s s1 hb _ _ h
    simp only [insertAll, Option.some.injEq] at h
    subst h
    exact ⟨hb, fun x => by simp⟩
  | cons o rest ih =>
    intro s s1 hb hnd hfresh h
    simp only [insertAll] at h
    cases hi : s.insert fuel o with
    | none => simp [hi] at h
    | some s' =>
      simp only [hi] at h
      have hnd' := List.nodup_cons.mp hnd
      have hb' : Built lowBound highBound md test s' :=
        Built.insert fuel o hb ((find_eq_none_iff _ _).mpr (hfresh o (List.mem_cons_self _ _))) hi
      obtain ⟨h1, h2, h3⟩ := built_fields hb
      have hk := (canonical_insert hher (built_inv hb)
        (reachable_geomInv (reachableUnique_reachable (built_unique hb))).1 h3 h1 h2
        (built_canonical hher hb) hi).2
      obtain ⟨hb1, hk1⟩ := ih s' s1 hb' hnd'.2 (by
        intro y hy hmem
        rcases (hk y).mp hmem with e | ⟨e, _⟩
        · exact hfresh y (List.mem_cons_of_mem _ hy) e
        · exact hnd'.1 (e ▸ hy)) h
      refine ⟨hb1, ?_⟩
      intro x
      rw [hk1 x, hk x]
      simp only [List.mem_cons]
      constructor
      · rintro ((e | ⟨e, hc⟩) | ⟨e, hc⟩)
        · exact Or.inl e
        · exact Or.inr ⟨Or.inl e, e ▸ hc⟩
        · exact Or.inr ⟨Or.inr e, hc⟩
      · rintro (e | ⟨e | e, hc⟩)
        · exact Or.inl (Or.inl e)
        · exact Or.inl (Or.inr ⟨e, e ▸ hc⟩)
        · exact Or.inr ⟨e, hc⟩

theorem insertAll_total : ∀ (os : List Obj) (s : Octree), Inv s →
    ∃ s1, insertAll (s.maxDepth + 1) os s = some s1 := by
  intro os
  induction os with
  | nil => intro s _; exact ⟨s, rfl⟩
  | cons o rest ih =>
    intro s hinv
    obtain ⟨s', hi⟩ := insert_total s o hinv.shape hinv.depth
    obtain ⟨hmd, _, _⟩ := insert_spec s s' _ o hinv.shape hinv.depth hi
    obtain ⟨s1, h1⟩ := ih s' (hinv.insert hi)
    rw [hmd] at h1
    exact ⟨s1, by simp only [insertAll, hi, h1]⟩

theorem insertAll_fuel_unique : ∀ (os : List Obj) (s a b : Octree) (f1 f2 : Nat),
    insertAll f1 os s = some a → insertAll f2 os s = some b → a = b := by
  intro os
  induction os with
  | nil =>
    intro s a b f1 f2 h1 h2
    simp only [insertAll, Option.some.injEq] at h1 h2
    rw [← h1, ← h2]
  | cons o rest ih =>
    intro s a b f1 f2 h1 h2
    simp only [insertAll] at h1 h2
    cases hi1 : s.insert f1 o with
    | none => simp [hi1] at h1
    | some s1 =>
      cases hi2 : s.insert f2 o with
      | none => simp [hi2] at h2
      | some s2 =>
        have := insert_fuel_unique _ _ _ _ _ _ hi1 hi2
        subst this
        simp only [hi1] at h1
        simp only [hi2] at h2
        exact ih _ _ _ _ _ h1 h2

theorem removeAll_built {lowBound highBound : Vector3f} {md : Nat}
    {test : ObjectCellIntersectionTest} :
    ∀ (rs : List Obj) (s : Octree), Built lowBound highBound md test s →
      ∃ s2, removeAll rs s = some s2 ∧ Built lowBound highBound md test s2 ∧
        ∀ x, x ∈ keysOf s2.cellMap ↔ x ∈ keysOf s.cellMap ∧ x ∉ rs := by
  intro rs
  induction rs with
  | nil =>
    intro s hb
    exact ⟨s, rfl, hb, fun x => by simp⟩
  | cons o rest ih =>
    intro s hb
    have hinv := built_inv hb
    obtain ⟨s', hr⟩ := remove_total hinv (reachableUnique_entriesNodup (built_unique hb)) o
    obtain ⟨_, _, hm, _⟩ := remove_effect hinv hr
    obtain ⟨s2, h2, hb2, hk2⟩ := ih s' (Built.remove o hb hr)
    refine ⟨s2, by simp only [removeAll, hr, h2], hb2, ?_⟩
    intro x
    rw [hk2 x, hm, mem_keysOf_erase]
    simp only [List.mem_cons, not_or]
    tauto

theorem canonical_exists {test : ObjectCellIntersectionTest} {R : Region} {md : Nat}
    {sA sB : Octree} (hA : Canonical test R md sA) (hB : Canonical test R md sB)
    (hsA : ShapeOk sA.rootCell) (hsB : ShapeOk sB.rootCell)
    (hkeys : ∀ x, x ∈ keysOf sA.cellMap → x ∈ keysOf sB.cellMap) :
    ∀ (p : CellRef) (c : Cell), cellAt sA.rootCell p = some c →
      ∃ c2, cellAt sB.rootCell p = some c2 := by
  intro p
  induction p using List.reverseRecOn with
  | nil => intro _ _; exact ⟨sB.rootCell, rfl⟩
  | append_singleton q i ih =>
    intro c hc
    obtain ⟨cq, hcq, hne⟩ := parent_has_subcells hc
    obtain ⟨c2q, hc2q⟩ := ih cq hcq
    obtain ⟨hlt, x, hx, hch⟩ := (hA.split q cq hcq).mp hne
    have hne2 : c2q.subcells ≠ [] := (hB.split q c2q hc2q).mpr ⟨hlt, x, hkeys x hx, hch⟩
    rw [cellAt_snoc hcq] at hc
    have hi := getElem?_lt_of_some hc
    have h8 : cq.subcells.length = 8 := by
      rcases hsA q cq hcq with e | e
      · exact absurd e hne
      · exact e
    have h8' : c2q.subcells.length = 8 := by
      rcases hsB q c2q hc2q with e | e
      · exact absurd e hne2
      · exact e
    obtain ⟨sub, hsub⟩ := getElem?_some_of_lt (l := c2q.subcells) (i := i) (by omega)
    exact ⟨sub, by rw [cellAt_snoc hc2q]; exact hsub⟩

theorem canonical_same {test : ObjectCellIntersectionTest} {R : Region} {md : Nat}
    {sA sB : Octree} (hA : Canonical test R md sA) (hB : Canonical test R md sB)
    (hsA : ShapeOk sA.rootCell) (hsB : ShapeOk sB.rootCell)
    (hgA : GeomOk sA.rootCell) (hgB : GeomOk sB.rootCell)
    (hRA : sA.rootCell.region = R) (hRB : sB.rootCell.region = R)
    (hkeys : ∀ x, x ∈ keysOf sA.cellMap ↔ x ∈ keysOf sB.cellMap) (p : CellRef) :
    (cellAt sA.rootCell p).map nodeShape = (cellAt sB.rootCell p).map nodeShape := by
  cases hcA : cellAt sA.rootCell p with
  | none =>
    cases hcB : cellAt sB.rootCell p with
    | none => rfl
    | some c2 =>
      obtain ⟨c, hc⟩ := canonical_exists hB hA hsB hsA (fun x hx => (hkeys x).mpr hx) p c2 hcB
      rw [hcA] at hc
      cases hc
  | some c =>
    obtain ⟨c2, hcB⟩ := canonical_exists hA hB hsA hsB (fun x hx => (hkeys x).mp hx) p c hcA
    rw [hcB]
    simp only [Option.map_some', Option.some.injEq, nodeShape, Prod.mk.injEq]
    constructor
    · have h1 := regionAt_of_cellAt p _ c hgA hcA
      have h2 := regionAt_of_cellAt p _ c2 hgB hcB
      rw [hRA] at h1
      rw [hRB, h1] at h2
      exact Option.some.inj h2
    · have hiff : c.subcells ≠ [] ↔ c2.subcells ≠ [] := by
        rw [hA.split p c hcA, hB.split p c2 hcB]
        constructor
        · rintro ⟨hl, x, hx, hch⟩
          exact ⟨hl, x, (hkeys x).mp hx, hch⟩
        · rintro ⟨hl, x, hx, hch⟩
          exact ⟨hl, x, (hkeys x).mpr hx, hch⟩
      by_cases hn : c.subcells = []
      · have hn2 : c2.subcells = [] := by
          by_contra hcon
          exact (hiff.mpr hcon) hn
        rw [hn, hn2]
      · have hn2 := hiff.mp hn
        rcases hsA p c hcA with e | e
        · exact absurd e hn
        · rcases hsB p c2 hcB with e2 | e2
          · exact absurd e2 hn2
          · rw [e, e2]

theorem diagonalTest_hereditary (R : Region) (md : Nat) : Hereditary diagonalTest R md := by
  intro o p r _ _ ht
  have hin : r.contains ⟨(o : ℚ), (o : ℚ), (o : ℚ)⟩ := by
    simpa [diagonalTest, Region.contains] using ht
  obtain ⟨i, r', hoct, hin'⟩ := octant_covers r _ hin
  exact ⟨i, r', hoct, by simpa [diagonalTest, Region.contains] using hin'⟩

/-- C11. Collapse after removing everything: with a region callback that accepts one of the
eight octants of every cell above the maximum depth that it accepts, inserting distinct
objects `os` into a fresh octree returns (with `maxDepth + 1` levels of recursion), and
removing all of them afterwards, in any order `rs`, returns and leaves the octree as it was
when fresh: the root is a leaf without objects, with its bounds and center, and the index is
empty. -/
theorem collapse_after_removing_all (lowBound highBound : Vector3f) (md : Nat)
    (test : ObjectCellIntersectionTest)
    (hher : Hereditary test (Cell.new lowBound highBound).region md) (os rs : List Obj)
    (hnd : os.Nodup) (hperm : rs.Perm os) :
    (∃ s1, insertAll (md + 1) os (Octree.new lowBound highBound md test) = some s1) ∧
    ∀ fuel s1, insertAll fuel os (Octree.new lowBound highBound md test) = some s1 →
      ∃ s2, removeAll rs s1 = some s2 ∧ s2 = Octree.new lowBound highBound md test ∧
        s2.rootCell.subcells = [] ∧ s2.rootCell.objects = [] ∧ s2.cellMap = [] := by
  refine ⟨insertAll_total os _ (Inv.fresh lowBound highBound md test), ?_⟩
  intro fuel s1 h1
  obtain ⟨hb1, hk1⟩ := insertAll_built hher fuel os _ s1 Built.fresh hnd
    (fun o _ => by simp [keysOf, Octree.new]) h1
  obtain ⟨s2, h2, hb2, hk2⟩ := removeAll_built rs s1 hb1
  have hcan := built_canonical hher hb2
  obtain ⟨hmd, hT, hR⟩ := built_fields hb2
  have hnokey : ∀ x, x ∉ keysOf s2.cellMap := by
    intro x hx
    obtain ⟨hx1, hx2⟩ := (hk2 x).mp hx
    rcases (hk1 x).mp hx1 with e | ⟨e, _⟩
    · simp [keysOf, Octree.new] at e
    · exact hx2 (hperm.mem_iff.mpr e)
  have hm : s2.cellMap = [] := by
    have : keysOf s2.cellMap = [] := List.eq_nil_iff_forall_not_mem.mpr hnokey
    exact List.map_eq_nil_iff.mp this
  have hsub : s2.rootCell.subcells = [] := by
    by_contra hne
    obtain ⟨_, x, hx, _⟩ := (hcan.split [] _ rfl).mp hne
    exact hnokey x hx
  have hobj : s2.rootCell.objects = [] := by
    refine List.eq_nil_iff_forall_not_mem.mpr ?_
    intro x hx
    exact hnokey x ((hcan.held [] _ x rfl).mp hx).1
  refine ⟨s2, h2, ?_, hsub, hobj, hm⟩
  obtain ⟨root, cm, md', T'⟩ := s2
  obtain ⟨lo, hi, ce, subs, objs⟩ := root
  simp only [Cell.region, Cell.new, Region.mk.injEq] at hR
  simp only at hmd hT hm hsub hobj
  obtain ⟨rfl, rfl, rfl⟩ := hR
  subst hmd hT hm hsub hobj
  rfl

theorem collapse_after_removing_all_witness :
    Hereditary diagonalTest (Cell.new ⟨0, 0, 0⟩ ⟨8, 8, 8⟩).region 2 ∧
    ([1, 6] : List Obj).Nodup ∧ ([6, 1] : List Obj).Perm [1, 6] ∧
    (∃ s1, insertAll 3 [1, 6] (Octree.new ⟨0, 0, 0⟩ ⟨8, 8, 8⟩ 2 diagonalTest) = some s1) ∧
    ∀ fuel s1, insertAll fuel [1, 6] (Octree.new ⟨0, 0, 0⟩ ⟨8, 8, 8⟩ 2 diagonalTest) = some s1 →
      ∃ s2, removeAll [6, 1] s1 = some s2 ∧
        s2 = Octree.new ⟨0, 0, 0⟩ ⟨8, 8, 8⟩ 2 diagonalTest ∧
        s2.rootCell.subcells = [] ∧ s2.rootCell.objects = [] ∧ s2.cellMap = [] :=
  ⟨diagonalTest_hereditary _ _, by decide, by decide,
    collapse_after_removing_all ⟨0, 0, 0⟩ ⟨8, 8, 8⟩ 2 diagonalTest
      (diagonalTest_hereditary _ _) [1, 6] [6, 1] (by decide) (by decide)⟩

/-- C12. Tree shape is history independent: with a region callback that accepts one of the
eight octants of every cell above the maximum depth that it accepts, consider a state reached
from a fresh octree by `insert` (of objects that have no index entry at the time) and
`remove`, and the objects indexed in it, listed in `os` in the order of the index (the order
of their insertion) or in any other order. Inserting `os` into a fresh octree with the same
bounds, maximum depth and callback returns, and in the result the same cells exist as in the
state, with the same regions and the same number of subcells, so the same cells are split. -/
theorem shape_history_independent (lowBound highBound : Vector3f) (md : Nat)
    (test : ObjectCellIntersectionTest)
    (hher : Hereditary test (Cell.new lowBound highBound).region md) (s : Octree)
    (hb : Built lowBound highBound md test s) (os : List Obj)
    (hperm : os.Perm (keysOf s.cellMap)) :
    ∃ s2, insertAll (md + 1) os (Octree.new lowBound highBound md test) = some s2 ∧
      (∀ fuel s3, insertAll fuel os (Octree.new lowBound highBound md test) = some s3 →
        s3 = s2) ∧
      (∀ p, (cellAt s.rootCell p).map nodeShape = (cellAt s2.rootCell p).map nodeShape) ∧
      ∀ p, (∃ c, cellAt s.rootCell p = some c ∧ c.subcells ≠ []) ↔
        (∃ c, cellAt s2.rootCell p = some c ∧ c.subcells ≠ []) := by
  obtain ⟨s2, h2⟩ := insertAll_total os _ (Inv.fresh lowBound highBound md test)
  have hinv := built_inv hb
  have hnd : os.Nodup := hperm.nodup_iff.mpr hinv.keys
  obtain ⟨hb2, hk2⟩ := insertAll_built hher _ os _ s2 Built.fresh hnd
    (fun o _ => by simp [keysOf, Octree.new]) h2
  have hcan := built_canonical hher hb
  have hcan2 := built_canonical hher hb2
  have hinv2 := built_inv hb2
  have hkeys : ∀ x, x ∈ keysOf s.cellMap ↔ x ∈ keysOf s2.cellMap := by
    intro x
    rw [hk2 x]
    constructor
    · intro hx
      exact Or.inr ⟨hperm.mem_iff.mpr hx, hcan.rooted x hx⟩
    · rintro (e | ⟨e, _⟩)
      · simp [keysOf, Octree.new] at e
      · exact hperm.mem_iff.mp e
  have hsame := canonical_same hcan hcan2 hinv.shape hinv2.shape
    (reachable_geomInv (reachableUnique_reachable (built_unique hb))).1
    (reachable_geomInv (reachableUnique_reachable (built_unique hb2))).1
    (built_fields hb).2.2 (built_fields hb2).2.2 hkeys
  refine ⟨s2, h2, fun fuel s3 h3 => insertAll_fuel_unique _ _ _ _ _ _ h3 h2, hsame, ?_⟩
  intro p
  have hp := hsame p
  constructor
  · rintro ⟨c, hc, hne⟩
    rw [hc] at hp
    cases hc2 : cellAt s2.rootCell p with
    | none => rw [hc2] at hp; cases hp
    | some c2 =>
      rw [hc2] at hp
      simp only [Option.map_some', Option.some.injEq, nodeShape, Prod.mk.injEq] at hp
      exact ⟨c2, rfl, length_ne_nil hp.2 hne⟩
  · rintro ⟨c2, hc2, hne⟩
    rw [hc2] at hp
    cases hc : cellAt s.rootCell p with
    | none => rw [hc] at hp; cases hp
    | some c =>
      rw [hc] at hp
      simp only [Option.map_some', Option.some.injEq, nodeShape, Prod.mk.injEq] at hp
      exact ⟨c, rfl, length_ne_nil hp.2.symm hne⟩

theorem cornerTest_hereditary :
    Hereditary cornerTest (Cell.new ⟨0, 0, 0⟩ ⟨8, 8, 8⟩).region 1 := by
  intro o p r hp hr _
  have hnil : p = [] := List.length_eq_zero.mp (by omega)
  subst hnil
  simp only [regionAt, Option.some.injEq] at hr
  subst hr
  by_cases ho : o = 1
  · refine ⟨0, _, octant_eq _ 0 (by decide), ?_⟩
    subst ho
    simp [cornerTest, Cell.region, Cell.new]
  · refine ⟨7, _, octant_eq _ 7 (by decide), ?_⟩
    simp [cornerTest, ho, Cell.region, Cell.new]
    norm_num

theorem exampleCornerTwo_built :
    Built ⟨0, 0, 0⟩ ⟨8, 8, 8⟩ 1 cornerTest exampleCornerTwo :=
  Built.insert 2 2
    (Built.insert 2 1 Built.fresh rfl
      (show exampleCorner.insert 2 1 = some exampleCornerOne by with_unfolding_all rfl))
    rfl (show exampleCornerOne.insert 2 2 = some exampleCornerTwo by with_unfolding_all rfl)

theorem shape_history_independent_witness :
    Hereditary cornerTest (Cell.new ⟨0, 0, 0⟩ ⟨8, 8, 8⟩).region 1 ∧
    Built ⟨0, 0, 0⟩ ⟨8, 8, 8⟩ 1 cornerTest exampleCornerTwo ∧
    ([2, 1] : List Obj).Perm (keysOf exampleCornerTwo.cellMap) ∧
    ∃ s2, insertAll 2 [2, 1] (Octree.new ⟨0, 0, 0⟩ ⟨8, 8, 8⟩ 1 cornerTest) = some s2 ∧
      ∀ p, (cellAt exampleCornerTwo.rootCell p).map nodeShape =
        (cellAt s2.rootCell p).map nodeShape := by
  have hperm : ([2, 1] : List Obj).Perm (keysOf exampleCornerTwo.cellMap) := by
    show ([2, 1] : List Obj).Perm [1, 2]
    decide
  obtain ⟨s2, h1, _, h3, _⟩ := shape_history_independent ⟨0, 0, 0⟩ ⟨8, 8, 8⟩ 1 cornerTest
    cornerTest_hereditary exampleCornerTwo exampleCornerTwo_built [2, 1] hperm
  exact ⟨cornerTest_hereditary, exampleCornerTwo_built, hperm, s2, h1, h3⟩

theorem mmath_min_eq (a b : ℚ) : Mmath.min a b = min a b := by
  unfold Mmath.min
  by_cases h : a < b
  · rw [if_pos h, min_eq_left (le_of_lt h)]
  · rw [if_neg h, min_eq_right (not_lt.mp h)]

theorem mmath_max_eq (a b : ℚ) : Mmath.max a b = max a b := by
  unfold Mmath.max
  by_cases h : a > b
  · rw [if_pos h, max_eq_left (le_of_lt h)]
  · rw [if_neg h, max_eq_right (not_lt.mp h)]

theorem slab_spec (low high start direction : ℚ) (t0 : ℚ × ℚ) (hlh : low ≤ high)
    (hpar : direction = 0 → low ≤ start ∧ start ≤ high) (t : ℚ) :
    ((Geom.slab low high start direction t0).1 ≤ t ∧
        t ≤ (Geom.slab low high start direction t0).2) ↔
      (t0.1 ≤ t ∧ t ≤ t0.2 ∧ low ≤ start + t * direction ∧ start + t * direction ≤ high) := by
  unfold Geom.slab
  by_cases hd : direction = 0
  · obtain ⟨h1, h2⟩ := hpar hd
    subst hd
    simp only [ne_eq, not_true_eq_false, if_false, mul_zero, add_zero]
    tauto
  · simp only [ne_eq, hd, not_false_eq_true, if_true, mmath_min_eq, mmath_max_eq,
      max_le_iff, le_min_iff, min_le_iff, le_max_iff]
    rcases lt_or_gt_of_ne hd with hneg | hpos
    · have e1 : ∀ a : ℚ, (a - start) / direction ≤ t ↔ start + t * direction ≤ a := by
        intro a
        rw [div_le_iff_of_neg hneg]
        constructor <;> intro h <;> linarith
      have e2 : ∀ a : ℚ, t ≤ (a - start) / direction ↔ a ≤ start + t * direction := by
        intro a
        rw [le_div_iff_of_neg hneg]
        constructor <;> intro h <;> linarith
      rw [e1, e1, e2, e2]
      constructor
      · rintro ⟨⟨h1, h2⟩, h3, h4⟩
        refine ⟨h1, h3, ?_, ?_⟩
        · rcases h4 with h | h
          · exact h
          · linarith
        · rcases h2 with h | h
          · linarith
          · exact h
      · rintro ⟨h1, h2, h3, h4⟩
        exact ⟨⟨h1, Or.inr h4⟩, h2, Or.inl h3⟩
    · have e1 : ∀ a : ℚ, (a - start) / direction ≤ t ↔ a ≤ start + t * direction := by
        intro a
        rw [div_le_iff₀ hpos]
        constructor <;> intro h <;> linarith
      have e2 : ∀ a : ℚ, t ≤ (a - start) / direction ↔ start + t * direction ≤ a := by
        intro a
        rw [le_div_iff₀ hpos]
        constructor <;> intro h <;> linarith
      rw [e1, e1, e2, e2]
      constructor
      · rintro ⟨⟨h1, h2⟩, h3, h4⟩
        refine ⟨h1, h3, ?_, ?_⟩
        · rcases h2 with h | h
          · exact h
          · linarith
        · rcases h4 with h | h
          · linarith
          · exact h
      · rintro ⟨h1, h2, h3, h4⟩
        exact ⟨⟨h1, Or.inl h3⟩, h2, Or.inr h4⟩

/-- C22, failing input of `test.cpp`: for the sphere with center (-0.475, -0.475, 0) and
radius 0.5 and the box (0,0,0)-(1,1,1), `DoesIntersect(sphere, box)` is true although no
point of the closed box lies within the radius of the center (the nearest one, the corner
(0,0,0), is at squared distance 0.45125 > 0.25). -/
theorem sphere_box_corner_false_positive :
    Geom.DoesIntersectSphereAABB ⟨⟨-19/40, -19/40, 0⟩, 1/2⟩ ⟨⟨0, 0, 0⟩, ⟨1, 1, 1⟩⟩ = true ∧
    ¬ ∃ pt : Vector3f, (Geom.AABBf.mk ⟨0, 0, 0⟩ ⟨1, 1, 1⟩).contains pt ∧
      (Geom.Spheref.mk ⟨-19/40, -19/40, 0⟩ (1/2)).contains pt := by
  constructor
  · simp only [Geom.DoesIntersectSphereAABB]
    norm_num
  · rintro ⟨pt, ⟨h1, _, h3, _, _, _⟩, hs⟩
    simp only [Geom.Spheref.contains, Vector3f.sub, Vector3f.squaredNorm] at hs
    simp only at h1 h3
    nlinarith [mul_self_nonneg pt.z, mul_nonneg h1 h1, mul_nonneg h3 h3]

/-- The ray-box test never asks for `t >= 0`: the ray from (2,2,2) in direction (1,1,1) leaves
the box (0,0,0)-(1,1,1) behind, no point `start + t * direction` with `t >= 0` lies in the
box, and `DoesIntersect(ray, box)` is true (`tmin = -2`, `tmax = -1`; every intermediate
value is a small integer, so `float` computes the same). -/
theorem ray_box_behind_start :
    Geom.DoesIntersectRayAABB ⟨⟨2, 2, 2⟩, ⟨1, 1, 1⟩⟩ ⟨⟨0, 0, 0⟩, ⟨1, 1, 1⟩⟩ = true ∧
    ¬ ∃ t : ℚ, 0 ≤ t ∧ (Geom.AABBf.mk ⟨0, 0, 0⟩ ⟨1, 1, 1⟩).contains
      ((Geom.Rayf.mk ⟨2, 2, 2⟩ ⟨1, 1, 1⟩).getPointByDist t) := by
  constructor
  · simp only [Geom.DoesIntersectRayAABB, Geom.slab, mmath_min_eq, mmath_max_eq]
    norm_num
  · rintro ⟨t, ht, _, h2, _⟩
    simp only [Geom.Rayf.getPointByDist, Vector3f.add, Vector3f.smul] at h2
    linarith

/-- The formula of the ray-box test over exact rationals (the `float` code rounds the
quotients and can differ at the boundary): for a box with `lowBound <= highBound` and a ray
that, on every axis on which its direction is 0, starts between the bounds of the box, the
formula is true iff some point `start + t * direction` with `-100000 <= t <= 100000` lies in
the closed box. -/
theorem ray_box_slab_test (ray : Geom.Rayf) (box : Geom.AABBf)
    (hx : box.lowBound.x ≤ box.highBound.x) (hy : box.lowBound.y ≤ box.highBound.y)
    (hz : box.lowBound.z ≤ box.highBound.z)
    (hpx : ray.direction.x = 0 → box.lowBound.x ≤ ray.start.x ∧ ray.start.x ≤ box.highBound.x)
    (hpy : ray.direction.y = 0 → box.lowBound.y ≤ ray.start.y ∧ ray.start.y ≤ box.highBound.y)
    (hpz : ray.direction.z = 0 → box.lowBound.z ≤ ray.start.z ∧ ray.start.z ≤ box.highBound.z) :
    Geom.DoesIntersectRayAABB ray box = true ↔
      ∃ t : ℚ, -100000 ≤ t ∧ t ≤ 100000 ∧ box.contains (ray.getPointByDist t) := by
  have key : ∀ t : ℚ,
      ((Geom.slab box.lowBound.z box.highBound.z ray.start.z ray.direction.z
          (Geom.slab box.lowBound.y box.highBound.y ray.start.y ray.direction.y
            (Geom.slab box.lowBound.x box.highBound.x ray.start.x ray.direction.x
              (-100000, 100000)))).1 ≤ t ∧
        t ≤ (Geom.slab box.lowBound.z box.highBound.z ray.start.z ray.direction.z
          (Geom.slab box.lowBound.y box.highBound.y ray.start.y ray.direction.y
            (Geom.slab box.lowBound.x box.highBound.x ray.start.x ray.direction.x
              (-100000, 100000)))).2) ↔
      (-100000 ≤ t ∧ t ≤ 100000 ∧ box.contains (ray.getPointByDist t)) := by
    intro t
    have h3 := slab_spec box.lowBound.z box.highBound.z ray.start.z ray.direction.z
      (Geom.slab box.lowBound.y box.highBound.y ray.start.y ray.direction.y
        (Geom.slab box.lowBound.x box.highBound.x ray.start.x ray.direction.x
          (-100000, 100000))) hz hpz t
    have h2 := slab_spec box.lowBound.y box.highBound.y ray.start.y ray.direction.y
      (Geom.slab box.lowBound.x box.highBound.x ray.start.x ray.direction.x
        (-100000, 100000)) hy hpy t
    have h1 := slab_spec box.lowBound.x box.highBound.x ray.start.x ray.direction.x
      (-100000, 100000) hx hpx t
    simp only [Geom.AABBf.contains, Geom.Rayf.getPointByDist, Vector3f.add, Vector3f.smul]
    constructor
    · intro h
      obtain ⟨a3, b3, z1, z2⟩ := h3.mp h
      obtain ⟨a2, b2, y1, y2⟩ := h2.mp ⟨a3, b3⟩
      obtain ⟨a1, b1, x1, x2⟩ := h1.mp ⟨a2, b2⟩
      exact ⟨a1, b1, x1, x2, y1, y2, z1, z2⟩
    · rintro ⟨a1, b1, x1, x2, y1, y2, z1, z2⟩
      obtain ⟨a2, b2⟩ := h1.mpr ⟨a1, b1, x1, x2⟩
      obtain ⟨a3, b3⟩ := h2.mpr ⟨a2, b2, y1, y2⟩
      exact h3.mpr ⟨a3, b3, z1, z2⟩
  simp only [Geom.DoesIntersectRayAABB, decide_eq_true_eq, ge_iff_le]
  constructor
  · intro h
    exact ⟨_, (key _).mp ⟨le_refl _, h⟩⟩
  · rintro ⟨t, ht⟩
    obtain ⟨h1, h2⟩ := (key t).mpr ht
    exact le_trans h1 h2

theorem ray_box_slab_test_witness :
    ((Geom.Rayf.mk ⟨0, 1, 0⟩ ⟨1, 0, 0⟩).direction.y = 0 →
      (0 : ℚ) ≤ (Geom.Rayf.mk ⟨0, 1, 0⟩ ⟨1, 0, 0⟩).start.y ∧
        (Geom.Rayf.mk ⟨0, 1, 0⟩ ⟨1, 0, 0⟩).start.y ≤ 1) ∧
    (Geom.DoesIntersectRayAABB ⟨⟨0, 1, 0⟩, ⟨1, 0, 0⟩⟩ ⟨⟨0, 0, 0⟩, ⟨1, 1, 1⟩⟩ = true ↔
      ∃ t : ℚ, -100000 ≤ t ∧ t ≤ 100000 ∧
        (Geom.AABBf.mk ⟨0, 0, 0⟩ ⟨1, 1, 1⟩).contains
          ((Geom.Rayf.mk ⟨0, 1, 0⟩ ⟨1, 0, 0⟩).getPointByDist t)) :=
  ⟨fun _ => ⟨by norm_num, by norm_num⟩,
    ray_box_slab_test ⟨⟨0, 1, 0⟩, ⟨1, 0, 0⟩⟩ ⟨⟨0, 0, 0⟩, ⟨1, 1, 1⟩⟩ (by norm_num) (by norm_num)
      (by norm_num) (fun h => absurd h (by norm_num)) (fun _ => ⟨by norm_num, by norm_num⟩)
      (fun _ => ⟨by norm_num, by norm_num⟩)⟩

theorem sqDist_along (ray : Geom.Rayf) (c : Vector3f) (t : ℚ) :
    ((ray.getPointByDist t).sub c).squaredNorm =
      t * t * ray.direction.squaredNorm - 2 * t * (c.sub ray.start).dot ray.direction +
        (c.sub ray.start).squaredNorm := by
  simp only [Geom.Rayf.getPointByDist, Vector3f.sub, Vector3f.add, Vector3f.smul, Vector3f.dot,
    Vector3f.squaredNorm]
  ring

theorem sqNorm_sub_proj (v d : Vector3f) :
    (v.sub (Mmath.ProjectVectorOntoVector v d)).squaredNorm =
      v.squaredNorm - 2 * (v.dot d) * (v.dot d) + (v.dot d) * (v.dot d) * d.squaredNorm := by
  simp only [Mmath.ProjectVectorOntoVector, Vector3f.sub, Vector3f.smul, Vector3f.dot,
    Vector3f.squaredNorm]
  ring

/-- The formula of the ray-sphere test over exact rationals (the `float` code rounds
`center - start`, the projection and the squared norms, and can differ near tangency): for a
direction with squared norm exactly 1 the formula is true iff some point
`start + t * direction` with `t >= 0` has squared distance at most `radius * radius` from the
center of the sphere. -/
theorem ray_sphere_test (ray : Geom.Rayf) (sphere : Geom.Spheref)
    (hunit : ray.direction.squaredNorm = 1) :
    Geom.DoesIntersectRaySphere ray sphere = true ↔
      ∃ t : ℚ, 0 ≤ t ∧ sphere.contains (ray.getPointByDist t) := by
  have hpt : ∀ t : ℚ, sphere.contains (ray.getPointByDist t) ↔
      t * t - 2 * t * (sphere.center.sub ray.start).dot ray.direction +
        (sphere.center.sub ray.start).squaredNorm ≤ sphere.radius * sphere.radius := by
    intro t
    unfold Geom.Spheref.contains
    rw [sqDist_along, hunit, mul_one]
  have hproj := sqNorm_sub_proj (sphere.center.sub ray.start) ray.direction
  rw [hunit, mul_one] at hproj
  unfold Geom.DoesIntersectRaySphere
  simp only [hproj, hpt]
  generalize (sphere.center.sub ray.start).dot ray.direction = k
  generalize (sphere.center.sub ray.start).squaredNorm = v
  generalize sphere.radius * sphere.radius = rr
  by_cases hneg : k < 0
  · simp only [hneg, if_true]
    by_cases hgt : v > rr
    · simp only [hgt, if_true, Bool.false_eq_true, false_iff]
      rintro ⟨t, ht, h⟩
      nlinarith [mul_nonneg ht ht, mul_nonneg ht (le_of_lt (neg_pos.mpr hneg))]
    · simp only [hgt, if_false, true_iff]
      exact ⟨0, le_refl _, by simp only [mul_zero, zero_mul, sub_zero, zero_add]; exact not_lt.mp hgt⟩
  · simp only [hneg, if_false]
    by_cases hgt : v - 2 * k * k + k * k > rr
    · simp only [hgt, if_true, Bool.false_eq_true, false_iff]
      rintro ⟨t, _, h⟩
      nlinarith [mul_self_nonneg (t - k)]
    · simp only [hgt, if_false, true_iff]
      refine ⟨k, not_lt.mp hneg, ?_⟩
      have := not_lt.mp hgt
      nlinarith

theorem ray_sphere_test_witness :
    (Geom.Rayf.mk ⟨1, 1/2, 0⟩ ⟨-1, 0, 0⟩).direction.squaredNorm = 1 ∧
    (Geom.DoesIntersectRaySphere ⟨⟨1, 1/2, 0⟩, ⟨-1, 0, 0⟩⟩ ⟨⟨0, 0, 0⟩, 1/2⟩ = true ↔
      ∃ t : ℚ, 0 ≤ t ∧ (Geom.Spheref.mk ⟨0, 0, 0⟩ (1/2)).contains
        ((Geom.Rayf.mk ⟨1, 1/2, 0⟩ ⟨-1, 0, 0⟩).getPointByDist t)) :=
  ⟨by simp only [Vector3f.squaredNorm]; norm_num,
    ray_sphere_test ⟨⟨1, 1/2, 0⟩, ⟨-1, 0, 0⟩⟩ ⟨⟨0, 0, 0⟩, 1/2⟩
      (by simp only [Vector3f.squaredNorm]; norm_num)⟩

/-- The formulas of the ray-plane test and intersection over exact rationals (the `float` code
rounds the dot products and the quotient `t`, so its point lies near the plane, not on it, and
its dot product can vanish by underflow): the test formula is false iff
`normal . direction = 0`, and when it is true the point of the intersection formula satisfies
`normal . (p - plane.point) = 0` and is `start + t * direction` for some `t`. -/
theorem ray_plane_intersection (ray : Geom.Rayf) (plane : Geom.Planef) :
    (Geom.DoesIntersectRayPlane ray plane = false ↔ plane.normal.dot ray.direction = 0) ∧
    (Geom.DoesIntersectRayPlane ray plane = true →
      plane.normal.dot ((Geom.IntersectRayPlane ray plane).sub plane.point) = 0 ∧
      ∃ t : ℚ, Geom.IntersectRayPlane ray plane = ray.getPointByDist t) := by
  constructor
  · simp only [Geom.DoesIntersectRayPlane, ne_eq, decide_not, Bool.not_eq_false',
      decide_eq_true_eq]
  · intro h
    simp only [Geom.DoesIntersectRayPlane, ne_eq, decide_not, Bool.not_eq_true',
      decide_eq_false_iff_not] at h
    refine ⟨?_, _, rfl⟩
    obtain ⟨⟨sx, sy, sz⟩, ⟨dx, dy, dz⟩⟩ := ray
    obtain ⟨⟨px, py, pz⟩, ⟨nx, ny, nz⟩⟩ := plane
    simp only [Geom.IntersectRayPlane, Geom.Rayf.getPointByDist, Vector3f.sub, Vector3f.add,
      Vector3f.smul, Vector3f.dot] at h ⊢
    field_simp
    ring

theorem ray_plane_intersection_witness :
    Geom.DoesIntersectRayPlane ⟨⟨2, 2, 0⟩, ⟨0, -1, 0⟩⟩ ⟨⟨-1, -1, -1⟩, ⟨0, 1, 0⟩⟩ = true ∧
    (Geom.Planef.mk ⟨-1, -1, -1⟩ ⟨0, 1, 0⟩).normal.dot
      ((Geom.IntersectRayPlane ⟨⟨2, 2, 0⟩, ⟨0, -1, 0⟩⟩ ⟨⟨-1, -1, -1⟩, ⟨0, 1, 0⟩⟩).sub
        (Geom.Planef.mk ⟨-1, -1, -1⟩ ⟨0, 1, 0⟩).point) = 0 :=
  have h : Geom.DoesIntersectRayPlane ⟨⟨2, 2, 0⟩, ⟨0, -1, 0⟩⟩ ⟨⟨-1, -1, -1⟩, ⟨0, 1, 0⟩⟩ = true := by
    simp only [Geom.DoesIntersectRayPlane, Vector3f.dot]
    norm_num
  ⟨h, ((ray_plane_intersection ⟨⟨2, 2, 0⟩, ⟨0, -1, 0⟩⟩ ⟨⟨-1, -1, -1⟩, ⟨0, 1, 0⟩⟩).2 h).1⟩

/-- C26, failing input: the ray from (0,0,0) in direction (1,0,0) passes through the center of
the sphere with center (10,0,0) and radius 1 and meets its surface in (9,0,0), yet
`Intersect(ray, sphere)` returns three `NAN`, whatever `sqrt` computes: the code compares the
squared norm of the closest point (its distance from the origin) with the squared radius. -/
theorem ray_sphere_point_off_origin (sqrt : ℚ → ℚ) :
    Geom.IntersectRaySphere sqrt ⟨⟨0, 0, 0⟩, ⟨1, 0, 0⟩⟩ ⟨⟨10, 0, 0⟩, 1⟩ = none ∧
    (Geom.Rayf.mk ⟨0, 0, 0⟩ ⟨1, 0, 0⟩).direction.squaredNorm = 1 ∧
    (Geom.Rayf.mk ⟨0, 0, 0⟩ ⟨1, 0, 0⟩).getPointByDist 9 = ⟨9, 0, 0⟩ ∧
    ((⟨9, 0, 0⟩ : Vector3f).sub ⟨10, 0, 0⟩).squaredNorm = 1 * 1 := by
  refine ⟨?_, ?_, ?_, ?_⟩
  · simp only [Geom.IntersectRaySphere, Geom.Rayf.getPointByDist, Vector3f.sub, Vector3f.add,
      Vector3f.smul, Vector3f.dot, Vector3f.squaredNorm]
    norm_num
  · simp only [Vector3f.squaredNorm]; norm_num
  · simp only [Geom.Rayf.getPointByDist, Vector3f.add, Vector3f.smul]; norm_num
  · simp only [Vector3f.sub, Vector3f.squaredNorm]; norm_num

theorem length_of_mem_allRefs : ∀ (k : Nat) (q : CellRef), q ∈ allRefs k → q.length = k := by
  intro k
  induction k with
  | zero =>
    intro q hq
    simp only [allRefs, List.mem_singleton] at hq
    subst hq
    rfl
  | succ k ih =>
    intro q hq
    simp only [allRefs, List.mem_flatMap, List.mem_map] at hq
    obtain ⟨i, _, r, hr, rfl⟩ := hq
    simp [ih r hr]

theorem insert_structure {s s' : Octree} {fuel : Nat} {o : Obj} {R : Region} (hinv : Inv s)
    (hg : GeomOk s.rootCell) (hR : s.rootCell.region = R) (h : s.insert fuel o = some s') :
    (∀ p, SplitAt s'.rootCell p ↔
      SplitAt s.rootCell p ∨ (p.length < s.maxDepth ∧ chainOk s.objectInCellTest o R p = true)) ∧
    (∀ p, objectsAt s'.rootCell p =
      objectsAt s.rootCell p ++ placed s.objectInCellTest o R s.maxDepth p) ∧
    s'.cellMap = addCells s.cellMap o (chainLeaves s.objectInCellTest o R s.maxDepth) := by
  obtain ⟨_, _, hspec⟩ := insert_spec s s' fuel o hinv.shape hinv.depth h
  have hsh := insert_shape s s' fuel o hinv.shape hinv.depth h
  have hg' : GeomOk s'.rootCell := hsh.1 hg
  have hR' : s'.rootCell.region = R := by
    rw [insert_root_region s s' fuel o hinv.shape hinv.depth h, hR]
  have hshape' : ShapeOk s'.rootCell := hspec.2.1
  have hce : ∀ p c', cellAt s'.rootCell p = some c' →
      acceptedChain s.objectInCellTest o s'.rootCell p = chainOk s.objectInCellTest o R p := by
    intro p c' hc'
    rw [chain_eq _ o p _ c' hg' hc', hR']
  have hnew : ∀ p c', cellAt s'.rootCell p = some c' → p.length < s.maxDepth →
      chainOk s.objectInCellTest o R p = true → c'.subcells ≠ [] := by
    intro p c' hc' hlt hch
    exact (hsh.2 p c' hc').mpr (Or.inr ⟨hlt, by rw [hce p c' hc']; exact hch⟩)
  have hex := exists_of_chain (x := o) (R := R) hshape' hnew
  have hmemL : ∀ q, q ∈ acceptedLeaves s.objectInCellTest o s.maxDepth s'.rootCell ↔
      q.length = s.maxDepth ∧ chainOk s.objectInCellTest o R q = true := by
    intro q
    rw [mem_acceptedLeaves_iff _ o _ _ q hshape']
    constructor
    · rintro ⟨hl, hch⟩
      refine ⟨hl, ?_⟩
      cases hq : cellAt s'.rootCell q with
      | none =>
        exfalso
        have hmem : q ∈ acceptedLeaves s.objectInCellTest o s.maxDepth s'.rootCell :=
          (mem_acceptedLeaves_iff _ o _ _ q hshape').mpr ⟨hl, hch⟩
        obtain ⟨d, hd⟩ := cellAt_of_mem_acceptedLeaves _ o _ _ q hmem
        rw [hq] at hd
        cases hd
      | some c' => rw [← hce q c' hq]; exact hch
    · rintro ⟨hl, hch⟩
      refine ⟨hl, ?_⟩
      obtain ⟨c', hc'⟩ := hex q (le_of_eq hl) hch
      rw [hce q c' hc']; exact hch
  have hplaced : ∀ q, (if q ∈ acceptedLeaves s.objectInCellTest o s.maxDepth s'.rootCell
      then [o] else []) = placed s.objectInCellTest o R s.maxDepth q := by
    intro q
    unfold placed
    by_cases hq : q ∈ acceptedLeaves s.objectInCellTest o s.maxDepth s'.rootCell
    · rw [if_pos hq, if_pos ((hmemL q).mp hq)]
    · rw [if_neg hq, if_neg (fun e => hq ((hmemL q).mpr e))]
  refine ⟨?_, ?_, ?_⟩
  · intro p
    constructor
    · rintro ⟨c', hc', hne⟩
      rcases (hsh.2 p c' hc').mp hne with ⟨c, hc, hn⟩ | ⟨hlt, hch⟩
      · exact Or.inl ⟨c, hc, hn⟩
      · exact Or.inr ⟨hlt, by rw [← hce p c' hc']; exact hch⟩
    · rintro (⟨c, hc, hn⟩ | ⟨hlt, hch⟩)
      · obtain ⟨c', hc', _⟩ := hspec.2.2.2.1 p c hc
        exact ⟨c', hc', (hsh.2 p c' hc').mpr (Or.inl ⟨c, hc, hn⟩)⟩
      · obtain ⟨c', hc'⟩ := hex p (le_of_lt hlt) hch
        exact ⟨c', hc', hnew p c' hc' hlt hch⟩
  · intro p
    rw [← hplaced p]
    cases hc' : cellAt s'.rootCell p with
    | none =>
      have hc : cellAt s.rootCell p = none := by
        cases hc : cellAt s.rootCell p with
        | none => rfl
        | some c =>
          obtain ⟨c', h', _⟩ := hspec.2.2.2.1 p c hc
          rw [hc'] at h'
          cases h'
      have hnot : p ∉ acceptedLeaves s.objectInCellTest o s.maxDepth s'.rootCell := by
        intro hmem
        obtain ⟨d, hd⟩ := cellAt_of_mem_acceptedLeaves _ o _ _ p hmem
        rw [hc'] at hd
        cases hd
      simp only [objectsAt, hc', hc, if_neg hnot, List.append_nil]
    | some c' =>
      cases hc : cellAt s.rootCell p with
      | none =>
        simp only [objectsAt, hc', hc, List.nil_append]
        exact hspec.2.2.2.2 p c' hc' hc
      | some c =>
        obtain ⟨c2, h2, _, hobj⟩ := hspec.2.2.2.1 p c hc
        rw [hc'] at h2
        cases h2
        simp only [objectsAt, hc', hc]
        exact hobj
  · rw [hspec.1]
    congr 1
    simp only [List.nil_append, List.map_id']
    rw [acceptedLeaves_eq_filter]
    unfold chainLeaves
    apply List.filter_congr
    intro q hq
    have hl := length_of_mem_allRefs _ q hq
    have := hmemL q
    rw [mem_acceptedLeaves_iff _ o _ _ q hshape'] at this
    cases h1 : acceptedChain s.objectInCellTest o s'.rootCell q <;>
      cases h2 : chainOk s.objectInCellTest o R q <;> simp_all

/-- C21. Update equivalence: `update(o)` is `remove(o)` followed by `insert(o)` with the region
callback of the state, which is the current one after a move of the object; in a reachable
state, whenever `remove(o)` returns a state, `insert(o)` returns on it (with `maxDepth + 1`
levels of recursion) and `update(o)` returns that very result, for any budget that suffices;
and `remove(o)` does return when no object was inserted while it had an index entry. -/
theorem update_is_remove_then_insert (s : Octree) (h : Reachable s) (o : Obj) :
    (∀ fuel, s.update fuel o = (s.remove o).bind (fun s1 => s1.insert fuel o)) ∧
    (∀ test fuel, ({ s with objectInCellTest := test } : Octree).update fuel o =
      (({ s with objectInCellTest := test } : Octree).remove o).bind
        (fun s1 => s1.insert fuel o)) ∧
    (∀ s1, s.remove o = some s1 →
      ∃ s2, s1.insert (s.maxDepth + 1) o = some s2 ∧ s.update (s.maxDepth + 1) o = some s2 ∧
        ∀ fuel s3, s.update fuel o = some s3 → s3 = s2) ∧
    (ReachableUnique s → ∃ s1, s.remove o = some s1) := by
  have hdef : ∀ (t : Octree) (fuel : Nat),
      t.update fuel o = (t.remove o).bind (fun s1 => s1.insert fuel o) := by
    intro t fuel
    unfold Octree.update
    cases t.remove o <;> rfl
  have hinv := reachable_inv h
  refine ⟨hdef s, fun test fuel => hdef _ fuel, ?_, ?_⟩
  · intro s1 h1
    have hinv1 := hinv.remove h1
    obtain ⟨hmd, _⟩ := remove_effect hinv h1
    obtain ⟨s2, h2⟩ := insert_total s1 o hinv1.shape hinv1.depth
    rw [hmd] at h2
    refine ⟨s2, h2, by rw [hdef, h1]; exact h2, ?_⟩
    intro fuel s3 h3
    rw [hdef, h1] at h3
    exact insert_fuel_unique _ _ _ _ _ _ h3 h2
  · intro hu
    exact remove_total hinv (reachableUnique_entriesNodup hu) o

theorem update_is_remove_then_insert_witness :
    Reachable exampleFlatOne ∧
    exampleFlatOne.update 1 7 = (exampleFlatOne.remove 7).bind (fun s1 => s1.insert 1 7) :=
  ⟨exampleFlatOne_reachable,
    (update_is_remove_then_insert exampleFlatOne exampleFlatOne_reachable 7).1 1⟩

theorem objectsAt_fresh (lowBound highBound : Vector3f) (md : Nat)
    (test : ObjectCellIntersectionTest) (p : CellRef) :
    objectsAt (Octree.new lowBound highBound md test).rootCell p = [] := by
  cases p with
  | nil => rfl
  | cons i p =>
    unfold objectsAt
    rw [cellAt_leaf (by rfl)]

theorem not_splitAt_fresh (lowBound highBound : Vector3f) (md : Nat)
    (test : ObjectCellIntersectionTest) (p : CellRef) :
    ¬ SplitAt (Octree.new lowBound highBound md test).rootCell p := by
  rintro ⟨c, hc, hne⟩
  cases p with
  | nil =>
    simp only [cellAt_nil, Option.some.injEq] at hc
    subst hc
    exact hne rfl
  | cons i p =>
    rw [cellAt_leaf (by rfl)] at hc
    cases hc

/-- C29. Objects live only at maximum depth: in a reachable state a cell with a non-empty
object list lies at depth `maxDepth` and is a leaf, and every cell above that depth has an
empty object list. There is no capacity threshold: inserting one object into a fresh octree,
when the region callback accepts it along the chain of cells down to the reference `q` of
length `maxDepth`, returns, and afterwards every cell on that chain above depth `maxDepth`
has eight subcells and no objects, and the cell at its end is a leaf holding just the
object. -/
theorem objects_only_at_max_depth (s : Octree) (h : Reachable s) :
    (∀ p c, cellAt s.rootCell p = some c → c.objects ≠ [] →
      p.length = s.maxDepth ∧ c.subcells = []) ∧
    (∀ p c, cellAt s.rootCell p = some c → p.length < s.maxDepth → c.objects = []) ∧
    ∀ (lowBound highBound : Vector3f) (md : Nat) (test : ObjectCellIntersectionTest) (o : Obj)
      (q : CellRef), q.length = md →
      chainOk test o (Cell.new lowBound highBound).region q = true →
      ∃ s', (Octree.new lowBound highBound md test).insert (md + 1) o = some s' ∧
        ∀ p, p <+: q → ∃ c, cellAt s'.rootCell p = some c ∧
          (p.length < md → c.subcells.length = 8 ∧ c.objects = []) ∧
          (p.length = md → c.subcells = [] ∧ c.objects = [o]) := by
  have hinv := reachable_inv h
  refine ⟨?_, ?_, ?_⟩
  · intro p c hc hne
    have hl := hinv.occupied p c hc hne
    exact ⟨hl, leaf_of_depth hinv.depth hc hl⟩
  · intro p c hc hlt
    by_contra hne
    have := hinv.occupied p c hc hne
    omega
  · intro lowBound highBound md test o q hq hch
    have hinv0 := Inv.fresh lowBound highBound md test
    obtain ⟨s', hs'⟩ := insert_total (Octree.new lowBound highBound md test) o hinv0.shape
      hinv0.depth
    obtain ⟨hsplit, hobj, _⟩ := insert_structure (R := (Cell.new lowBound highBound).region)
      hinv0 (geomOk_leaf rfl) rfl hs'
    have hinv1 := hinv0.insert hs'
    obtain ⟨hmd, _, _⟩ := insert_spec _ s' _ o hinv0.shape hinv0.depth hs'
    refine ⟨s', hs', ?_⟩
    rintro p ⟨r, rfl⟩
    have hchp := chainOk_of_append test o p r _ hch
    have hex : ∃ c, cellAt s'.rootCell p = some c := by
      refine @exists_of_chain test (Cell.new lowBound highBound).region md o s'.rootCell
        hinv1.shape ?_ p
        (by simp only [List.length_append] at hq; omega) hchp
      intro p2 c2 hc2 hlt2 hch2
      obtain ⟨c3, hc3, hne3⟩ := (hsplit p2).mpr (Or.inr ⟨hlt2, hch2⟩)
      rw [hc2] at hc3
      cases hc3
      exact hne3
    obtain ⟨c, hc⟩ := hex
    have hobjp := hobj p
    simp only [objectsAt, hc, objectsAt_fresh, List.nil_append] at hobjp
    have hfresh : objectsAt (Octree.new lowBound highBound md test).rootCell p = [] :=
      objectsAt_fresh _ _ _ _ p
    unfold objectsAt at hfresh
    refine ⟨c, hc, ?_, ?_⟩
    · intro hlt
      obtain ⟨c3, hc3, hne3⟩ := (hsplit p).mpr (Or.inr ⟨hlt, hchp⟩)
      rw [hc] at hc3
      cases hc3
      refine ⟨?_, ?_⟩
      · rcases hinv1.shape p c hc with e | e
        · exact absurd e hne3
        · exact e
      · rw [hobjp, hfresh]
        unfold placed
        rw [if_neg (fun e => by
          have : p.length = md := e.1
          omega)]
        rfl
    · intro hl
      refine ⟨leaf_of_depth hinv1.depth hc (by rw [hmd]; exact hl), ?_⟩
      rw [hobjp, hfresh]
      unfold placed
      rw [if_pos ⟨hl, hchp⟩]
      rfl

theorem objects_only_at_max_depth_witness :
    Reachable exampleCornerOne ∧
    (∀ p c, cellAt exampleCornerOne.rootCell p = some c → c.objects ≠ [] →
      p.length = exampleCornerOne.maxDepth ∧ c.subcells = []) :=
  ⟨exampleCornerOne_reachable,
    (objects_only_at_max_depth exampleCornerOne exampleCornerOne_reachable).1⟩

theorem climbVisits_eight : ∀ (rev : List Nat) (cur : Cell) (Y : CellRef) (t : Cell),
    ClimbVisits rev cur Y t → ShapeOk cur →
    (∃ c, cellAt cur rev.reverse = some c ∧ c.subcells ≠ []) →
    ∃ cY, cellAt t Y = some cY ∧ cY.subcells.length = 8 := by
  intro rev cur Y t hv
  induction hv with
  | here rev root =>
    rintro hshape ⟨c, hc, hne⟩
    refine ⟨c, hc, ?_⟩
    rcases hshape _ c hc with e | e
    · exact absurd e hne
    · exact e
  | @up i parentRev root root1 X t hr _ ih =>
    intro hshape _
    have hshape1 := (collapse_step root root1 _ true hshape hr).shape hshape
    obtain ⟨c, hc, hm⟩ := removeSubcellsIfEmpty_true root root1 _ hr
    have hX : cellAt root1 ((i :: parentRev).reverse ++ []) =
        cellAt ((fun c : Cell => { c with subcells := [] }) c) [] :=
      cellAt_modifyAt_below _ _ _ _ _ [] hm hc
    simp only [List.append_nil, List.reverse_cons, cellAt_nil] at hX
    exact ih hshape1 (parent_has_subcells hX)

theorem removeInv_start (o : Obj) {s : Octree} (hinv : Inv s) :
    RemoveInv o s.maxDepth s.rootCell [] s.rootCell :=
  ⟨hinv.shape, hinv.depth, fun p c hc => ⟨c, hc, rfl, by simp⟩, fun p c hc _ => ⟨c, hc⟩⟩

/-- C30. Remove never visits a destroyed cell: in a state reached without inserting an object
that had an index entry, `remove(o)` returns for an object with index entry `cells`; and for
every cell `q` of the entry the loop reaches it (the part of the loop for the cells `pre`
before it returns a tree `cur`), in `cur` the cell is a leaf that holds `o`, a cell of the old
tree that is gone from `cur` held no object, or just `o` and was visited before, and every
invocation of the collapse routine that the visit of `q` entails is on a cell with exactly
eight subcells. -/
theorem remove_visits_live_cells (s : Octree) (h : ReachableUnique s) (o : Obj)
    (cells : CellList) (hf : s.cellMap.find o = some cells) :
    (∃ s', s.remove o = some s') ∧
    ∀ pre q post, cells = pre ++ q :: post →
      ∃ cur c, removeFromCells o pre s.rootCell = some cur ∧ cellAt cur q = some c ∧
        c.subcells = [] ∧ o ∈ c.objects ∧
        (∀ p c0, cellAt s.rootCell p = some c0 → cellAt cur p = none →
          ∀ x, x ∈ c0.objects → x = o ∧ p ∈ pre) ∧
        ∀ root1 X, modifyAt (eraseObject o) cur q = some root1 → parentRef q = some X →
          ∀ Y t, ClimbVisits X.reverse root1 Y t →
            ∃ cY, cellAt t Y = some cY ∧ cY.subcells.length = 8 := by
  have hinv := reachable_inv (reachableUnique_reachable h)
  have hnd : cells.Nodup := reachableUnique_entriesNodup h o cells hf
  have hcells : cellsOf s.cellMap o = cells := by simp [cellsOf, hf]
  have hholds : ∀ q, q ∈ cells → ∃ c1, cellAt s.rootCell q = some c1 ∧ o ∈ c1.objects :=
    fun q hq => (hinv.agree o q).mp (by rw [hcells]; exact hq)
  refine ⟨remove_total hinv (reachableUnique_entriesNodup h) o, ?_⟩
  intro pre q post hsplit
  subst hsplit
  have hndpre : pre.Nodup := (List.nodup_append.mp hnd).1
  have hq_notin : q ∉ pre := by
    intro hmem
    exact (List.nodup_append.mp hnd).2.2 hmem (List.mem_cons_self _ _)
  obtain ⟨cur, hcur⟩ := removeFromCells_total o s.maxDepth s.rootCell pre [] s.rootCell
    (removeInv_start o hinv) hndpre (fun _ _ => by simp)
    (fun p hp => hholds p (List.mem_append_left _ hp))
  have hri := removeFromCells_inv o s.maxDepth s.rootCell pre [] s.rootCell cur
    (removeInv_start o hinv) hcur
  simp only [List.append_nil] at hri
  obtain ⟨hshape, hdepth, g1, g2⟩ := hri
  obtain ⟨c1, hc1, ho1⟩ := hholds q (List.mem_append_right _ (List.mem_cons_self _ _))
  obtain ⟨c, hc⟩ := g2 q c1 hc1 (by rw [if_neg hq_notin]; exact List.ne_nil_of_mem ho1)
  obtain ⟨c1', hc1', _, hobj⟩ := g1 q c hc
  rw [hc1] at hc1'
  cases hc1'
  rw [if_neg hq_notin] at hobj
  have hlen : q.length = s.maxDepth := hinv.occupied q c1 hc1 (List.ne_nil_of_mem ho1)
  refine ⟨cur, c, hcur, hc, leaf_of_depth hdepth hc hlen, by rw [hobj]; exact ho1, ?_, ?_⟩
  · intro p c0 hc0 hnone x hx
    have hemp : (if p ∈ pre then c0.objects.filter (fun y => y ≠ o) else c0.objects) = [] := by
      by_contra hne
      obtain ⟨c2, hc2⟩ := g2 p c0 hc0 hne
      rw [hnone] at hc2
      cases hc2
    by_cases hp : p ∈ pre
    · rw [if_pos hp] at hemp
      refine ⟨?_, hp⟩
      by_contra hxo
      have : x ∈ c0.objects.filter (fun y => y ≠ o) := by
        rw [List.mem_filter]
        exact ⟨hx, by simpa using hxo⟩
      rw [hemp] at this
      simp at this
    · rw [if_neg hp] at hemp
      rw [hemp] at hx
      simp at hx
  · intro root1 X hm hpar Y t hv
    obtain ⟨i, rfl⟩ := parentRef_some hpar
    have hshape1 := erase_shape o _ cur root1 hm hshape
    obtain ⟨_, f2⟩ := erase_step o _ cur root1 hm
    obtain ⟨c', hc'⟩ := f2 _ c hc
    refine climbVisits_eight _ root1 Y t hv hshape1 ?_
    rw [List.reverse_reverse]
    exact parent_has_subcells hc'

theorem exampleCornerOne_unique : ReachableUnique exampleCornerOne :=
  ReachableUnique.insert 2 1 (ReachableUnique.fresh _ _ _ _) rfl
    (show exampleCorner.insert 2 1 = some exampleCornerOne by with_unfolding_all rfl)

theorem remove_visits_live_cells_witness :
    ReachableUnique exampleCornerOne ∧ exampleCornerOne.cellMap.find 1 = some [[0]] ∧
    ∃ s', exampleCornerOne.remove 1 = some s' :=
  ⟨exampleCornerOne_unique, rfl,
    (remove_visits_live_cells exampleCornerOne exampleCornerOne_unique 1 [[0]] rfl).1⟩

theorem exists_of_split_imp {X Y : Cell} (hsX : ShapeOk X) (hsY : ShapeOk Y)
    (himp : ∀ p, SplitAt X p → SplitAt Y p) :
    ∀ (p : CellRef) (c : Cell), cellAt X p = some c → ∃ c2, cellAt Y p = some c2 := by
  intro p
  induction p using List.reverseRecOn with
  | nil => intro _ _; exact ⟨Y, rfl⟩
  | append_singleton q i ih =>
    intro c hc
    obtain ⟨cq, hcq, hne⟩ := parent_has_subcells hc
    obtain ⟨c2q, hc2q, hne2⟩ := himp q ⟨cq, hcq, hne⟩
    rw [cellAt_snoc hcq] at hc
    have hi := getElem?_lt_of_some hc
    have h8 : cq.subcells.length = 8 := by
      rcases hsX q cq hcq with e | e
      · exact absurd e hne
      · exact e
    have h8' : c2q.subcells.length = 8 := by
      rcases hsY q c2q hc2q with e | e
      · exact absurd e hne2
      · exact e
    obtain ⟨sub, hsub⟩ := getElem?_some_of_lt (l := c2q.subcells) (i := i) (by omega)
    exact ⟨sub, by rw [cellAt_snoc hc2q]; exact hsub⟩

theorem same_shape_of_split_iff {X Y : Cell} (hsX : ShapeOk X) (hsY : ShapeOk Y)
    (hgX : GeomOk X) (hgY : GeomOk Y) (hR : X.region = Y.region)
    (hiff : ∀ p, SplitAt X p ↔ SplitAt Y p) (p : CellRef) :
    (cellAt X p).map nodeShape = (cellAt Y p).map nodeShape := by
  cases hcX : cellAt X p with
  | none =>
    cases hcY : cellAt Y p with
    | none => rfl
    | some c2 =>
      obtain ⟨c, hc⟩ := exists_of_split_imp hsY hsX (fun q => (hiff q).mpr) p c2 hcY
      rw [hcX] at hc
      cases hc
  | some c =>
    obtain ⟨c2, hcY⟩ := exists_of_split_imp hsX hsY (fun q => (hiff q).mp) p c hcX
    rw [hcY]
    simp only [Option.map_some', Option.some.injEq, nodeShape, Prod.mk.injEq]
    constructor
    · have h1 := regionAt_of_cellAt p _ c hgX hcX
      have h2 := regionAt_of_cellAt p _ c2 hgY hcY
      rw [hR, h2] at h1
      exact (Option.some.inj h1).symm
    · by_cases hn : c.subcells = []
      · have hn2 : c2.subcells = [] := by
          by_contra hcon
          obtain ⟨c3, hc3, hne3⟩ := (hiff p).mpr ⟨c2, hcY, hcon⟩
          rw [hcX] at hc3
          cases hc3
          exact hne3 hn
        rw [hn, hn2]
      · obtain ⟨c3, hc3, hne3⟩ := (hiff p).mp ⟨c, hcX, hn⟩
        rw [hcY] at hc3
        cases hc3
        rcases hsX p c hcX with e | e
        · exact absurd e hn
        · rcases hsY p c2 hcY with e2 | e2
          · exact absurd e2 hne3
          · rw [e, e2]

theorem insert_twice_structure {s s1 s2 : Octree} {f1 f2 : Nat} {a b : Obj} (hinv : Inv s)
    (hg : GeomInv s) (h1 : s.insert f1 a = some s1) (h2 : s1.insert f2 b = some s2) :
    Inv s2 ∧ GeomOk s2.rootCell ∧ s2.rootCell.region = s.rootCell.region ∧
    (∀ p, SplitAt s2.rootCell p ↔
      SplitAt s.rootCell p ∨
        (p.length < s.maxDepth ∧ chainOk s.objectInCellTest a s.rootCell.region p = true) ∨
        (p.length < s.maxDepth ∧ chainOk s.objectInCellTest b s.rootCell.region p = true)) ∧
    (∀ p, objectsAt s2.rootCell p =
      objectsAt s.rootCell p ++ placed s.objectInCellTest a s.rootCell.region s.maxDepth p ++
        placed s.objectInCellTest b s.rootCell.region s.maxDepth p) ∧
    s2.cellMap = addCells
      (addCells s.cellMap a (chainLeaves s.objectInCellTest a s.rootCell.region s.maxDepth)) b
      (chainLeaves s.objectInCellTest b s.rootCell.region s.maxDepth) := by
  have hinv1 := hinv.insert h1
  have hg1 := geomInv_insert hinv.shape hinv.depth hg h1
  have hg2 := geomInv_insert hinv1.shape hinv1.depth hg1 h2
  obtain ⟨hmd, hT, _⟩ := insert_spec s s1 f1 a hinv.shape hinv.depth h1
  have hR1 := insert_root_region s s1 f1 a hinv.shape hinv.depth h1
  have hR2 := insert_root_region s1 s2 f2 b hinv1.shape hinv1.depth h2
  obtain ⟨sp1, ob1, m1⟩ := insert_structure (R := s.rootCell.region) hinv hg.1 rfl h1
  obtain ⟨sp2, ob2, m2⟩ := insert_structure (R := s.rootCell.region) hinv1 hg1.1 hR1 h2
  rw [hmd, hT] at sp2 ob2 m2
  refine ⟨hinv1.insert h2, hg2.1, hR2.trans hR1, ?_, ?_, ?_⟩
  · intro p
    rw [sp2 p, sp1 p, or_assoc]
  · intro p
    rw [ob2 p, ob1 p]
  · rw [m2, m1]

theorem find_addCells_twice (m : CellMap) (a b : Obj) (hab : a ≠ b) (La Lb : CellList)
    (x : Obj) :
    CellMap.find (addCells (addCells m a La) b Lb) x =
      CellMap.find (addCells (addCells m b Lb) a La) x := by
  by_cases hxa : x = a
  · subst hxa
    rw [find_addCells_ne b x hab Lb, find_addCells_self x La, find_addCells_self x La,
      find_addCells_ne b x hab Lb, cellsOf_addCells_ne m b x hab Lb]
  · by_cases hxb : x = b
    · subst hxb
      rw [find_addCells_self x Lb, find_addCells_ne a x hxa La, find_addCells_ne a x hxa La,
        find_addCells_self x Lb, cellsOf_addCells_ne m a x hxa La]
    · rw [find_addCells_ne b x hxb Lb, find_addCells_ne a x hxa La, find_addCells_ne a x hxa La,
        find_addCells_ne b x hxb Lb]

/-- C28. Insertion order does not affect structure: in a reachable state, for any region
callback the state has and two distinct objects `a` and `b`, `insert(a); insert(b)` and
`insert(b); insert(a)` both return, and in the two results the same cells exist, with the same
regions and numbers of subcells (so the same cells are split), every object has the same index
entry, and the object list of every cell is the old list followed by `a` and `b`, each if the
cell is at depth `maxDepth` and accepted for it all the way down, in the order of insertion:
the lists have the same members and differ in the order of `a` and `b` only. -/
theorem insertion_order_independent (s : Octree) (h : Reachable s) (a b : Obj) (hab : a ≠ b) :
    ∃ sab sba, insertAll (s.maxDepth + 1) [a, b] s = some sab ∧
      insertAll (s.maxDepth + 1) [b, a] s = some sba ∧
      (∀ p, (cellAt sab.rootCell p).map nodeShape = (cellAt sba.rootCell p).map nodeShape) ∧
      (∀ p, SplitAt sab.rootCell p ↔ SplitAt sba.rootCell p) ∧
      (∀ x, sab.cellMap.find x = sba.cellMap.find x) ∧
      (∀ p, objectsAt sab.rootCell p =
          objectsAt s.rootCell p ++
            placed s.objectInCellTest a s.rootCell.region s.maxDepth p ++
            placed s.objectInCellTest b s.rootCell.region s.maxDepth p ∧
        objectsAt sba.rootCell p =
          objectsAt s.rootCell p ++
            placed s.objectInCellTest b s.rootCell.region s.maxDepth p ++
            placed s.objectInCellTest a s.rootCell.region s.maxDepth p) ∧
      ∀ p x, x ∈ objectsAt sab.rootCell p ↔ x ∈ objectsAt sba.rootCell p := by
  have hinv := reachable_inv h
  have hg := reachable_geomInv h
  obtain ⟨s1, h1⟩ := insert_total s a hinv.shape hinv.depth
  obtain ⟨t1, k1⟩ := insert_total s b hinv.shape hinv.depth
  have hinv1 := hinv.insert h1
  have hinvt := hinv.insert k1
  obtain ⟨hmd1, _, _⟩ := insert_spec s s1 _ a hinv.shape hinv.depth h1
  obtain ⟨hmdt, _, _⟩ := insert_spec s t1 _ b hinv.shape hinv.depth k1
  obtain ⟨s2, h2⟩ := insert_total s1 b hinv1.shape hinv1.depth
  obtain ⟨t2, k2⟩ := insert_total t1 a hinvt.shape hinvt.depth
  rw [hmd1] at h2
  rw [hmdt] at k2
  obtain ⟨i2, g2, r2, sp2, ob2, m2⟩ := insert_twice_structure hinv hg h1 h2
  obtain ⟨j2, gt2, rt2, spt2, obt2, mt2⟩ := insert_twice_structure hinv hg k1 k2
  have hsplit : ∀ p, SplitAt s2.rootCell p ↔ SplitAt t2.rootCell p := by
    intro p
    rw [sp2 p, spt2 p]
    tauto
  refine ⟨s2, t2, by simp only [insertAll, h1, h2], by simp only [insertAll, k1, k2],
    same_shape_of_split_iff i2.shape j2.shape g2 gt2 (r2.trans rt2.symm) hsplit, hsplit, ?_,
    fun p => ⟨ob2 p, obt2 p⟩, ?_⟩
  · intro x
    rw [m2, mt2]
    exact find_addCells_twice _ a b hab _ _ x
  · intro p x
    rw [ob2 p, obt2 p]
    simp only [List.mem_append]
    tauto

theorem insertion_order_independent_witness :
    Reachable exampleCorner ∧ (1 : Obj) ≠ 2 ∧
    ∃ sab sba, insertAll (exampleCorner.maxDepth + 1) [1, 2] exampleCorner = some sab ∧
      insertAll (exampleCorner.maxDepth + 1) [2, 1] exampleCorner = some sba ∧
      ∀ x, sab.cellMap.find x = sba.cellMap.find x := by
  have hr : Reachable exampleCorner := Reachable.fresh _ _ _ _
  obtain ⟨sab, sba, h1, h2, _, _, h5, _⟩ :=
    insertion_order_independent exampleCorner hr 1 2 (by decide)
  exact ⟨hr, by decide, sab, sba, h1, h2, h5⟩

theorem erase_pushBack (o : Obj) (c : CellRef) : ∀ m : CellMap,
    (m.pushBack o c).erase o = m.erase o := by
  intro m
  induction m with
  | nil => rfl
  | cons e rest ih =>
    obtain ⟨k, v⟩ := e
    simp only [CellMap.pushBack]
    by_cases hk : k = o
    · subst hk
      simp [CellMap.erase]
    · rw [if_neg hk]
      simp only [CellMap.erase, List.filter_cons] at ih ⊢
      rw [ih]

theorem erase_addCellToMap (m : CellMap) (o : Obj) (c : CellRef) :
    (addCellToMap m o c).erase o = m.erase o := by
  unfold addCellToMap
  cases hf : m.find o with
  | none => simp [CellMap.erase]
  | some v => exact erase_pushBack o c m

theorem erase_addCells (o : Obj) (l : CellList) : ∀ m : CellMap,
    (addCells m o l).erase o = m.erase o := by
  induction l with
  | nil => intro m; rw [addCells_nil]
  | cons c l ih =>
    intro m
    rw [addCells_cons, ih, erase_addCellToMap]

theorem cell_ext : ∀ (k : Nat) (a b : Cell), DepthOk k a →
    (∀ p, (cellAt a p).map (fun c => (c.region, c.objects, c.subcells.length)) =
      (cellAt b p).map (fun c => (c.region, c.objects, c.subcells.length))) → a = b := by
  intro k
  induction k with
  | zero =>
    intro a b hd hp
    have h0 := hp []
    simp only [cellAt_nil, Option.map_some', Option.some.injEq, Prod.mk.injEq] at h0
    obtain ⟨hr, ho, hl⟩ := h0
    have ha : a.subcells = [] := hd.leaf_of_zero
    have hb : b.subcells = [] := by
      rw [ha] at hl
      exact List.length_eq_zero.mp hl.symm
    obtain ⟨alo, ahi, ace, asub, aobj⟩ := a
    obtain ⟨blo, bhi, bce, bsub, bobj⟩ := b
    simp only [Cell.region, Region.mk.injEq] at hr
    simp only at ho ha hb
    obtain ⟨rfl, rfl, rfl⟩ := hr
    subst ho ha hb
    rfl
  | succ k ih =>
    intro a b hd hp
    have h0 := hp []
    simp only [cellAt_nil, Option.map_some', Option.some.injEq, Prod.mk.injEq] at h0
    obtain ⟨hr, ho, hl⟩ := h0
    have hsub : a.subcells = b.subcells := by
      apply List.ext_getElem?
      intro i
      cases hsa : a.subcells[i]? with
      | none =>
        have : a.subcells.length ≤ i := List.getElem?_eq_none_iff.mp hsa
        rw [hl] at this
        exact (List.getElem?_eq_none_iff.mpr this).symm
      | some sa =>
        have hi : i < b.subcells.length := by rw [← hl]; exact getElem?_lt_of_some hsa
        obtain ⟨sb, hsb⟩ := getElem?_some_of_lt hi
        rw [hsb]
        congr 1
        refine ih sa sb (hd.below hsa) ?_
        intro p
        have := hp (i :: p)
        rw [cellAt_cons, cellAt_cons, hsa, hsb] at this
        exact this
    obtain ⟨alo, ahi, ace, asub, aobj⟩ := a
    obtain ⟨blo, bhi, bce, bsub, bobj⟩ := b
    simp only [Cell.region, Region.mk.injEq] at hr
    simp only at ho hsub
    obtain ⟨rfl, rfl, rfl⟩ := hr
    subst ho hsub
    rfl

/-- C27. Insert then remove is the identity: with a region callback that accepts one of the
eight octants of every cell above the maximum depth that it accepts, in a state reached from a
fresh octree by `insert` (of objects without index entry at the time) and `remove`, for an
object `o` without index entry `insert(o)` returns, and `remove(o)` on the result returns
the state before the insertion: the same tree (cells, bounds, object lists) and the same
index. -/
theorem insert_then_remove_identity (lowBound highBound : Vector3f) (md : Nat)
    (test : ObjectCellIntersectionTest)
    (hher : Hereditary test (Cell.new lowBound highBound).region md) (s : Octree)
    (hb : Built lowBound highBound md test s) (o : Obj) (hf : s.cellMap.find o = none) :
    (∃ s1, s.insert (md + 1) o = some s1) ∧
    ∀ fuel s1, s.insert fuel o = some s1 → s1.remove o = some s := by
  have hinv := built_inv hb
  obtain ⟨hmd, hT, hR⟩ := built_fields hb
  constructor
  · rw [← hmd]
    exact insert_total s o hinv.shape hinv.depth
  · intro fuel s1 h1
    have hb1 : Built lowBound highBound md test s1 := Built.insert fuel o hb hf h1
    have hinv1 := built_inv hb1
    obtain ⟨s2, h2⟩ := remove_total hinv1 (reachableUnique_entriesNodup (built_unique hb1)) o
    have hb2 : Built lowBound highBound md test s2 := Built.remove o hb1 h2
    have hinv2 := built_inv hb2
    obtain ⟨hmd1, hT1, hspec⟩ := insert_spec s s1 fuel o hinv.shape hinv.depth h1
    obtain ⟨hmd2, hT2, hm2, _, _, f1, _⟩ := remove_effect hinv1 h2
    have hmap : s2.cellMap = s.cellMap := by
      rw [hm2, hspec.1, erase_addCells, erase_of_find_none _ _ hf]
    have hsame := canonical_same (built_canonical hher hb2) (built_canonical hher hb)
      hinv2.shape hinv.shape
      (reachable_geomInv (reachableUnique_reachable (built_unique hb2))).1
      (reachable_geomInv (reachableUnique_reachable (built_unique hb))).1
      (built_fields hb2).2.2 hR (fun x => by rw [hmap])
    have hnot : ∀ p c, cellAt s.rootCell p = some c → o ∉ c.objects := by
      intro p c hc ho
      have := (hinv.agree o p).mpr ⟨c, hc, ho⟩
      simp [cellsOf, hf] at this
    have hroot : s2.rootCell = s.rootCell := by
      refine cell_ext s.maxDepth _ _ (by rw [← hmd1, ← hmd2]; exact hinv2.depth) ?_
      intro p
      have hp := hsame p
      cases hc2 : cellAt s2.rootCell p with
      | none =>
        rw [hc2] at hp
        cases hc : cellAt s.rootCell p with
        | none => rfl
        | some c => rw [hc] at hp; cases hp
      | some c2 =>
        rw [hc2] at hp
        cases hc : cellAt s.rootCell p with
        | none => rw [hc] at hp; cases hp
        | some c =>
          rw [hc] at hp
          simp only [Option.map_some', Option.some.injEq, nodeShape, Prod.mk.injEq] at hp ⊢
          refine ⟨hp.1, ?_, hp.2⟩
          obtain ⟨c1, hc1, _, hobj2⟩ := f1 p c2 hc2
          obtain ⟨c1', hc1', _, hobj1⟩ := hspec.2.2.2.1 p c hc
          rw [hc1] at hc1'
          cases hc1'
          rw [hobj2, hobj1, List.filter_append]
          have e1 : c.objects.filter (fun x => x ≠ o) = c.objects := by
            rw [List.filter_eq_self]
            intro x hx
            have : x ≠ o := fun e => hnot p c hc (e ▸ hx)
            simpa using this
          have e2 : (if p ∈ acceptedLeaves s.objectInCellTest o s.maxDepth s1.rootCell
              then [o] else []).filter (fun x => x ≠ o) = [] := by
            split <;> simp
          rw [e1, e2, List.append_nil]
    rw [h2]
    congr 1
    obtain ⟨root2, cm2, md2, T2⟩ := s2
    obtain ⟨root, cm, md0, T0⟩ := s
    simp only at hmap hroot hmd1 hmd2 hT1 hT2
    subst hmap hroot
    have e1 : md2 = md0 := hmd2.trans hmd1
    have e2 : T2 = T0 := hT2.trans hT1
    subst e1 e2
    rfl

theorem insert_then_remove_identity_witness :
    Hereditary cornerTest (Cell.new ⟨0, 0, 0⟩ ⟨8, 8, 8⟩).region 1 ∧
    Built ⟨0, 0, 0⟩ ⟨8, 8, 8⟩ 1 cornerTest exampleCornerOne ∧
    exampleCornerOne.cellMap.find 2 = none ∧
    (∃ s1, exampleCornerOne.insert 2 2 = some s1) ∧
    ∀ fuel s1, exampleCornerOne.insert fuel 2 = some s1 → s1.remove 2 = some exampleCornerOne :=
  have hb : Built ⟨0, 0, 0⟩ ⟨8, 8, 8⟩ 1 cornerTest exampleCornerOne :=
    Built.insert 2 1 Built.fresh rfl
      (show exampleCorner.insert 2 1 = some exampleCornerOne by with_unfolding_all rfl)
  ⟨cornerTest_hereditary, hb, rfl,
    insert_then_remove_identity ⟨0, 0, 0⟩ ⟨8, 8, 8⟩ 1 cornerTest cornerTest_hereditary
      exampleCornerOne hb 2 rfl⟩

/-- C23, failing input: the ray from (0,5,0) in direction (1,0,0) is parallel to two axes and
stays at `y = 5`, so no point of it, and none of its supporting line, lies in the box
(0,0,0)-(1,1,1); yet `DoesIntersect(ray, box)` is true, because the block of an axis on which
the direction is 0 is skipped without a look at the start (`tmin = 0`, `tmax = 1` from the
x axis alone; every intermediate value is 0 or 1, so `float` computes the same). -/
theorem ray_box_parallel_outside :
    Geom.DoesIntersectRayAABB ⟨⟨0, 5, 0⟩, ⟨1, 0, 0⟩⟩ ⟨⟨0, 0, 0⟩, ⟨1, 1, 1⟩⟩ = true ∧
    ¬ ∃ t : ℚ, (Geom.AABBf.mk ⟨0, 0, 0⟩ ⟨1, 1, 1⟩).contains
      ((Geom.Rayf.mk ⟨0, 5, 0⟩ ⟨1, 0, 0⟩).getPointByDist t) := by
  constructor
  · simp only [Geom.DoesIntersectRayAABB, Geom.slab, mmath_min_eq, mmath_max_eq]
    norm_num
  · rintro ⟨t, _, _, _, h4, _⟩
    simp only [Geom.Rayf.getPointByDist, Vector3f.add, Vector3f.smul] at h4
    linarith

/-- The formula of the sphere-box test over exact rationals has no false negative: a sphere
with a radius that is not negative and a box that share a point are reported as
intersecting. -/
theorem sphere_box_no_false_negative (sphere : Geom.Spheref) (box : Geom.AABBf)
    (hr : 0 ≤ sphere.radius) (pt : Vector3f) (hb : box.contains pt) (hs : sphere.contains pt) :
    Geom.DoesIntersectSphereAABB sphere box = true := by
  obtain ⟨b1, b2, b3, b4, b5, b6⟩ := hb
  simp only [Geom.Spheref.contains, Vector3f.sub, Vector3f.squaredNorm] at hs
  have hx : (pt.x - sphere.center.x) * (pt.x - sphere.center.x) ≤
      sphere.radius * sphere.radius := by
    nlinarith [mul_self_nonneg (pt.y - sphere.center.y), mul_self_nonneg (pt.z - sphere.center.z)]
  have hy : (pt.y - sphere.center.y) * (pt.y - sphere.center.y) ≤
      sphere.radius * sphere.radius := by
    nlinarith [mul_self_nonneg (pt.x - sphere.center.x), mul_self_nonneg (pt.z - sphere.center.z)]
  have hz : (pt.z - sphere.center.z) * (pt.z - sphere.center.z) ≤
      sphere.radius * sphere.radius := by
    nlinarith [mul_self_nonneg (pt.x - sphere.center.x), mul_self_nonneg (pt.y - sphere.center.y)]
  have habs : ∀ d : ℚ, d * d ≤ sphere.radius * sphere.radius →
      -sphere.radius ≤ d ∧ d ≤ sphere.radius := by
    intro d hd
    exact abs_le.mp (abs_le_of_sq_le_sq (by simpa [sq] using hd) hr)
  obtain ⟨x1, x2⟩ := habs _ hx
  obtain ⟨y1, y2⟩ := habs _ hy
  obtain ⟨z1, z2⟩ := habs _ hz
  simp only [Geom.DoesIntersectSphereAABB, Bool.and_eq_true, decide_eq_true_eq, ge_iff_le]
  refine ⟨⟨⟨⟨⟨?_, ?_⟩, ?_⟩, ?_⟩, ?_⟩, ?_⟩ <;> linarith

theorem insert_layout {s s' : Octree} {fuel : Nat} {o : Obj} {R : Region}
    (hshape : ShapeOk s.rootCell) (hdepth : DepthOk s.maxDepth s.rootCell)
    (hg : GeomOk s.rootCell) (hR : s.rootCell.region = R) (h : s.insert fuel o = some s') :
    (∀ p, SplitAt s'.rootCell p ↔
      SplitAt s.rootCell p ∨ (p.length < s.maxDepth ∧ chainOk s.objectInCellTest o R p = true)) ∧
    (∀ p, objectsAt s'.rootCell p =
      objectsAt s.rootCell p ++ placed s.objectInCellTest o R s.maxDepth p) ∧
    s'.cellMap = addCells s.cellMap o (chainLeaves s.objectInCellTest o R s.maxDepth) ∧
    acceptedLeaves s.objectInCellTest o s.maxDepth s'.rootCell =
      chainLeaves s.objectInCellTest o R s.maxDepth := by
  obtain ⟨_, _, hspec⟩ := insert_spec s s' fuel o hshape hdepth h
  have hsh := insert_shape s s' fuel o hshape hdepth h
  have hg' : GeomOk s'.rootCell := hsh.1 hg
  have hR' : s'.rootCell.region = R := by
    rw [insert_root_region s s' fuel o hshape hdepth h, hR]
  have hshape' : ShapeOk s'.rootCell := hspec.2.1
  have hce : ∀ p c', cellAt s'.rootCell p = some c' →
      acceptedChain s.objectInCellTest o s'.rootCell p = chainOk s.objectInCellTest o R p := by
    intro p c' hc'
    rw [chain_eq _ o p _ c' hg' hc', hR']
  have hnew : ∀ p c', cellAt s'.rootCell p = some c' → p.length < s.maxDepth →
      chainOk s.objectInCellTest o R p = true → c'.subcells ≠ [] := by
    intro p c' hc' hlt hch
    exact (hsh.2 p c' hc').mpr (Or.inr ⟨hlt, by rw [hce p c' hc']; exact hch⟩)
  have hex := exists_of_chain (x := o) (R := R) hshape' hnew
  have hmemL : ∀ q, q ∈ acceptedLeaves s.objectInCellTest o s.maxDepth s'.rootCell ↔
      q.length = s.maxDepth ∧ chainOk s.objectInCellTest o R q = true := by
    intro q
    rw [mem_acceptedLeaves_iff _ o _ _ q hshape']
    constructor
    · rintro ⟨hl, hch⟩
      refine ⟨hl, ?_⟩
      cases hq : cellAt s'.rootCell q with
      | none =>
        exfalso
        have hmem : q ∈ acceptedLeaves s.objectInCellTest o s.maxDepth s'.rootCell :=
          (mem_acceptedLeaves_iff _ o _ _ q hshape').mpr ⟨hl, hch⟩
        obtain ⟨d, hd⟩ := cellAt_of_mem_acceptedLeaves _ o _ _ q hmem
        rw [hq] at hd
        cases hd
      | some c' => rw [← hce q c' hq]; exact hch
    · rintro ⟨hl, hch⟩
      refine ⟨hl, ?_⟩
      obtain ⟨c', hc'⟩ := hex q (le_of_eq hl) hch
      rw [hce q c' hc']; exact hch
  have hplaced : ∀ q, (if q ∈ acceptedLeaves s.objectInCellTest o s.maxDepth s'.rootCell
      then [o] else []) = placed s.objectInCellTest o R s.maxDepth q := by
    intro q
    unfold placed
    by_cases hq : q ∈ acceptedLeaves s.objectInCellTest o s.maxDepth s'.rootCell
    · rw [if_pos hq, if_pos ((hmemL q).mp hq)]
    · rw [if_neg hq, if_neg (fun e => hq ((hmemL q).mpr e))]
  have hleaves : acceptedLeaves s.objectInCellTest o s.maxDepth s'.rootCell =
      chainLeaves s.objectInCellTest o R s.maxDepth := by
    rw [acceptedLeaves_eq_filter]
    unfold chainLeaves
    apply List.filter_congr
    intro q hq
    have hl := length_of_mem_allRefs _ q hq
    have := hmemL q
    rw [mem_acceptedLeaves_iff _ o _ _ q hshape'] at this
    cases h1 : acceptedChain s.objectInCellTest o s'.rootCell q <;>
      cases h2 : chainOk s.objectInCellTest o R q <;> simp_all
  refine ⟨?_, ?_, ?_, ?_⟩
  · intro p
    constructor
    · rintro ⟨c', hc', hne⟩
      rcases (hsh.2 p c' hc').mp hne with ⟨c, hc, hn⟩ | ⟨hlt, hch⟩
      · exact Or.inl ⟨c, hc, hn⟩
      · exact Or.inr ⟨hlt, by rw [← hce p c' hc']; exact hch⟩
    · rintro (⟨c, hc, hn⟩ | ⟨hlt, hch⟩)
      · obtain ⟨c', hc', _⟩ := hspec.2.2.2.1 p c hc
        exact ⟨c', hc', (hsh.2 p c' hc').mpr (Or.inl ⟨c, hc, hn⟩)⟩
      · obtain ⟨c', hc'⟩ := hex p (le_of_lt hlt) hch
        exact ⟨c', hc', hnew p c' hc' hlt hch⟩
  · intro p
    rw [← hplaced p]
    cases hc' : cellAt s'.rootCell p with
    | none =>
      have hc : cellAt s.rootCell p = none := by
        cases hc : cellAt s.rootCell p with
        | none => rfl
        | some c =>
          obtain ⟨c', h', _⟩ := hspec.2.2.2.1 p c hc
          rw [hc'] at h'
          cases h'
      have hnot : p ∉ acceptedLeaves s.objectInCellTest o s.maxDepth s'.rootCell := by
        intro hmem
        obtain ⟨d, hd⟩ := cellAt_of_mem_acceptedLeaves _ o _ _ p hmem
        rw [hc'] at hd
        cases hd
      simp only [objectsAt, hc', hc, if_neg hnot, List.append_nil]
    | some c' =>
      cases hc : cellAt s.rootCell p with
      | none =>
        simp only [objectsAt, hc', hc, List.nil_append]
        exact hspec.2.2.2.2 p c' hc' hc
      | some c =>
        obtain ⟨c2, h2, _, hobj⟩ := hspec.2.2.2.1 p c hc
        rw [hc'] at h2
        cases h2
        simp only [objectsAt, hc', hc]
        exact hobj
  · rw [hspec.1, ← hleaves]
    congr 1
    simp only [List.nil_append, List.map_id']
  · exact hleaves

theorem cellAt_of_acceptedChain (test : ObjectCellIntersectionTest) (o : Obj) (root : Cell)
    (p : CellRef) (h : acceptedChain test o root p = true) : ∃ c, cellAt root p = some c := by
  unfold acceptedChain at h
  rw [List.all_eq_true] at h
  have hp := h p ((List.mem_inits p p).mpr (List.prefix_refl p))
  cases hc : cellAt root p with
  | none => simp [hc] at hp
  | some c => exact ⟨c, rfl⟩

theorem insertHelper_newGeom (test : ObjectCellIntersectionTest) (maxDepth : Nat) (o : Obj) :
    ∀ (fuel : Nat) (path : CellRef) (cell : Cell) (lvl : Nat) (m : CellMap) (k : Nat) (cell' : Cell)
      (m' : CellMap), lvl + k = maxDepth → ShapeOk cell → DepthOk k cell →
      insertHelper test maxDepth o fuel path cell lvl m = some (cell', m') →
      NewGeom cell cell' := by
  intro fuel
  induction fuel with
  | zero => intro path cell lvl m k cell' m' _ _ _ h; simp [insertHelper] at h
  | succ fuel ih =>
    intro path cell lvl m k cell' m' hk hshape hdepth h
    by_cases hleaf : cell.subcells = []
    · have hg : GeomOk cell' :=
        (insertHelper_shape test maxDepth o (fuel + 1) path cell lvl m k cell' m' hk hshape
          hdepth h).1 (geomOk_leaf hleaf)
      intro q i c' sub' hq hs' _
      exact hg q i c' sub' hq hs'
    · have hnl : cell.isLeaf = false := by
        cases hl : cell.isLeaf with
        | false => rfl
        | true => exact absurd ((isLeaf_iff cell).mp hl) hleaf
      rw [insertHelper] at h
      by_cases ht : test o cell.region = true
      · simp only [ht, if_true, hnl, Bool.false_eq_true, if_false] at h
        have hlen : cell.subcells.length = 8 := by
          rcases hshape.node with e | e
          · exact absurd e hleaf
          · exact e
        obtain ⟨k', rfl⟩ : ∃ k', k = k' + 1 := by
          cases k with
          | zero => exact absurd hdepth.leaf_of_zero hleaf
          | succ k' => exact ⟨k', rfl⟩
        obtain ⟨_, _, _, _, h5, _, ms, _, _, hms⟩ := insertSubcells_inv _ _ _ _ _ _ _ h
        have hlen' : cell'.subcells.length = 8 := by rw [h5, hlen]
        intro q i c' sub' hq hs' hnone
        cases q with
        | nil =>
          exfalso
          rw [cellAt_nil] at hq
          cases hq
          have hi : i < 8 := by rw [← hlen']; exact getElem?_lt_of_some hs'
          obtain ⟨sub, hsub⟩ := getElem?_some_of_lt (l := cell.subcells) (i := i) (by omega)
          have : cellAt cell ([] ++ [i]) = some sub := by
            rw [cellAt_snoc (cellAt_nil cell)]; exact hsub
          rw [this] at hnone
          cases hnone
        | cons j r =>
          rw [cellAt_cons] at hq
          cases hsub' : cell'.subcells[j]? with
          | none => simp [hsub'] at hq
          | some sub'' =>
            rw [hsub'] at hq
            simp only [Option.some_bind] at hq
            have hj : j < 8 := by rw [← hlen']; exact getElem?_lt_of_some hsub'
            obtain ⟨sub, sub2, e1, e2, e3⟩ := hms j (by omega) (by omega)
            rw [hsub'] at e2
            cases e2
            have hng := ih _ _ _ _ k' _ _ (by omega) (hshape.subcell e1) (hdepth.below e1) e3
            refine hng r i c' sub' hq hs' ?_
            rw [List.cons_append, cellAt_cons, e1] at hnone
            exact hnone
      · simp only [ht, Bool.false_eq_true, if_false, Option.some.injEq, Prod.mk.injEq] at h
        obtain ⟨rfl, rfl⟩ := h
        intro q i c' sub' hq hs' hnone
        rw [cellAt_snoc hq, hs'] at hnone
        cases hnone

theorem insert_newGeom (s s' : Octree) (fuel : Nat) (o : Obj) (hshape : ShapeOk s.rootCell)
    (hdepth : DepthOk s.maxDepth s.rootCell) (h : s.insert fuel o = some s') :
    NewGeom s.rootCell s'.rootCell := by
  unfold Octree.insert at h
  cases hr : insertHelper s.objectInCellTest s.maxDepth o fuel [] s.rootCell 0 s.cellMap with
  | none => simp [hr] at h
  | some r =>
    obtain ⟨root, cm⟩ := r
    simp only [hr, Option.some.injEq] at h
    subst h
    exact insertHelper_newGeom _ _ _ _ _ _ _ _ _ _ _ (by simp) hshape hdepth hr

/-- C1. Insert places an object in exactly the accepted cells of maximum depth: in a state
whose cells have no or eight subcells and lie at depth at most `maxDepth`, for an object `o`
without index entry, `insert` returns (with `maxDepth + 1` levels of recursion, and with the
same result for any budget that suffices). Afterwards the entry of `o` is the list
`acceptedCells` (the cells at depth `maxDepth` accepted together with all their ancestors, in
depth-first octant order), absent when that list is empty, and no other entry has changed;
every cell that existed keeps its region and its objects, with `o` appended exactly when the
cell is in the list, and a cell created by the call holds `o` alone when it is in the list and
nothing otherwise. The cells are really created: a cell has subcells after the call exactly
when it had some before or lies above depth `maxDepth` and is accepted together with all its
ancestors, and then it has eight; and every cell that the call has created has the region of
its octant in its parent. When moreover the subcells of the state are the octants of
their cells, as in every reachable state, they still are afterwards and all of this is
determined by the state before the call: the list is `chainLeaves`, the references of length
`maxDepth` along which the callback accepts the octant regions under the root region, each of
them now resolves to a leaf with that region which holds `o`, and every object list is the
old one followed by `o` at exactly these cells. -/
theorem insert_places_object (s : Octree) (o : Obj) (hshape : ShapeOk s.rootCell)
    (hdepth : DepthOk s.maxDepth s.rootCell) (hno : s.cellMap.find o = none) :
    ∃ s', s.insert (s.maxDepth + 1) o = some s' ∧
      (∀ fuel s'', s.insert fuel o = some s'' → s'' = s') ∧
      s'.cellMap.find o = (if acceptedCells s' o = [] then none else some (acceptedCells s' o)) ∧
      (∀ x, x ≠ o → s'.cellMap.find x = s.cellMap.find x) ∧
      (∀ p c, cellAt s.rootCell p = some c → ∃ c', cellAt s'.rootCell p = some c' ∧
        c'.region = c.region ∧
        c'.objects = c.objects ++ (if p ∈ acceptedCells s' o then [o] else [])) ∧
      (∀ p c', cellAt s'.rootCell p = some c' → cellAt s.rootCell p = none →
        c'.objects = (if p ∈ acceptedCells s' o then [o] else [])) ∧
      (∀ p, SplitAt s'.rootCell p ↔
        SplitAt s.rootCell p ∨
          (p.length < s.maxDepth ∧ acceptedChain s.objectInCellTest o s'.rootCell p = true)) ∧
      (∀ p c', cellAt s'.rootCell p = some c' → c'.subcells ≠ [] → c'.subcells.length = 8) ∧
      NewGeom s.rootCell s'.rootCell ∧
      (GeomOk s.rootCell →
        GeomOk s'.rootCell ∧
        acceptedCells s' o = chainLeaves s.objectInCellTest o s.rootCell.region s.maxDepth ∧
        (∀ q, q ∈ chainLeaves s.objectInCellTest o s.rootCell.region s.maxDepth →
          ∃ c', cellAt s'.rootCell q = some c' ∧ c'.subcells = [] ∧
            regionAt s.rootCell.region q = some c'.region ∧ o ∈ c'.objects) ∧
        (∀ p, SplitAt s'.rootCell p ↔
          SplitAt s.rootCell p ∨
            (p.length < s.maxDepth ∧
              chainOk s.objectInCellTest o s.rootCell.region p = true)) ∧
        ∀ p, objectsAt s'.rootCell p =
          objectsAt s.rootCell p ++
            placed s.objectInCellTest o s.rootCell.region s.maxDepth p) := by
  obtain ⟨s', hs'⟩ := insert_total s o hshape hdepth
  obtain ⟨hmd, htest, hm, hshape', hdepth', h4, h5⟩ :=
    insert_spec s s' _ o hshape hdepth hs'
  have hsh := insert_shape s s' _ o hshape hdepth hs'
  have hacc : acceptedCells s' o = acceptedLeaves s.objectInCellTest o s.maxDepth s'.rootCell := by
    rw [acceptedCells_eq, hmd, htest]
  refine ⟨s', hs', fun fuel s'' h'' => insert_fuel_unique s s'' s' fuel _ o h'' hs', ?_, ?_, ?_,
    ?_, ?_, ?_, insert_newGeom s s' _ o hshape hdepth hs', ?_⟩
  · rw [hm, find_addCells_self, hno, hacc]
    simp [cellsOf, hno]
  · intro x hx
    rw [hm, find_addCells_ne o x hx]
  · intro p c hp
    obtain ⟨c', hc', hreg, ho⟩ := h4 p c hp
    exact ⟨c', hc', hreg, by rw [ho, hacc]⟩
  · intro p c' hp hnone
    rw [h5 p c' hp hnone, hacc]
  · intro p
    constructor
    · rintro ⟨c', hc', hne⟩
      rcases (hsh.2 p c' hc').mp hne with ⟨c, hc, hn⟩ | hr
      · exact Or.inl ⟨c, hc, hn⟩
      · exact Or.inr hr
    · rintro (⟨c, hc, hn⟩ | ⟨hlt, hch⟩)
      · obtain ⟨c', hc', _⟩ := h4 p c hc
        exact ⟨c', hc', (hsh.2 p c' hc').mpr (Or.inl ⟨c, hc, hn⟩)⟩
      · obtain ⟨c', hc'⟩ := cellAt_of_acceptedChain _ o _ p hch
        exact ⟨c', hc', (hsh.2 p c' hc').mpr (Or.inr ⟨hlt, hch⟩)⟩
  · intro p c' hc' hne
    rcases hshape' p c' hc' with e | e
    · exact absurd e hne
    · exact e
  · intro hg
    obtain ⟨hsplit, hobj, _, hleaves⟩ :=
      insert_layout (R := s.rootCell.region) hshape hdepth hg rfl hs'
    have hg' : GeomOk s'.rootCell := hsh.1 hg
    have hR' := insert_root_region s s' _ o hshape hdepth hs'
    refine ⟨hg', by rw [hacc, hleaves], ?_, hsplit, hobj⟩
    intro q hq
    have hqa : q ∈ acceptedLeaves s.objectInCellTest o s.maxDepth s'.rootCell := by
      rw [hleaves]; exact hq
    obtain ⟨c', hc'⟩ := cellAt_of_mem_acceptedLeaves _ o _ _ q hqa
    have hlen : q.length = s.maxDepth := acceptedLeaves_length _ o _ _ q hqa
    have hch : chainOk s.objectInCellTest o s.rootCell.region q = true := by
      unfold chainLeaves at hq
      exact (List.mem_filter.mp hq).2
    refine ⟨c', hc', leaf_of_depth hdepth' hc' hlen, ?_, ?_⟩
    · rw [← hR']
      exact regionAt_of_cellAt q _ c' hg' hc'
    · have := hobj q
      simp only [objectsAt, hc'] at this
      rw [this]
      unfold placed
      rw [if_pos ⟨hlen, hch⟩]
      simp

theorem insert_places_object_witness :
    ShapeOk exampleCorner.rootCell ∧ DepthOk exampleCorner.maxDepth exampleCorner.rootCell ∧
    exampleCorner.cellMap.find 1 = none ∧ GeomOk exampleCorner.rootCell ∧
    chainLeaves cornerTest 1 exampleCorner.rootCell.region 1 = [[0]] ∧
    ∃ s', exampleCorner.insert (exampleCorner.maxDepth + 1) 1 = some s' ∧
      acceptedCells s' 1 = [[0]] ∧ s'.cellMap.find 1 = some [[0]] ∧
      ∃ c', cellAt s'.rootCell [0] = some c' ∧ c'.subcells = [] ∧ 1 ∈ c'.objects := by
  have hleaves : chainLeaves cornerTest 1 exampleCorner.rootCell.region 1 = [[0]] := by
    decide!
  have hg : GeomOk exampleCorner.rootCell := geomOk_leaf rfl
  obtain ⟨s', h1, _, h3, _, _, _, _, _, _, h9⟩ :=
    insert_places_object exampleCorner 1 (ShapeOk.leaf rfl) (DepthOk.of_leaf rfl) rfl
  obtain ⟨_, hacc, hcells, _, _⟩ := h9 hg
  have hacc' : acceptedCells s' 1 = [[0]] := by
    rw [hacc]
    exact hleaves
  obtain ⟨c', hc', hleaf, _, hmem⟩ := hcells [0] (by
    show [0] ∈ chainLeaves cornerTest 1 exampleCorner.rootCell.region 1
    rw [hleaves]
    simp)
  refine ⟨ShapeOk.leaf rfl, DepthOk.of_leaf rfl, rfl, hg, hleaves, s', h1, hacc', ?_,
    c', hc', hleaf, hmem⟩
  rw [h3, hacc']
  rfl

end GeneralizedOctree
